import Mathlib

/-!
Verification of the multi-agent coordinator core (LLM-driven common agent).

The definitions below are a shallow embedding of the Python source:

* src/common-agent/src/core/json_parser.py        (LLM response extractor)
* src/common-agent/src/common_agent_llm_driven.py (discovery, executor, fallback)
* src/common-agent/src/llm/provider_enhanced.py   (LLM envoy error mapping)
* src/common-agent/src/routes.py                  (task submission stream)

External effects (HTTP round trips, MCP child processes, the YAML library,
wall-clock time) are modelled as explicit oracle parameters; pure logic is
translated directly.  Json values mirror Python json.loads output: object
members are kept in parse order (lookup takes the *last* binding, matching
Python dict construction from duplicate keys), strings are kept in raw
undecoded source form and numbers keep their raw token text — the
development only compares values that arise from identical source text, so
this representation is faithful for every comparison made here.
-/

namespace MAS

/-- JSON values as produced by Python json.loads (see module comment for
the representation conventions). -/
inductive Json where
  | null
  | bool (b : Bool)
  | num (raw : String)
  | str (s : String)
  | arr (elems : List Json)
  | obj (members : List (String × Json))

/-- Python dict lookup over the member list: the *last* binding wins,
matching dict construction order from duplicate JSON keys.  Returns none
on non-objects (callers model the AttributeError separately where it
matters). -/
def jget (j : Json) (k : String) : Option Json :=
  match j with
  | .obj ms => ms.foldl (fun acc kv => if kv.1 = k then some kv.2 else acc) none
  | _ => none

/-- Python dict .get(k, d). -/
def jgetD (j : Json) (k : String) (d : Json) : Json := (jget j k).getD d

/-- Python truthiness of a decoded JSON value (bool(x)).  For numbers the
token denotes zero iff its mantissa has no nonzero digit. -/
def jtruthy (j : Json) : Bool :=
  match j with
  | .null => false
  | .bool b => b
  | .num raw => (raw.data.takeWhile (fun c => c ≠ 'e' ∧ c ≠ 'E')).any
      (fun c => c.isDigit ∧ c ≠ '0')
  | .str s => s != ""
  | .arr l => !l.isEmpty
  | .obj ms => !ms.isEmpty

/-- Whether an object member list has a binding for k (Python: k in d). -/
def hasKey (ms : List (String × Json)) (k : String) : Bool :=
  ms.any (fun kv => kv.1 = k)

/-- Python dict assignment d[k] = v: replace the first binding in place,
else append. -/
def aupsert {α : Type} (l : List (String × α)) (k : String) (v : α) :
    List (String × α) :=
  match l with
  | [] => [(k, v)]
  | kv :: t => if kv.1 = k then (k, v) :: t else kv :: aupsert t k v

/-- Association-list lookup (first binding; used for registries, whose
upsert keeps keys unique). -/
def alookup {α : Type} (l : List (String × α)) (k : String) : Option α :=
  match l with
  | [] => none
  | kv :: t => if kv.1 = k then some kv.2 else alookup t k

/-! ### The JSON acceptor of Python json.loads

Whitespace set, string/number token shapes and the object/array grammar
follow CPython json/decoder.py (strict mode: raw control characters are
rejected inside strings, trailing commas are rejected, object keys must be
strings). -/

/-- The whitespace skipped by the json decoder (json.decoder WHITESPACE_STR). -/
def isWs (c : Char) : Bool := c = ' ' || c = '\t' || c = '\n' || c = '\r'

/-- ASCII whitespace as stripped by str.strip() and matched by the regex
class backslash-s (the exotic Unicode members of those classes cannot occur
in a string accepted by the JSON grammar, so this ASCII subset is faithful
wherever the development uses it). -/
def isWs6 (c : Char) : Bool :=
  c = ' ' || c = '\t' || c = '\n' || c = '\r' || c = '\x0b' || c = '\x0c'

/-- The backtick character (0x60), named so that it never appears
literally in code. -/
def btk : Char := Char.ofNat 96

def hexDigit (c : Char) : Bool :=
  c.isDigit || ('a' ≤ c ∧ c ≤ 'f') || ('A' ≤ c ∧ c ≤ 'F')

/-- Single-character escapes accepted after a backslash in a JSON string. -/
def escChar (c : Char) : Bool :=
  c = '"' || c = '\\' || c = '/' || c = 'b' || c = 'f' ||
  c = 'n' || c = 'r' || c = 't'

/-- Parse the body of a JSON string after the opening quote; returns the
raw (undecoded) content and the input remaining after the closing quote.
Raw control characters are rejected (strict mode).  Fuel decreases on
every recursive call; each call consumes at least one character, so fuel
equal to the input length (what every call site passes) always
suffices. -/
def parseStringBody : Nat → List Char → Option (List Char × List Char)
  | 0, _ => none
  | fuel+1, cs =>
    match cs with
    | [] => none
    | c :: rest =>
      if c = '"' then some ([], rest)
      else if c = '\\' then
        match rest with
        | [] => none
        | e :: rest2 =>
          if escChar e then
            match parseStringBody fuel rest2 with
            | some (content, r) => some ('\\' :: e :: content, r)
            | none => none
          else if e = 'u' then
            match rest2 with
            | h1 :: h2 :: h3 :: h4 :: rest3 =>
              if hexDigit h1 && hexDigit h2 && hexDigit h3 && hexDigit h4 then
                match parseStringBody fuel rest3 with
                | some (content, r) =>
                  some ('\\' :: 'u' :: h1 :: h2 :: h3 :: h4 :: content, r)
                | none => none
              else none
            | _ => none
          else none
      else if c.toNat < 0x20 then none
      else
        match parseStringBody fuel rest with
        | some (content, r) => some (c :: content, r)
        | none => none

/-- Characters that can occur in a number token (the maximal-munch span
set; cf. the NUMBER_RE shape below). -/
def numChar (c : Char) : Bool :=
  c.isDigit || c = '-' || c = '+' || c = '.' || c = 'e' || c = 'E'

/-- Exponent part of NUMBER_RE: ([eE][+-]?[0-9]+)? followed by end. -/
def validExpPart : List Char → Bool
  | [] => true
  | c :: t =>
    if c = 'e' ∨ c = 'E' then
      let t2 := match t with
                | '+' :: r => r
                | '-' :: r => r
                | r => r
      t2 ≠ [] && t2.all Char.isDigit
    else false

/-- Fraction part of NUMBER_RE: (\.[0-9]+)? then exponent. -/
def validFracPart : List Char → Bool
  | '.' :: t =>
    (t.takeWhile Char.isDigit) ≠ [] && validExpPart (t.dropWhile Char.isDigit)
  | t => validExpPart t

/-- Integer part of NUMBER_RE: (0|[1-9][0-9]*) then fraction. -/
def validIntPart : List Char → Bool
  | [] => false
  | '0' :: t => validFracPart t
  | c :: t => c.isDigit && validFracPart (t.dropWhile Char.isDigit)

/-- Full-token check for NUMBER_RE -?(0|[1-9][0-9]*)(\.[0-9]+)?([eE][+-]?[0-9]+)?.
The decoder's regex match is maximal-munch; taking the maximal numChar span
and validating it whole is extensionally equal on every input the grammar
accepts (after a number token only whitespace or a structural character may
follow). -/
def validNumTok : List Char → Bool
  | '-' :: t => validIntPart t
  | t => validIntPart t

/-- Parse a number token by maximal munch over numChar, validating the
token shape. -/
def parseNumber (cs : List Char) : Option (Json × List Char) :=
  let tok := cs.takeWhile numChar
  if tok ≠ [] && validNumTok tok then some (.num ⟨tok⟩, cs.dropWhile numChar)
  else none

/-- Consume an exact character sequence. -/
def stripChars : List Char → List Char → Option (List Char)
  | [], cs => some cs
  | p :: ps, c :: cs => if c = p then stripChars ps cs else none
  | _ :: _, [] => none

mutual

/-- Parse one JSON value at the head of the input (no leading whitespace
skipped: callers skip, as in the CPython scanner).  Fuel decreases on
every mutual call; input length + 1 is always enough fuel (each cycle in
the call graph consumes at least one character). -/
def parseValue : Nat → List Char → Option (Json × List Char)
  | 0, _ => none
  | fuel+1, cs =>
    match cs with
    | '{' :: t =>
      match (t.dropWhile isWs) with
      | '}' :: r => some (.obj [], r)
      | t1 =>
        match parseMembersReq fuel t1 with
        | some (ms, r) => some (.obj ms, r)
        | none => none
    | '[' :: t =>
      match (t.dropWhile isWs) with
      | ']' :: r => some (.arr [], r)
      | t1 =>
        match parseElemsReq fuel t1 with
        | some (vs, r) => some (.arr vs, r)
        | none => none
    | '"' :: t =>
      match parseStringBody t.length t with
      | some (content, r) => some (.str ⟨content⟩, r)
      | none => none
    | 't' :: t =>
      match stripChars ['r', 'u', 'e'] t with
      | some r => some (.bool true, r)
      | none => none
    | 'f' :: t =>
      match stripChars ['a', 'l', 's', 'e'] t with
      | some r => some (.bool false, r)
      | none => none
    | 'n' :: t =>
      match stripChars ['u', 'l', 'l'] t with
      | some r => some (.null, r)
      | none => none
    | c :: _ => if c.isDigit || c = '-' then parseNumber cs else none
    | [] => none

/-- Parse one or more key : value members followed by the closing brace
(input must start at a key quote; whitespace already skipped). -/
def parseMembersReq : Nat → List Char → Option (List (String × Json) × List Char)
  | 0, _ => none
  | fuel+1, cs =>
    match cs with
    | '"' :: t =>
      match parseStringBody t.length t with
      | some (key, r1) =>
        match (r1.dropWhile isWs) with
        | ':' :: r2 =>
          match parseValue fuel (r2.dropWhile isWs) with
          | some (v, r3) =>
            match (r3.dropWhile isWs) with
            | ',' :: r4 =>
              match parseMembersReq fuel (r4.dropWhile isWs) with
              | some (ms, r5) => some ((⟨key⟩, v) :: ms, r5)
              | none => none
            | '}' :: r4 => some ([(⟨key⟩, v)], r4)
            | _ => none
          | none => none
        | _ => none
      | none => none
    | _ => none

/-- Parse one or more array elements followed by the closing bracket
(input must start at a value; whitespace already skipped). -/
def parseElemsReq : Nat → List Char → Option (List Json × List Char)
  | 0, _ => none
  | fuel+1, cs =>
    match parseValue fuel cs with
    | some (v, r1) =>
      match (r1.dropWhile isWs) with
      | ',' :: r2 =>
        match parseElemsReq fuel (r2.dropWhile isWs) with
        | some (vs, r3) => some (v :: vs, r3)
        | none => none
      | ']' :: r2 => some ([v], r2)
      | _ => none
    | none => none

end

/-- json.loads on a character list: skip leading whitespace, parse one
value, require only whitespace after it.  The fuel 2·length + 1 always
suffices: along any call path of the parser each fuel decrement is paired
with at least one consumed character or with the bracket that opened the
current array, so the call count never exceeds twice the consumed length. -/
def loadsL (cs : List Char) : Option Json :=
  let t := cs.dropWhile isWs
  match parseValue (2 * t.length + 1) t with
  | some (v, rest) => if rest.dropWhile isWs = [] then some v else none
  | none => none

/-- json.loads. -/
def loads (s : String) : Option Json := loadsL s.data

/-- No newline is immediately followed by a backtick (the terminator
shape of the fence patterns cannot begin inside such text). -/
def noNBb : List Char → Bool
  | c1 :: c2 :: t => !(c1 = '\n' && c2 = btk) && noNBb (c2 :: t)
  | _ => true

/-- The head, if any, is not a number-token character (the boundary
condition under which the number munch cannot extend into a suffix). -/
def headNN (l : List Char) : Prop :=
  ∀ ch, l.head? = some ch → numChar ch = false

/-! ### core/json_parser.py — the decision-JSON extractor

The regular expressions of the source are compiled here into equivalent
scanning functions; each compilation is noted at the definition it
belongs to.  re.findall scans left to right and resumes after the end of
each match; matches are produced in that order. -/

/-- str.strip() (on the ASCII whitespace subset; see isWs6). -/
def pstripL (cs : List Char) : List Char :=
  ((cs.dropWhile isWs6).reverse.dropWhile isWs6).reverse

/-- str.strip() on strings. -/
def pstrip (s : String) : String := ⟨pstripL s.data⟩

/-- First index at which newline-then-three-backticks begins (the
terminator of the fenced-block patterns). -/
def findNlTicks : List Char → Option Nat
  | [] => none
  | a :: rest =>
    match rest with
    | b :: c :: d :: _ =>
      if a = '\n' ∧ b = btk ∧ c = btk ∧ d = btk then some 0
      else (findNlTicks rest).map (· + 1)
    | _ => none

/-- Indices of newline characters, ascending. -/
def nlPositions : List Char → List Nat
  | [] => []
  | c :: t =>
    let rest := (nlPositions t).map (· + 1)
    if c = '\n' then 0 :: rest else rest

/-- Backtracking step of the fence patterns: candidates are the possible
lengths consumed by the greedy whitespace star before its newline, tried
longest first; for the first that completes (a terminator exists after
it), the lazy group runs to the first terminator.  Returns the group and
the input remaining after the terminator. -/
def tryCands : List Nat → List Char → Option (List Char × List Char)
  | [], _ => none
  | i :: rest, t =>
    match findNlTicks (t.drop (i+1)) with
    | some j => some ((t.drop (i+1)).take j, (t.drop (i+1)).drop (j+4))
    | none => tryCands rest t

/-- Continuation of the fence patterns after the opening fence: greedy
whitespace star, a newline, the lazy group, the terminator. -/
def matchWsNlGroup (t : List Char) : Option (List Char × List Char) :=
  tryCands ((nlPositions (t.takeWhile isWs6)).reverse) t

/-- Consume three backticks. -/
def ticks3 : List Char → Option (List Char)
  | a :: b :: c :: t => if a = btk ∧ b = btk ∧ c = btk then some t else none
  | _ => none

/-- Consume the tag json case-insensitively (the patterns carry
re.IGNORECASE). -/
def ciJsonTag : List Char → Option (List Char)
  | c1 :: c2 :: c3 :: c4 :: t =>
    if c1.toLower = 'j' ∧ c2.toLower = 's' ∧ c3.toLower = 'o' ∧ c4.toLower = 'n'
    then some t else none
  | _ => none

/-- One attempt of the tagged fence pattern at the current position. -/
def p1MatchAt (cs : List Char) : Option (List Char × List Char) :=
  match ticks3 cs with
  | some t1 =>
    match ciJsonTag t1 with
    | some t2 => matchWsNlGroup t2
    | none => none
  | none => none

/-- findall for the tagged fence pattern. -/
def p1Scan : Nat → List Char → List (List Char)
  | 0, _ => []
  | fuel+1, cs =>
    match cs with
    | [] => []
    | _ :: t =>
      match p1MatchAt cs with
      | some (g, rest) => g :: p1Scan fuel rest
      | none => p1Scan fuel t

/-- One attempt of the untagged fence pattern at the current position. -/
def p2MatchAt (cs : List Char) : Option (List Char × List Char) :=
  match ticks3 cs with
  | some t1 => matchWsNlGroup t1
  | none => none

/-- findall for the untagged fence pattern. -/
def p2Scan : Nat → List Char → List (List Char)
  | 0, _ => []
  | fuel+1, cs =>
    match cs with
    | [] => []
    | _ :: t =>
      match p2MatchAt cs with
      | some (g, rest) => g :: p2Scan fuel rest
      | none => p2Scan fuel t

/-- First index of a given character. -/
def findChar (x : Char) : List Char → Option Nat
  | [] => none
  | c :: t => if c = x then some 0 else (findChar x t).map (· + 1)

/-- findall for the inline-code pattern (lazy group between two single
backticks; with re.DOTALL the group may span lines). -/
def p3Scan : Nat → List Char → List (List Char)
  | 0, _ => []
  | fuel+1, cs =>
    match cs with
    | [] => []
    | c :: t =>
      if c = btk then
        match findChar btk t with
        | some j => (t.take j) :: p3Scan fuel (t.drop (j+1))
        | none => []
      else p3Scan fuel t

/-- Walk candidate matches: the first whose stripped text loads as JSON
is returned stripped (extract_json_from_markdown returns match.strip()
after a validating json.loads). -/
def firstLoadable : List (List Char) → Option (List Char)
  | [] => none
  | g :: t =>
    let gs := pstripL g
    if (loadsL gs).isSome then some gs else firstLoadable t

/-- extract_json_from_markdown: the three patterns in order, all matches
of one pattern before the next. -/
def extract_json_from_markdown (cs : List Char) : Option (List Char) :=
  match firstLoadable (p1Scan (cs.length + 1) cs) with
  | some g => some g
  | none =>
    match firstLoadable (p2Scan (cs.length + 1) cs) with
    | some g => some g
    | none => firstLoadable (p3Scan (cs.length + 1) cs)

/-- Characters other than braces (the bracketed class of the nested-JSON
pattern). -/
def nonBrace (c : Char) : Bool := c ≠ '{' ∧ c ≠ '}'

/-- Loop of the nested-JSON pattern after the leading brace and run of
non-braces: zero or more groups of brace, non-braces, closing brace,
non-braces; then the final closing brace.  The pattern is deterministic
(the starred classes exclude braces, so no backtracking choice exists). -/
def pALoop : Nat → List Char → List Char → Option (List Char × List Char)
  | 0, _, _ => none
  | fuel+1, acc, rest =>
    match rest with
    | '}' :: r => some (acc ++ ['}'], r)
    | '{' :: r =>
      let inner := r.takeWhile nonBrace
      match r.dropWhile nonBrace with
      | '}' :: r2 =>
        let after := r2.takeWhile nonBrace
        pALoop fuel (acc ++ '{' :: (inner ++ '}' :: after)) (r2.dropWhile nonBrace)
      | _ => none
    | _ => none

/-- One attempt of the nested-JSON pattern at the current position. -/
def pAMatchAt (fuel : Nat) (cs : List Char) : Option (List Char × List Char) :=
  match cs with
  | '{' :: t => pALoop fuel ('{' :: t.takeWhile nonBrace) (t.dropWhile nonBrace)
  | _ => none

/-- findall for the nested-JSON pattern. -/
def pAScan : Nat → List Char → List (List Char)
  | 0, _ => []
  | fuel+1, cs =>
    match cs with
    | [] => []
    | _ :: t =>
      match pAMatchAt (fuel+1) cs with
      | some (g, rest) => g :: pAScan fuel rest
      | none => pAScan fuel t

/-- findall for the basic lazy brace pattern (first closing brace after
each opening brace). -/
def pBScan : Nat → List Char → List (List Char)
  | 0, _ => []
  | fuel+1, cs =>
    match cs with
    | [] => []
    | c :: t =>
      if c = '{' then
        match findChar '}' t with
        | some j => ('{' :: t.take (j+1)) :: pBScan fuel (t.drop (j+1))
        | none => []
      else pBScan fuel t

/-- Bracket-counting scan of extract_json_from_text method 2: starting at
the first occurrence of the opening character, the slice up to the first
position where the count returns to zero. -/
def balScan (sc ec : Char) : Nat → List Char → List Char → Option (List Char)
  | _, _, [] => none
  | count, acc, c :: rest =>
    if c = sc then balScan sc ec (count+1) (acc ++ [c]) rest
    else if c = ec then
      if count = 1 then some (acc ++ [c])
      else balScan sc ec (count-1) (acc ++ [c]) rest
    else balScan sc ec count (acc ++ [c]) rest

/-- The candidate of one bracket pair in method 2 (none when the opening
character is absent or never balanced). -/
def bracketCandidate (sc ec : Char) (cs : List Char) : Option (List Char) :=
  match findChar sc cs with
  | none => none
  | some i => balScan sc ec 0 [] (cs.drop i)

/-- The square-bracket tail of method 2 (reached when the brace pair is
absent, unbalanced, or its candidate fails to load — the source breaks to
the next pair in each of those cases). -/
def bracketSquare (cs : List Char) : Option (List Char) :=
  match bracketCandidate '[' ']' cs with
  | some cand => if (loadsL cand).isSome then some cand else none
  | none => none

/-- extract_json_from_text: the two brace regexes, then the
bracket-counting method; regex candidates are returned stripped, bracket
candidates raw, as in the source. -/
def extract_json_from_text (cs : List Char) : Option (List Char) :=
  match firstLoadable (pAScan (cs.length + 1) cs) with
  | some g => some g
  | none =>
    match firstLoadable (pBScan (cs.length + 1) cs) with
    | some g => some g
    | none =>
      match bracketCandidate '{' '}' cs with
      | some cand =>
        if (loadsL cand).isSome then some cand else bracketSquare cs
      | none => bracketSquare cs

/-- Python str.split on newline. -/
def splitOnNl : List Char → List (List Char)
  | [] => [[]]
  | c :: t =>
    let r := splitOnNl t
    if c = '\n' then [] :: r
    else
      match r with
      | h :: rest => (c :: h) :: rest
      | [] => [[c]]

/-- Key normalization of strategy 5: strip, lowercase, spaces to
underscores. -/
def keyNorm (k : List Char) : String :=
  ⟨(pstripL k).map (fun c => if c = ' ' then '_' else c.toLower)⟩

/-- One line of strategy 5, compiled from its anchored key-value pattern:
the greedy key class cannot cross a separator, so the key is the run
before the first colon or equals (nonempty), and the greedy whitespace
star gives back at most enough to keep the value group nonempty. -/
def kvOfLine (line : List Char) : Option (String × Json) :=
  let l := pstripL line
  let k := l.takeWhile (fun c => c ≠ ':' ∧ c ≠ '=')
  match l.drop k.length with
  | _ :: rest =>
    if k = [] ∨ rest = [] then none
    else
      let wsn := min (rest.takeWhile isWs6).length (rest.length - 1)
      let vs := pstripL (rest.drop wsn)
      let value : Json :=
        match loadsL vs with
        | some j => j
        | none => .str ⟨vs⟩
      some (keyNorm k, value)
  | [] => none

/-- Strategy 5: collect key-value lines into a dict. -/
def kvLines (cs : List Char) : List (String × Json) :=
  (splitOnNl cs).foldl
    (fun acc line =>
      match kvOfLine line with
      | some (k, v) => aupsert acc k v
      | none => acc) []

/-- Strategy 5 and the final fallback object of parse_llm_response. -/
def plrStage5 (r : List Char) : Bool × Json :=
  let kvs := kvLines r
  if kvs.isEmpty then
    (false, .obj [("approach", .str "direct_response"),
      ("reasoning", .str "Could not parse as structured data"),
      ("response", .str ⟨r⟩), ("parse_attempted", .bool true)])
  else (true, .obj kvs)

/-- Strategy 4: yaml.safe_load (an oracle for the external library),
accepted only when it returns a dict. -/
def plrStage4 (yamlLoad : String → Option Json) (r : List Char) : Bool × Json :=
  match yamlLoad ⟨r⟩ with
  | some (.obj ms) => (true, .obj ms)
  | _ => plrStage5 r

/-- Strategy 3: extract from plain text, then re-load. -/
def plrStage3 (yamlLoad : String → Option Json) (r : List Char) : Bool × Json :=
  match extract_json_from_text r with
  | some g =>
    if g = [] then plrStage4 yamlLoad r
    else
      match loadsL g with
      | some d => (true, d)
      | none => plrStage4 yamlLoad r
  | none => plrStage4 yamlLoad r

/-- Strategy 2: extract from markdown fences, then re-load. -/
def plrStage2 (yamlLoad : String → Option Json) (r : List Char) : Bool × Json :=
  match extract_json_from_markdown r with
  | some g =>
    if g = [] then plrStage3 yamlLoad r
    else
      match loadsL g with
      | some d => (true, d)
      | none => plrStage3 yamlLoad r
  | none => plrStage3 yamlLoad r

/-- parse_llm_response: strip once, then the five strategies in order
(the emptiness guard of the source is equivalent to the stripped input
being empty). -/
def parse_llm_response (yamlLoad : String → Option Json) (response : String) :
    Bool × Json :=
  if pstripL response.data = [] then
    (false, .obj [("error", .str "Empty response")])
  else
    let r := pstripL response.data
    match loadsL r with
    | some d => (true, d)
    | none => plrStage2 yamlLoad r

/-- The opening fence of a tagged json code block followed by a newline. -/
def fenceOpen : String := ⟨[btk, btk, btk, 'j', 's', 'o', 'n', '\n']⟩

/-- Newline followed by the closing fence. -/
def fenceClose : String := ⟨['\n', btk, btk, btk]⟩

/-- One level of tagged json fences around a reply. -/
def wrapFence (s : String) : String := fenceOpen ++ s ++ fenceClose

/-! ### llm/provider_enhanced.py — the LLM envoy (C6)

HTTP round trips are oracles of type HttpOutcome; the httpx exceptions
caught by the source are the timeout and netError constructors, and a 200
whose body is undecodable is resp 200 none. -/

/-- Outcome of one HTTP request as seen by the provider. -/
inductive HttpOutcome where
  | resp (status : Nat) (body : Option Json) (text : String)
  | timeout
  | netError (msg : String)

/-- The single-choice message wrapper used by every error return of
chat_completion. -/
def mkChoices (content : String) : List (String × Json) :=
  [("choices", .arr [.obj [("message", .obj [("content", .str content)])]])]

/-- verify_connection: the lightweight probe issued before the first
chat completion. -/
def verify_connection (timeoutS : Nat) (o : HttpOutcome) : Bool × String :=
  match o with
  | .resp status _ text =>
    if status = 200 then (true, "Connection successful")
    else if status = 401 then (false, "Authentication failed - check API key")
    else if status = 404 then (false, "Model not found - check model name")
    else (false, "HTTP " ++ toString status ++ ": " ++ text.take 200)
  | .timeout => (false, "Connection timeout after " ++ toString timeoutS ++ "s")
  | .netError m => (false, "Network error: " ++ m)

/-- The request phase of chat_completion: mapping from the HTTP outcome
of the chat/completions POST to the returned response object.  The
wall-clock _response_time value is the parameter rt.  On a 200 whose body
is not a dict the item assignment of the source raises and the generic
handler returns unexpected_error (its exception text is abstracted). -/
def chatCompletionRequest (timeoutS : Nat) (rt : Json) (o : HttpOutcome) : Json :=
  match o with
  | .resp status body text =>
    if status = 200 then
      match body with
      | some (.obj ms) => .obj (aupsert ms "_response_time" rt)
      | some _ => .obj (mkChoices "LLM unexpected error: item assignment on non-dict" ++
          [("error", .str "unexpected_error")])
      | none => .obj (mkChoices "LLM returned invalid JSON response" ++
          [("error", .str "invalid_response")])
    else if status = 401 then
      .obj (mkChoices "LLM authentication failed - check API key" ++
        [("error", .str "authentication_failed")])
    else if status = 429 then
      .obj (mkChoices "LLM rate limit exceeded - please try again later" ++
        [("error", .str "rate_limit_exceeded")])
    else if 500 ≤ status then
      .obj (mkChoices "LLM service unavailable - server error" ++
        [("error", .str "server_error")])
    else
      .obj (mkChoices ("LLM request failed: HTTP " ++ toString status) ++
        [("error", .str ("http_error_" ++ toString status)),
         ("details", .str (if text = "" then "Unknown error" else text.take 300))])
  | .timeout =>
    .obj (mkChoices ("LLM request timeout after " ++ toString timeoutS ++ "s") ++
      [("error", .str "timeout")])
  | .netError m =>
    .obj (mkChoices ("LLM network error: " ++ m) ++ [("error", .str "network_error")])

/-- chat_completion: verify on first use, then issue the request. -/
def chat_completion (timeoutS : Nat) (verified : Bool) (verifyOut : HttpOutcome)
    (rt : Json) (reqOut : HttpOutcome) : Json :=
  if verified then chatCompletionRequest timeoutS rt reqOut
  else
    match verify_connection timeoutS verifyOut with
    | (true, _) => chatCompletionRequest timeoutS rt reqOut
    | (false, emsg) =>
      .obj (mkChoices ("LLM connection failed: " ++ emsg) ++ [("error", .str emsg)])

/-! ### Agent discovery (AgentDiscovery in common_agent_llm_driven.py; C7, C8) -/

/-- A registry entry: the source stores the raw probe payload under a
branch-specific key (agent_card, capabilities or health). -/
structure AgentEntry where
  endpoint : String
  protocol : String
  discoveryMethod : String
  payloadKey : String
  payload : Json

/-- Outcome of one discovery GET: fail is any raised exception
(connection error, timeout); resp carries the status and the decoded
body, none modelling a body on which response.json() raises. -/
inductive ProbeOutcome where
  | fail
  | resp (status : Nat) (body : Option Json)

/-- The outcomes of the four probe paths for one endpoint. -/
structure EndpointProbes where
  a2aCard : ProbeOutcome
  wellKnown : ProbeOutcome
  capabilities : ProbeOutcome
  health : ProbeOutcome

/-- The four probe paths in attempt order. -/
def probePaths : List String :=
  ["/a2a/agent.json", "/.well-known/agent.json", "/capabilities", "/health"]

/-- card.get(key, "unknown") followed by the string methods of the id
derivation: a present non-string value or a non-dict card raises
(AttributeError), failing the probe branch. -/
def cardName (card : Json) (key : String) : Option String :=
  match card with
  | .obj _ =>
    match jget card key with
    | some (.str s) => some s
    | some _ => none
    | none => some "unknown"
  | _ => none

/-- name.lower().replace(" ", "_") (ASCII lowercasing; the replacement
pattern is a single character, so the composition is one character map). -/
def agentIdOfName (n : String) : String :=
  ⟨n.data.map (fun c => if c = ' ' then '_' else c.toLower)⟩

/-- A successful classification: the registry update and the
agent_capabilities update (the health branch does not touch
agent_capabilities). -/
structure DiscResult where
  agentId : String
  entry : AgentEntry
  caps : Option Json

/-- One probe branch of _discover_single_agent: classify on an HTTP 200
with a decodable JSON body. -/
def probeBranch (endpoint : String) (p : ProbeOutcome) (nameKey : String)
    (capsKey : Option String) (payloadKey protocol method : String) :
    Option DiscResult :=
  match p with
  | .fail => none
  | .resp status body =>
    if status = 200 then
      match body with
      | none => none
      | some card =>
        match cardName card nameKey with
        | none => none
        | some n =>
          some ⟨agentIdOfName n, ⟨endpoint, protocol, method, payloadKey, card⟩,
            capsKey.map (fun k => jgetD card k (.arr []))⟩
    else none

/-- _discover_single_agent: the four branches in order, stopping at the
first classification; also returns the list of paths attempted. -/
def discoverSingleAgent (endpoint : String) (p : EndpointProbes) :
    Option DiscResult × List String :=
  match probeBranch endpoint p.a2aCard "name" (some "skills") "agent_card" "a2a"
      "agent_card" with
  | some r => (some r, probePaths.take 1)
  | none =>
    match probeBranch endpoint p.wellKnown "name" (some "skills") "agent_card" "a2a"
        "agent_card_standard" with
    | some r => (some r, probePaths.take 2)
    | none =>
      match probeBranch endpoint p.capabilities "agent_name" (some "capabilities")
          "capabilities" "legacy" "capabilities_endpoint" with
      | some r => (some r, probePaths.take 3)
      | none =>
        match probeBranch endpoint p.health "agent" none "health" "unknown"
            "health_check" with
        | some r => (some r, probePaths)
        | none => (none, probePaths)

/-- Registry and capability-cache state of AgentDiscovery. -/
structure DiscState where
  agents : List (String × AgentEntry)
  caps : List (String × Json)

/-- Apply one endpoint's probe result: a classification overwrites the
entry for its agent_id; a failed probe changes nothing. -/
def applyDisc (st : DiscState) : Option DiscResult → DiscState
  | none => st
  | some r =>
    ⟨aupsert st.agents r.agentId r.entry,
     match r.caps with
     | some c => aupsert st.caps r.agentId c
     | none => st.caps⟩

/-- discover_agents: one refresh cycle over the configured endpoints
(per-endpoint exceptions are caught and logged; entries are never
removed). -/
def discoverAgents (st : DiscState) (probes : List (String × EndpointProbes)) :
    DiscState :=
  probes.foldl (fun s ep => applyDisc s (discoverSingleAgent ep.1 ep.2).1) st

/-- A sequence of refresh cycles. -/
def discoverCycles (st : DiscState) (cycles : List (List (String × EndpointProbes))) :
    DiscState :=
  cycles.foldl discoverAgents st

/-- One probe branch as the spec words it, parameterized by the status
acceptance predicate (the id and capability derivations are those the
spec states). -/
def specBranch (statusOk : Nat → Bool) (endpoint : String) (p : ProbeOutcome)
    (nameKey : String) (capsKey : Option String)
    (payloadKey protocol method : String) : Option DiscResult :=
  match p with
  | .fail => none
  | .resp status body =>
    if statusOk status then
      match body with
      | none => none
      | some card =>
        match cardName card nameKey with
        | none => none
        | some n =>
          some ⟨agentIdOfName n, ⟨endpoint, protocol, method, payloadKey, card⟩,
            capsKey.map (fun k => jgetD card k (.arr []))⟩
    else none

/-- Modelled from the spec: section 4.3's discovery sentence — "the first
2xx JSON response classifies the agent", the first two paths yielding
protocol a2a with skills as capabilities, the third legacy, the fourth
unknown.  Instantiated with statusOk both as the spec's 2xx test and as
the exact-200 test for the amended claim. -/
def discoverSingleSpec (statusOk : Nat → Bool) (endpoint : String)
    (p : EndpointProbes) : Option DiscResult :=
  (specBranch statusOk endpoint p.a2aCard "name" (some "skills") "agent_card" "a2a"
      "agent_card") <|>
  (specBranch statusOk endpoint p.wellKnown "name" (some "skills") "agent_card" "a2a"
      "agent_card_standard") <|>
  (specBranch statusOk endpoint p.capabilities "agent_name" (some "capabilities")
      "capabilities" "legacy" "capabilities_endpoint") <|>
  (specBranch statusOk endpoint p.health "agent" none "health" "unknown"
      "health_check")

/-- The spec's 2xx test. -/
def statusIs2xx (s : Nat) : Bool := 200 ≤ s && s ≤ 299

/-- Index (1-4) of the classifying branch, 4 when none classifies
(all four paths are attempted in that case). -/
def classIdx (statusOk : Nat → Bool) (endpoint : String) (p : EndpointProbes) : Nat :=
  if (specBranch statusOk endpoint p.a2aCard "name" (some "skills") "agent_card" "a2a"
      "agent_card").isSome then 1
  else if (specBranch statusOk endpoint p.wellKnown "name" (some "skills") "agent_card"
      "a2a" "agent_card_standard").isSome then 2
  else if (specBranch statusOk endpoint p.capabilities "agent_name" (some "capabilities")
      "capabilities" "legacy" "capabilities_endpoint").isSome then 3
  else 4

/-! ### The step executor and its handlers (C1, C2, C3, C4, C5, C10)

HTTP POSTs and MCP child-process traffic are oracles; every outbound
message the coordinator constructs is logged as an OutCall so that
dispatch claims are statements about the log. -/

/-- Outbound messages.  mcpToolsCall is the tools/call envelope of
section 4.2; the current source never emits it (see the C1 theorem). -/
inductive OutCall where
  | a2aPost (endpoint : String) (request : Json)
  | legacyPost (endpoint : String) (body : Json)
  | mcpToolsList (server : String)
  | mcpToolsCall (server tool : String) (arguments : Json)

/-- Outcome of an outbound HTTP POST; exn is any raised transport
exception, and a 200 whose body is undecodable is resp 200 none text. -/
inductive PostOutcome where
  | exn (msg : String)
  | resp (status : Nat) (body : Option Json) (text : String)

/-- The coordinator's environment: the registry snapshot, the transport
oracles, the MCP loader state, and the timestamp used in A2A envelope
ids. -/
structure SysEnv where
  registry : List (String × AgentEntry)
  a2a : String → Json → PostOutcome
  legacy : String → Json → PostOutcome
  mcpServers : List String
  mcpHasConfig : String → Bool
  mcpToolNames : String → List String
  ts : Nat

/-- Python str() of a decoded value, for the f-string error messages of
the executor; the rendering of containers is abstracted (no claim
depends on it). -/
def pyStr : Json → String
  | .str s => s
  | .num r => r
  | .bool true => "True"
  | .bool false => "False"
  | .null => "None"
  | .arr _ => "<list>"
  | .obj _ => "<dict>"

/-- Is one string a prefix of another (character lists)? -/
def isPrefixOfL : List Char → List Char → Bool
  | [], _ => true
  | _ :: _, [] => false
  | a :: p, c :: cs => a = c && isPrefixOfL p cs

/-- Substring test on character lists. -/
def containsSubL (p : List Char) : List Char → Bool
  | [] => isPrefixOfL p []
  | c :: t => isPrefixOfL p (c :: t) || containsSubL p t

/-- Python: pat in s. -/
def containsSub (s pat : String) : Bool := containsSubL pat.data s.data

/-- The context dict threaded to a called agent. -/
def buildContext (prev : List Json) : Json :=
  .obj [("previous_results", .arr prev), ("delegated_by", .str "common_agent")]

/-- The delegated task body of a legacy call. -/
def buildTaskData (desc : Json) (context : Json) : Json :=
  .obj [("type", .str "delegated_task"), ("description", desc), ("context", context)]

/-- The A2A JSON-RPC 2.0 envelope of _call_a2a_agent (ids derived from
the timestamp parameter). -/
def buildA2ARequest (ts : Nat) (desc : Json) (context : Json) : Json :=
  .obj [("jsonrpc", .str "2.0"), ("method", .str "tasks/send"),
    ("id", .str ("common_agent_" ++ toString ts)),
    ("params", .obj [("id", .str ("task_" ++ toString ts)),
      ("sessionId", .str ("session_" ++ toString ts)),
      ("message", .obj [("role", .str "user"),
        ("parts", .arr [.obj [("type", .str "text"), ("text", desc)],
                        .obj [("type", .str "data"), ("data", context)]])]),
      ("acceptedOutputModes", .arr [.str "text", .str "application/json"])])]

/-- Python: "result" in body, across body types (none models the
TypeError on unsized bodies). -/
def hasResultKey : Json → Option Bool
  | .obj ms => some (hasKey ms "result")
  | .arr l => some (l.any (fun x => match x with | .str s => s = "result" | _ => false))
  | .str s => some (containsSub s "result")
  | _ => none

/-- Response handling of _call_a2a_agent; the error side of the Except
carries the exception text seen by _call_agent's handler (decode-failure
texts abbreviated). -/
def a2aResultE : PostOutcome → Except String Json
  | .exn m => .error m
  | .resp status body text =>
    if status = 200 then
      match body with
      | none => .error "Expecting value: line 1 column 1 (char 0)"
      | some j =>
        match hasResultKey j with
        | none => .error "argument of type is not iterable"
        | some true =>
          match j with
          | .obj _ => .ok (.obj [("success", .bool true),
              ("result", (jget j "result").getD .null), ("protocol", .str "a2a")])
          | _ => .error "indexing a non-dict"
        | some false =>
          .ok (.obj [("error", .str "No result in A2A response"), ("response", j)])
    else
      .ok (.obj [("error", .str ("A2A call failed: HTTP " ++ toString status)),
        ("response", .str text)])

/-- _call_a2a_agent: POST the JSON-RPC envelope to endpoint/tasks/send
and handle the response. -/
def _call_a2a_agent (env : SysEnv) (endpoint : String) (desc : Json)
    (context : Json) : Except String Json × List OutCall :=
  let req := buildA2ARequest env.ts desc context
  (a2aResultE (env.a2a endpoint req), [OutCall.a2aPost endpoint req])

/-- Response handling of _call_legacy_agent. -/
def legacyResultE : PostOutcome → Except String Json
  | .exn m => .error m
  | .resp status body text =>
    if status = 200 then
      match body with
      | none => .error "Expecting value: line 1 column 1 (char 0)"
      | some j =>
        .ok (.obj [("success", .bool true), ("result", j), ("protocol", .str "legacy")])
    else
      .ok (.obj [("error", .str ("Legacy call failed: HTTP " ++ toString status)),
        ("response", .str text)])

/-- _call_legacy_agent: POST the raw task body to endpoint/task and
handle the response. -/
def _call_legacy_agent (env : SysEnv) (endpoint : String) (taskData : Json) :
    Except String Json × List OutCall :=
  (legacyResultE (env.legacy endpoint taskData), [OutCall.legacyPost endpoint taskData])

/-- Registry lookup by the raw target value (a non-string target is
found by no key). -/
def regLookup (reg : List (String × AgentEntry)) (agentId : Json) :
    Option AgentEntry :=
  match agentId with
  | .str s => alookup reg s
  | _ => none

/-- _call_agent: look up the target, build the context carrying all
previous results, dispatch by the entry's protocol tag (anything other
than a2a goes to the legacy shape), and catch transport exceptions into
an error dict. -/
def _call_agent (env : SysEnv) (agentId : Json) (desc : Json) (prev : List Json) :
    Json × List OutCall :=
  match regLookup env.registry agentId with
  | none => (.obj [("error", .str ("Agent not found: " ++ pyStr agentId))], [])
  | some info =>
    let context := buildContext prev
    let taskData := buildTaskData desc context
    let rc :=
      if info.protocol = "a2a" then _call_a2a_agent env info.endpoint desc context
      else _call_legacy_agent env info.endpoint taskData
    match rc.1 with
    | .ok r => (r, rc.2)
    | .error m => (.obj [("error", .str m), ("agent", agentId)], rc.2)

/-- The placeholder result of _invoke_mcp_tool_via_protocol: the source
explicitly does not implement the tools/call protocol and returns this
object without any outbound traffic. -/
def placeholderInvoke (server tool : String) (desc : Json) : Json :=
  .obj [("status", .str "mcp_protocol_required"),
    ("message", .str ("需要实现真正的MCP协议来调用 " ++ tool)),
    ("server", .str server), ("tool", .str tool), ("task", desc),
    ("note", .str "真正的MCP连接实现后，这里会返回工具的实际执行结果")]

/-- _execute_mcp_tool wrapping the placeholder invocation. -/
def _execute_mcp_tool (server tool : String) (desc : Json) : Json :=
  .obj [("success", .bool true), ("server", .str server), ("tool", .str tool),
    ("task_description", desc), ("execution_method", .str "real_mcp_protocol"),
    ("result", placeholderInvoke server tool desc)]

/-- tool_name.split(":", 1). -/
def splitFirstColon (s : String) : String × String :=
  match findChar ':' s.data with
  | some i => (⟨s.data.take i⟩, ⟨s.data.drop (i+1)⟩)
  | none => (s, "")

/-- _query_mcp_server_tools_runtime: no traffic when the server has no
config; otherwise one tools/list discovery whose resulting tool names
come from the oracle (exceptions inside collapse to an empty list in the
source and may be modelled by the oracle returning []). -/
def _query_mcp_server_tools (env : SysEnv) (server : String) :
    List String × List OutCall :=
  if env.mcpHasConfig server then (env.mcpToolNames server, [OutCall.mcpToolsList server])
  else ([], [])

/-- The scan of _infer_server_from_tool over the known servers. -/
def inferServerGo (env : SysEnv) (tool : String) : List String → String × List OutCall
  | [] => ("unknown", [])
  | s :: rest =>
    let qc := _query_mcp_server_tools env s
    if qc.1.contains tool then (s, qc.2)
    else
      let r := inferServerGo env tool rest
      (r.1, qc.2 ++ r.2)

/-- _use_mcp_tool: split the target on the first colon (or infer the
server when no colon), then run the placeholder execution path; note
that no tools/call message is ever produced. -/
def _use_mcp_tool (env : SysEnv) (toolName : Json) (desc : Json) :
    Json × List OutCall :=
  match toolName with
  | .str tn =>
    if containsSub tn ":" then
      let st := splitFirstColon tn
      (.obj [("success", .bool true), ("server", .str st.1), ("tool", .str st.2),
        ("result", _execute_mcp_tool st.1 st.2 desc), ("task_description", desc),
        ("execution_method", .str "LLM_driven_MCP_call")], [])
    else
      let sc := inferServerGo env tn env.mcpServers
      (.obj [("success", .bool true), ("server", .str sc.1), ("tool", .str tn),
        ("result", _execute_mcp_tool sc.1 tn desc), ("task_description", desc),
        ("execution_method", .str "LLM_driven_MCP_call")], sc.2)
  | _ =>
    (.obj [("success", .bool false), ("error", .str "argument of type is not iterable"),
      ("tool", toolName), ("task_description", desc)], [])

/-- _coordinate_action: the transport no-op. -/
def _coordinate_action (target : Json) (desc : Json) (prev : List Json) : Json :=
  .obj [("success", .bool true), ("coordination_target", target),
    ("description", desc), ("result", .str "协调动作完成"),
    ("processed_results", .num (toString prev.length))]

/-- Outcome of one step-handler call as seen from inside the executor's
per-step try block: a returned dict or a raised exception. -/
inductive StepOut where
  | ok (r : Json)
  | exn (msg : String)

/-- The executor's view of its three handlers.  The concrete system is
XEnv.ofSys; keeping the handlers abstract makes the per-step exception
boundary (C4) a statement about every possible handler behaviour, which
is exactly the semantics of the source's try/except around the awaited
calls. -/
structure XEnv where
  callAgent : Json → Json → List Json → StepOut × List OutCall
  useTool : Json → Json → StepOut × List OutCall
  coordinate : Json → Json → List Json → StepOut × List OutCall

/-- The concrete handlers (which catch internally and never raise). -/
def XEnv.ofSys (env : SysEnv) : XEnv where
  callAgent t d p := let rc := _call_agent env t d p; (.ok rc.1, rc.2)
  useTool t d := let rc := _use_mcp_tool env t d; (.ok rc.1, rc.2)
  coordinate t d p := (.ok (_coordinate_action t d p), [])

/-- One logged handler invocation: which action branch ran, with the
target and task text it received, and the previous step records passed
to it (none when the call site passes none, as for tool_use). -/
structure Invocation where
  action : String
  target : Json
  task : Json
  prev : Option (List Json)

/-- Streaming events.  Wall-clock payload fields of the source
(duration, timestamp, the rendered step_description, the deduplicated
execution_stats whose ordering is set-iteration order) are omitted. -/
inductive Ev where
  | task_started (taskId : String) (description : String)
  | llm_analysis_started (taskId : String)
  | llm_analysis_progress (chunk : String)
  | llm_analysis_completed (analysis : String)
  | llm_decision_made (decision : Json)
  | execution_started (strategy : Json) (totalSteps : Nat)
  | step_started (stepNumber : Json) (action target task : Json)
  | agent_call_started (agentId : Json)
  | agent_call_completed (agentId : Json) (result : Json)
  | mcp_tool_used (tool : Json)
  | step_completed (stepNumber : Json) (action target : Json) (success : Bool)
      (result : Option Json) (error : Option String)
  | execution_completed (totalSteps successfulSteps failedSteps : Nat)
      (results : List Json)
  | task_completed (taskId : String) (totalSteps successfulSteps failedSteps : Nat)
      (finalResult : Json)
  | errorEv (error : String)
  | fallback_started (reason : String)
  | fallback_decision (target reason : String)
  | fallback_completed (result : Json)
  | fallback_error (error : String)

/-- Event kind, keeping the step number of the per-step events (the shape
the temporal claim is stated over). -/
inductive ETag where
  | task_started
  | llm_analysis_started
  | llm_analysis_progress
  | llm_analysis_completed
  | llm_decision_made
  | execution_started
  | step_started (n : Json)
  | agent_call_started
  | agent_call_completed
  | mcp_tool_used
  | step_completed (n : Json)
  | execution_completed
  | task_completed
  | errorT
  | fallback_started
  | fallback_decision
  | fallback_completed
  | fallback_error

/-- Tag of an event. -/
def evTag : Ev → ETag
  | .task_started _ _ => .task_started
  | .llm_analysis_started _ => .llm_analysis_started
  | .llm_analysis_progress _ => .llm_analysis_progress
  | .llm_analysis_completed _ => .llm_analysis_completed
  | .llm_decision_made _ => .llm_decision_made
  | .execution_started _ _ => .execution_started
  | .step_started n _ _ _ => .step_started n
  | .agent_call_started _ => .agent_call_started
  | .agent_call_completed _ _ => .agent_call_completed
  | .mcp_tool_used _ => .mcp_tool_used
  | .step_completed n _ _ _ _ _ => .step_completed n
  | .execution_completed _ _ _ _ => .execution_completed
  | .task_completed _ _ _ _ _ => .task_completed
  | .errorEv _ => .errorT
  | .fallback_started _ => .fallback_started
  | .fallback_decision _ _ => .fallback_decision
  | .fallback_completed _ => .fallback_completed
  | .fallback_error _ => .fallback_error

/-- step.get("step", 0). -/
def stepNumOf (s : Json) : Json := jgetD s "step" (.num "0")

/-- step.get("action", "unknown"). -/
def actionOf (s : Json) : Json := jgetD s "action" (.str "unknown")

/-- step.get("target", ""). -/
def targetOf (s : Json) : Json := jgetD s "target" (.str "")

/-- step.get("task", ""). -/
def taskOf (s : Json) : Json := jgetD s "task" (.str "")

/-- A step record (streaming and batch success shape; the wall-clock
duration and timestamp fields are omitted). -/
def mkStreamRec (n a t : Json) (result : Json) : Json :=
  .obj [("step", n), ("action", a), ("target", t), ("result", result)]

/-- The result dict recorded for a step whose execution raised. -/
def errResult (m : String) (n : Json) : Json :=
  .obj [("error", .str m), ("step", n)]

/-- result.get("success", True) if isinstance(result, dict) else True,
under Python truthiness. -/
def succOf (r : Json) : Bool :=
  match r with
  | .obj _ => jtruthy (jgetD r "success" (.bool true))
  | _ => true

/-- The per-record success test of the execution_completed totals:
r.get("result", dict()).get("success", True) is truthy. -/
def succPred (r : Json) : Bool :=
  jtruthy (jgetD (jgetD r "result" (.obj [])) "success" (.bool true))

/-- Is every record's result field a dict (so that the totals
comprehension does not raise)? -/
def allResultsDict (rs : List Json) : Bool :=
  rs.all (fun r =>
    match jgetD r "result" (.obj []) with
    | .obj _ => true
    | _ => false)

/-- successful_steps of execution_completed. -/
def countSucc (rs : List Json) : Nat := (rs.filter succPred).length

/-- failed_steps of execution_completed. -/
def countFail (rs : List Json) : Nat := (rs.filter (fun r => !succPred r)).length

/-- The task-step entry appended to the active task record per executed
step (timestamp omitted;  the source renders the step number into the
label). -/
def mkTaskStep (n a t : Json) (result : Json) : Json :=
  .obj [("step", .str ("execution_step_" ++ pyStr n)), ("action", a),
    ("target", t), ("result", result)]

/-- The call-site dispatch of the executor body: agent_call and
coordination receive the accumulated records, tool_use receives only the
target and task. -/
def dispatchStep (X : XEnv) (a t d : Json) (prev : List Json) :
    StepOut × List OutCall × List Invocation :=
  match a with
  | .str s =>
    if s = "agent_call" then
      let rc := X.callAgent t d prev
      (rc.1, rc.2, [⟨"agent_call", t, d, some prev⟩])
    else if s = "tool_use" then
      let rc := X.useTool t d
      (rc.1, rc.2, [⟨"tool_use", t, d, none⟩])
    else if s = "coordination" then
      let rc := X.coordinate t d prev
      (rc.1, rc.2, [⟨"coordination", t, d, some prev⟩])
    else (.ok (.obj [("error", .str ("Unknown action: " ++ s))]), [], [])
  | _ => (.ok (.obj [("error", .str ("Unknown action: " ++ pyStr a))]), [], [])

/-- The events emitted before the handler call of one step. -/
def preEvents (n a t d : Json) : List Ev :=
  match a with
  | .str s =>
    if s = "agent_call" then [.step_started n a t d, .agent_call_started t]
    else if s = "tool_use" then [.step_started n a t d, .mcp_tool_used t]
    else [.step_started n a t d]
  | _ => [.step_started n a t d]

/-- The events emitted after a handler returns: agent_call_completed
covers the agent_call case (no step_completed is emitted for it). -/
def postEventsOk (n a t : Json) (r : Json) : List Ev :=
  match a with
  | .str s =>
    if s = "agent_call" then [.agent_call_completed t r]
    else [.step_completed n a t (succOf r) (some r) none]
  | _ => [.step_completed n a t (succOf r) (some r) none]

/-- Accumulator of the streaming executor. -/
structure Acc where
  events : List Ev
  records : List Json
  taskSteps : List Json
  calls : List OutCall
  invs : List Invocation

/-- The empty accumulator. -/
def emptyAcc : Acc := ⟨[], [], [], [], []⟩

/-- One step of _execute_llm_plan_stream: the field reads precede the
try block (a non-dict step raises out of the executor), the handler call
sits inside it, and an exception is recorded and surfaced as a failed
step_completed while execution continues. -/
def execStepStream (X : XEnv) (acc : Acc) (step : Json) : Except String Acc :=
  match step with
  | .obj _ =>
    let n := stepNumOf step
    let a := actionOf step
    let t := targetOf step
    let d := taskOf step
    match dispatchStep X a t d acc.records with
    | (.ok r, cs, invs) =>
      .ok { events := acc.events ++ preEvents n a t d ++ postEventsOk n a t r,
            records := acc.records ++ [mkStreamRec n a t r],
            taskSteps := acc.taskSteps ++ [mkTaskStep n a t r],
            calls := acc.calls ++ cs, invs := acc.invs ++ invs }
    | (.exn m, cs, invs) =>
      .ok { events := acc.events ++ preEvents n a t d ++
              [.step_completed n a t false none (some m)],
            records := acc.records ++ [mkStreamRec n a t (errResult m n)],
            taskSteps := acc.taskSteps ++ [mkTaskStep n a t (errResult m n)],
            calls := acc.calls ++ cs, invs := acc.invs ++ invs }
  | _ => .error "AttributeError: get"

/-- The step loop; an uncaught exception stops the loop and propagates
with the events already emitted. -/
def execStepsStream (X : XEnv) : Acc → List Json → Acc × Option String
  | acc, [] => (acc, none)
  | acc, s :: rest =>
    match execStepStream X acc s with
    | .ok acc2 => execStepsStream X acc2 rest
    | .error m => (acc, some m)

/-- Python iteration over the execution_plan value: lists iterate
elements, strings iterate characters, dicts iterate keys, the rest have
no len and raise before the loop. -/
def planItemsE (v : Json) : Except String (List Json) :=
  match v with
  | .arr l => .ok l
  | .str s => .ok (s.data.map (fun c => Json.str ⟨[c]⟩))
  | .obj ms => .ok (ms.map (fun kv => Json.str kv.1))
  | _ => .error "TypeError: object has no len"

/-- _execute_llm_plan_stream: execution_started, the step loop, then
execution_completed with the totals (whose computation itself raises on
a non-dict recorded result). -/
def execPlanStream (X : XEnv) (decision : Json) : Acc × Option String :=
  match planItemsE (jgetD decision "execution_plan" (.arr [])) with
  | .error m => (emptyAcc, some m)
  | .ok steps =>
    let strategy := jgetD decision "execution_strategy" (.str "unknown")
    let acc0 : Acc := { emptyAcc with events := [.execution_started strategy steps.length] }
    match execStepsStream X acc0 steps with
    | (acc, some m) => (acc, some m)
    | (acc, none) =>
      if allResultsDict acc.records then
        ({ acc with events := acc.events ++
            [.execution_completed steps.length (countSucc acc.records)
              (countFail acc.records) acc.records] }, none)
      else (acc, some "AttributeError: get on non-dict result")

/-- The keyword test of the streaming fallback. -/
def hasDesignKeyword (desc : String) : Bool :=
  containsSub desc "设计" || containsSub desc "界面" || containsSub desc "UI"

/-- _fallback_processing_stream: a hardcoded keyword check dispatching to
ui_designer_agent, with no use of the registry order. -/
def _fallback_processing_stream (env : SysEnv) (desc : String) :
    List Ev × List OutCall :=
  let ev0 := Ev.fallback_started "LLM处理失败，使用降级逻辑"
  if hasDesignKeyword desc then
    let rc := _call_agent env (.str "ui_designer_agent") (.str desc) []
    ([ev0, .fallback_decision "ui_designer_agent" "检测到设计相关任务",
      .fallback_completed rc.1], rc.2)
  else ([ev0, .fallback_error "无法确定合适的处理方式"], [])

/-- The greedy brace search applied when the streaming path's direct
json.loads fails: from the first opening brace to the last closing brace
after it. -/
def searchBracesGreedy (cs : List Char) : Option (List Char) :=
  match findChar '{' cs with
  | none => none
  | some i =>
    let t := cs.drop i
    match findChar '}' t.reverse with
    | none => none
    | some k => some (t.take (t.length - k))

/-- The streaming path's decision parse: direct json.loads, then the
greedy brace search, errors carrying the exception texts reaching the
outer handler. -/
def streamDecisionE (joined : List Char) : Except String Json :=
  match loadsL joined with
  | some d => .ok d
  | none =>
    match searchBracesGreedy joined with
    | some cand =>
      match loadsL cand with
      | some d => .ok d
      | none => .error "Expecting value in extracted JSON"
    | none => .error "LLM返回的不是有效JSON格式"

/-- The llm_analysis entry appended to the task's step log (timestamp
omitted). -/
def mkAnalysisStep (d : Json) : Json :=
  .obj [("step", .str "llm_analysis"), ("decision", d)]

/-- Result of the streaming task processing: the emitted events, the
task's accumulated step log, and the outbound calls. -/
structure StreamRun where
  events : List Ev
  taskSteps : List Json
  calls : List OutCall

/-- process_task_with_llm_stream: analysis events, the decision parse
(on failure or on the KeyError of the strategy read, the outer handler
emits an error event and runs the degraded streaming fallback), then the
plan execution stream. -/
def process_task_with_llm_stream (env : SysEnv) (taskId : String) (desc : String)
    (chunks : List String) : StreamRun :=
  let joined := String.join chunks
  let evs0 := [Ev.llm_analysis_started taskId] ++ chunks.map Ev.llm_analysis_progress ++
    [Ev.llm_analysis_completed joined]
  match streamDecisionE joined.data with
  | .error m =>
    let fb := _fallback_processing_stream env desc
    ⟨evs0 ++ [.errorEv m] ++ fb.1, [], fb.2⟩
  | .ok d =>
    match jget d "execution_strategy" with
    | none =>
      let fb := _fallback_processing_stream env desc
      ⟨evs0 ++ [.errorEv "'execution_strategy'"] ++ fb.1, [], fb.2⟩
    | some _ =>
      match execPlanStream (XEnv.ofSys env) d with
      | (acc, some m) =>
        let fb := _fallback_processing_stream env desc
        ⟨evs0 ++ [.llm_decision_made d] ++ acc.events ++ [.errorEv m] ++ fb.1,
          mkAnalysisStep d :: acc.taskSteps, acc.calls ++ fb.2⟩
      | (acc, none) =>
        ⟨evs0 ++ [.llm_decision_made d] ++ acc.events,
          mkAnalysisStep d :: acc.taskSteps, acc.calls⟩

/-- Can the task_completed totals be computed from a step entry without
raising ("error" in value is a TypeError on unsized values)? -/
def taskStepCountable (st : Json) : Bool :=
  match jgetD st "result" (.obj []) with
  | .obj _ => true
  | .str _ => true
  | .arr _ => true
  | _ => false

/-- "error" not in step.get("result", dict()). -/
def taskStepOk (st : Json) : Bool :=
  match jgetD st "result" (.obj []) with
  | .obj ms => !(hasKey ms "error")
  | .str s => !(containsSub s "error")
  | .arr l => !(l.any (fun x => match x with | .str s => s = "error" | _ => false))
  | _ => true

/-- The totals of the task_completed event (successful, total). -/
def taskStepsCountsE (steps : List Json) : Except String (Nat × Nat) :=
  if steps.all taskStepCountable then
    .ok ((steps.filter taskStepOk).length, steps.length)
  else .error "TypeError: argument of type is not iterable"

/-- The SSE generator of routes.submit_task for a streaming submission
with a nonempty description: task_started, the processing events, then
task_completed with totals over the task's step log (an exception while
building them surfaces as a terminal error event instead). -/
def task_stream (env : SysEnv) (taskId : String) (desc : String)
    (chunks : List String) : List Ev :=
  let run := process_task_with_llm_stream env taskId desc chunks
  match taskStepsCountsE run.taskSteps with
  | .ok st =>
    [Ev.task_started taskId desc] ++ run.events ++
      [Ev.task_completed taskId st.2 st.1 (st.2 - st.1) (.obj [])]
  | .error m => [Ev.task_started taskId desc] ++ run.events ++ [Ev.errorEv m]

/-! ### The batch executor and fallback (_execute_llm_plan,
_fallback_processing; C2, C5) -/

/-- The batch exception record stores the exception text at the top
level (no result field). -/
def mkBatchErrRec (n a t : Json) (m : String) : Json :=
  .obj [("step", n), ("action", a), ("target", t), ("error", .str m)]

/-- Accumulator of the batch executor. -/
structure BAcc where
  records : List Json
  taskSteps : List Json
  calls : List OutCall
  invs : List Invocation

/-- The empty batch accumulator. -/
def emptyBAcc : BAcc := ⟨[], [], [], []⟩

/-- One step of _execute_llm_plan (batch): same dispatch as the stream,
no events; the task-step append is skipped on exception. -/
def execStepBatch (X : XEnv) (acc : BAcc) (step : Json) : Except String BAcc :=
  match step with
  | .obj _ =>
    let n := stepNumOf step
    let a := actionOf step
    let t := targetOf step
    let d := taskOf step
    match dispatchStep X a t d acc.records with
    | (.ok r, cs, invs) =>
      .ok ⟨acc.records ++ [mkStreamRec n a t r],
        acc.taskSteps ++ [mkTaskStep n a t r], acc.calls ++ cs, acc.invs ++ invs⟩
    | (.exn m, cs, invs) =>
      .ok ⟨acc.records ++ [mkBatchErrRec n a t m],
        acc.taskSteps, acc.calls ++ cs, acc.invs ++ invs⟩
  | _ => .error "AttributeError: get"

/-- The batch step loop. -/
def execStepsBatch (X : XEnv) : BAcc → List Json → BAcc × Option String
  | acc, [] => (acc, none)
  | acc, s :: rest =>
    match execStepBatch X acc s with
    | .ok acc2 => execStepsBatch X acc2 rest
    | .error m => (acc, some m)

/-- successful_steps of the execution summary ("error" not in the record
at top level). -/
def summaryOk (rs : List Json) : Nat :=
  (rs.filter (fun r =>
    match r with
    | .obj ms => !(hasKey ms "error")
    | _ => true)).length

/-- _execute_llm_plan: walk the steps in list order and return the
aggregated result object. -/
def execPlanBatch (X : XEnv) (taskId : String) (decision : Json) :
    Json × BAcc × Option String :=
  match planItemsE (jgetD decision "execution_plan" (.arr [])) with
  | .error m => (.null, emptyBAcc, some m)
  | .ok steps =>
    let strategy := jgetD decision "execution_strategy" (.str "unknown")
    match execStepsBatch X emptyBAcc steps with
    | (acc, some m) => (.null, acc, some m)
    | (acc, none) =>
      (.obj [("task_id", .str taskId), ("execution_strategy", strategy),
        ("llm_decision", decision), ("execution_results", .arr acc.records),
        ("total_steps", .num (toString steps.length)),
        ("completed_steps", .num (toString acc.records.length)),
        ("summary", .str ("LLM驱动的任务执行完成。策略: " ++ pyStr strategy ++
          ", 成功步骤: " ++ toString (summaryOk acc.records) ++ "/" ++
          toString acc.records.length))], acc, none)

/-- _fallback_processing (batch): the first agent id in the registry
gets one call with the raw description and empty previous results under
strategy fallback; an empty registry yields the terminal failed result. -/
def _fallback_processing (env : SysEnv) (taskId : String) (desc : String) :
    Json × List OutCall :=
  match env.registry with
  | [] =>
    (.obj [("task_id", .str taskId), ("execution_strategy", .str "failed"),
      ("error", .str "没有可用的agents，且LLM处理失败"),
      ("available_agents", .arr [])], [])
  | (agentId, _) :: _ =>
    let rc := _call_agent env (.str agentId) (.str desc) []
    (.obj [("task_id", .str taskId), ("execution_strategy", .str "fallback"),
      ("selected_agent", .str agentId), ("result", rc.1),
      ("note", .str "使用降级处理，因为LLM分析失败")], rc.2)

/-! ### Predicates and fixtures used by the claim statements -/

/-- A remote failure of a chat-completion request: any non-200 response,
a network timeout, or a transport error. -/
def isRemoteFailure : HttpOutcome → Prop
  | .resp s _ _ => s ≠ 200
  | .timeout => True
  | .netError _ => True

/-- A result object whose success field, read the way the totals read
it, is absent or a boolean.  Every handler of the source produces such
objects. -/
def okSuccVal (r : Json) : Prop :=
  (∃ ms, r = Json.obj ms) ∧
    (jget r "success" = none ∨ jget r "success" = some (.bool true) ∨
     jget r "success" = some (.bool false))

/-- Handlers whose returned results satisfy okSuccVal (the concrete
handlers do; see ofSys_tame). -/
def XEnv.tame (X : XEnv) : Prop :=
  (∀ t d p r cs, X.callAgent t d p = (.ok r, cs) → okSuccVal r) ∧
  (∀ t d r cs, X.useTool t d = (.ok r, cs) → okSuccVal r) ∧
  (∀ t d p r cs, X.coordinate t d p = (.ok r, cs) → okSuccVal r)

/-- Replace the dependencies field of a plan step (leaving other values
untouched); used to state that the executor is insensitive to it. -/
def jsetDeps (d : Json) : Json → Json
  | .obj ms => .obj ((ms.filter (fun kv => kv.1 ≠ "dependencies")) ++ [("dependencies", d)])
  | j => j

/-- The data part of an A2A envelope: params.message.parts[1].data. -/
def partsData (req : Json) : Option Json :=
  match jget req "params" with
  | some ps =>
    match jget ps "message" with
    | some msg =>
      match jget msg "parts" with
      | some (.arr parts) =>
        match parts.get? 1 with
        | some pt => jget pt "data"
        | none => none
      | _ => none
    | none => none
  | none => none

/-- An outbound agent call carrying the given previous results in its
context: in the data part of an A2A envelope, in the context field of a
legacy body. -/
def callCarriesPrev (c : OutCall) (p : List Json) : Prop :=
  match c with
  | .a2aPost _ req => partsData req = some (buildContext p)
  | .legacyPost _ body => jget body "context" = some (buildContext p)
  | _ => False

/-- Fixture: a discovered a2a agent card. -/
def fixCard : Json := .obj [("name", .str "Alpha")]

/-- Fixture: its registry entry. -/
def fixEntryA2A : AgentEntry := ⟨"http://a:1", "a2a", "agent_card", "agent_card", fixCard⟩

/-- Fixture: a coordinator environment with one discovered a2a agent and
one configured MCP server, whose oracles always answer successfully. -/
def fixEnv : SysEnv where
  registry := [("alpha", fixEntryA2A)]
  a2a := fun _ _ => .resp 200 (some (.obj [("result", .str "done")])) ""
  legacy := fun _ _ => .resp 200 (some (.obj [])) ""
  mcpServers := ["fs"]
  mcpHasConfig := fun _ => true
  mcpToolNames := fun _ => ["read_file"]
  ts := 7

/-- Fixture: the same environment with an empty registry. -/
def fixEnvEmpty : SysEnv := { fixEnv with registry := [] }

/-- Fixture: a two-step plan decision (step 1 agent_call, step 2
tool_use). -/
def fixDecision : Json := .obj [("execution_strategy", .str "hybrid"),
  ("execution_plan", .arr [
    .obj [("step", .num "1"), ("action", .str "agent_call"),
      ("target", .str "alpha"), ("task", .str "g")],
    .obj [("step", .num "2"), ("action", .str "tool_use"),
      ("target", .str "fs:read_file"), ("task", .str "r")]])]

/-- Fixture: LLM stream chunks whose concatenation parses to
fixDecision. -/
def fixChunks : List String :=
  ["\x7b\"execution_strategy\": \"hybrid\", \"execution_plan\": [",
   "\x7b\"step\": 1, \"action\": \"agent_call\", \"target\": \"alpha\", \"task\": \"g\"\x7d,",
   "\x7b\"step\": 2, \"action\": \"tool_use\", \"target\": \"fs:read_file\", \"task\": \"r\"\x7d]\x7d"]

/-- Fixture: handlers whose agent calls raise. -/
def fixXExn : XEnv where
  callAgent := fun _ _ _ => (.exn "boom", [])
  useTool := fun _ _ => (.ok (.obj [("success", .bool true)]), [])
  coordinate := fun _ _ _ => (.ok (.obj [("success", .bool true)]), [])

/-- The initial accumulator of the plan execution stream: only the
execution_started event. -/
def streamAcc0 (d : Json) (n : Nat) : Acc :=
  { emptyAcc with events :=
      [.execution_started (jgetD d "execution_strategy" (.str "unknown")) n] }

/-- The accumulator state after one agent_call step of the streaming
executor over the concrete handlers: step_started and agent_call_started
precede the call, agent_call_completed follows it (no step_completed),
and the record stores the agent's result. -/
def agentStepAcc (env : SysEnv) (acc : Acc) (ms : List (String × Json)) : Acc :=
  { events := acc.events ++ [.step_started (stepNumOf (.obj ms)) (.str "agent_call")
        (targetOf (.obj ms)) (taskOf (.obj ms)),
      .agent_call_started (targetOf (.obj ms))] ++
      [.agent_call_completed (targetOf (.obj ms))
        (_call_agent env (targetOf (.obj ms)) (taskOf (.obj ms)) acc.records).1],
    records := acc.records ++ [mkStreamRec (stepNumOf (.obj ms)) (.str "agent_call")
      (targetOf (.obj ms))
      (_call_agent env (targetOf (.obj ms)) (taskOf (.obj ms)) acc.records).1],
    taskSteps := acc.taskSteps ++ [mkTaskStep (stepNumOf (.obj ms)) (.str "agent_call")
      (targetOf (.obj ms))
      (_call_agent env (targetOf (.obj ms)) (taskOf (.obj ms)) acc.records).1],
    calls := acc.calls ++ (_call_agent env (targetOf (.obj ms)) (taskOf (.obj ms))
      acc.records).2,
    invs := acc.invs ++ [⟨"agent_call", targetOf (.obj ms), taskOf (.obj ms),
      some acc.records⟩] }

/-- The accumulator state after one tool_use step of the streaming
executor over the concrete handlers: step_started and mcp_tool_used
precede the call, step_completed follows it, and the record stores the
tool result. -/
def toolStepAcc (env : SysEnv) (acc : Acc) (ms : List (String × Json)) : Acc :=
  { events := acc.events ++ [.step_started (stepNumOf (.obj ms)) (.str "tool_use")
        (targetOf (.obj ms)) (taskOf (.obj ms)),
      .mcp_tool_used (targetOf (.obj ms))] ++
      [.step_completed (stepNumOf (.obj ms)) (.str "tool_use") (targetOf (.obj ms))
        (succOf (_use_mcp_tool env (targetOf (.obj ms)) (taskOf (.obj ms))).1)
        (some (_use_mcp_tool env (targetOf (.obj ms)) (taskOf (.obj ms))).1) none],
    records := acc.records ++ [mkStreamRec (stepNumOf (.obj ms)) (.str "tool_use")
      (targetOf (.obj ms)) (_use_mcp_tool env (targetOf (.obj ms)) (taskOf (.obj ms))).1],
    taskSteps := acc.taskSteps ++ [mkTaskStep (stepNumOf (.obj ms)) (.str "tool_use")
      (targetOf (.obj ms)) (_use_mcp_tool env (targetOf (.obj ms)) (taskOf (.obj ms))).1],
    calls := acc.calls ++ (_use_mcp_tool env (targetOf (.obj ms)) (taskOf (.obj ms))).2,
    invs := acc.invs ++ [⟨"tool_use", targetOf (.obj ms), taskOf (.obj ms), none⟩] }

/-!
## Theorems

Helper lemmas first, then one theorem per claim (witnesses and
counterexamples alongside their claims).
-/

theorem alookup_aupsert_self {α : Type} (l : List (String × α)) (k : String) (v : α) :
    alookup (aupsert l k v) k = some v := by
  induction l with
  | nil => simp [aupsert, alookup]
  | cons kv t ih =>
    by_cases h : kv.1 = k
    · simp [aupsert, h, alookup]
    · simp [aupsert, h, alookup, ih]

theorem alookup_aupsert_ne {α : Type} (l : List (String × α)) (k k2 : String)
    (v : α) (hne : k ≠ k2) :
    alookup (aupsert l k2 v) k = alookup l k := by
  have hne2 : ¬ k2 = k := fun h => hne h.symm
  induction l with
  | nil => simp [aupsert, alookup, hne2]
  | cons kv t ih =>
    by_cases hk : kv.1 = k2
    · simp only [aupsert, hk, if_pos rfl, alookup]
      rw [if_neg hne2, if_neg (hk ▸ hne2)]
    · simp only [aupsert, if_neg hk, alookup, ih]

theorem alookup_aupsert_isSome {α : Type} (l : List (String × α)) (k k2 : String)
    (v : α) (h : (alookup l k).isSome = true) :
    (alookup (aupsert l k2 v) k).isSome = true := by
  by_cases he : k = k2
  · subst he; rw [alookup_aupsert_self]; rfl
  · rw [alookup_aupsert_ne _ _ _ _ he]; exact h

theorem applyDisc_preserves (st : DiscState) (o : Option DiscResult) (id : String)
    (h : (alookup st.agents id).isSome = true) :
    (alookup (applyDisc st o).agents id).isSome = true := by
  cases o with
  | none => exact h
  | some r => exact alookup_aupsert_isSome _ _ _ _ h

theorem discoverAgents_preserves (probes : List (String × EndpointProbes)) :
    ∀ (st : DiscState) (id : String), (alookup st.agents id).isSome = true →
      (alookup (discoverAgents st probes).agents id).isSome = true := by
  induction probes with
  | nil => intro st id h; exact h
  | cons ep rest ih =>
    intro st id h
    exact ih _ _ (applyDisc_preserves st _ id h)

theorem discoverCycles_preserves (cycles : List (List (String × EndpointProbes))) :
    ∀ (st : DiscState) (id : String), (alookup st.agents id).isSome = true →
      (alookup (discoverCycles st cycles).agents id).isSome = true := by
  induction cycles with
  | nil => intro st id h; exact h
  | cons c rest ih =>
    intro st id h
    exact ih _ _ (discoverAgents_preserves c st id h)

/-- C7: an agent_id present in the registry stays present across
arbitrarily many refresh cycles — in particular across cycles in which
every probe for it fails — because a failed probe never removes an
entry; and a successful probe for an agent_id overwrites the existing
entry with the new one. -/
theorem c7_registry_never_evicts :
    (∀ (st : DiscState) (cycles : List (List (String × EndpointProbes))) (id : String),
      (alookup st.agents id).isSome = true →
        (alookup (discoverCycles st cycles).agents id).isSome = true)
  ∧ (∀ (st : DiscState) (r : DiscResult),
      alookup (applyDisc st (some r)).agents r.agentId = some r.entry) := by
  constructor
  · intro st cycles id h
    exact discoverCycles_preserves cycles st id h
  · intro st r
    exact alookup_aupsert_self _ _ _

/-- Witness for C7 at a concrete registry and two all-failing refresh
cycles. -/
theorem c7_registry_never_evicts_witness :
    (alookup (DiscState.mk [("x", fixEntryA2A)] []).agents "x").isSome = true
  ∧ (alookup (discoverCycles (DiscState.mk [("x", fixEntryA2A)] [])
      [[("http://e", ⟨.fail, .fail, .fail, .fail⟩)],
       [("http://e", ⟨.fail, .fail, .fail, .fail⟩)]]).agents "x").isSome = true
  ∧ alookup (applyDisc (DiscState.mk [("x", fixEntryA2A)] [])
      (some ⟨"x", fixEntryA2A, none⟩)).agents "x" = some fixEntryA2A := by
  refine ⟨rfl, ?_, ?_⟩
  · exact c7_registry_never_evicts.1 _ _ "x" rfl
  · exact c7_registry_never_evicts.2 (DiscState.mk [("x", fixEntryA2A)] [])
      ⟨"x", fixEntryA2A, none⟩

/-- C6: the envoy's chat completion never raises on remote failure and
annotates the returned object's error field: authentication_failed on
HTTP 401, rate_limit_exceeded on 429, server_error on any 5xx, timeout
on a network timeout, and http_error_(code) on any other non-2xx
status. -/
theorem c6_llm_envoy_error_mapping (timeoutS : Nat) (vo : HttpOutcome) (rt : Json) :
    (∀ body text, jget (chat_completion timeoutS true vo rt (.resp 401 body text)) "error"
        = some (.str "authentication_failed"))
  ∧ (∀ body text, jget (chat_completion timeoutS true vo rt (.resp 429 body text)) "error"
        = some (.str "rate_limit_exceeded"))
  ∧ (∀ s body text, 500 ≤ s →
      jget (chat_completion timeoutS true vo rt (.resp s body text)) "error"
        = some (.str "server_error"))
  ∧ (jget (chat_completion timeoutS true vo rt .timeout) "error" = some (.str "timeout"))
  ∧ (∀ s body text, ¬ (200 ≤ s ∧ s ≤ 299) → s ≠ 401 → s ≠ 429 → s < 500 →
      jget (chat_completion timeoutS true vo rt (.resp s body text)) "error"
        = some (.str ("http_error_" ++ toString s)))
  ∧ (∀ o, isRemoteFailure o →
      ∃ e, jget (chat_completion timeoutS true vo rt o) "error" = some e) := by
  refine ⟨fun body text => rfl, fun body text => rfl, ?_, rfl, ?_, ?_⟩
  · intro s body text hs
    simp only [chat_completion, if_true, chatCompletionRequest]
    rw [if_neg (by omega : ¬ s = 200), if_neg (by omega : ¬ s = 401),
      if_neg (by omega : ¬ s = 429), if_pos hs]
    rfl
  · intro s body text h2xx h401 h429 h5
    simp only [chat_completion, if_true, chatCompletionRequest]
    rw [if_neg (by omega : ¬ s = 200), if_neg h401, if_neg h429,
      if_neg (by omega : ¬ 500 ≤ s)]
    rfl
  · intro o ho
    cases o with
    | resp s body text =>
      simp only [isRemoteFailure] at ho
      simp only [chat_completion, if_true, chatCompletionRequest]
      rw [if_neg ho]
      by_cases h1 : s = 401
      · rw [if_pos h1]; exact ⟨_, rfl⟩
      · rw [if_neg h1]
        by_cases h2 : s = 429
        · rw [if_pos h2]; exact ⟨_, rfl⟩
        · rw [if_neg h2]
          by_cases h3 : 500 ≤ s
          · rw [if_pos h3]; exact ⟨_, rfl⟩
          · rw [if_neg h3]; exact ⟨_, rfl⟩
    | timeout => exact ⟨_, rfl⟩
    | netError m => exact ⟨_, rfl⟩

/-- Witness for C6 at concrete statuses. -/
theorem c6_llm_envoy_error_mapping_witness :
    jget (chat_completion 60 true .timeout .null (.resp 401 none "")) "error"
      = some (.str "authentication_failed")
  ∧ jget (chat_completion 60 true .timeout .null (.resp 429 none "")) "error"
      = some (.str "rate_limit_exceeded")
  ∧ jget (chat_completion 60 true .timeout .null (.resp 503 none "")) "error"
      = some (.str "server_error")
  ∧ jget (chat_completion 60 true .timeout .null .timeout) "error" = some (.str "timeout")
  ∧ jget (chat_completion 60 true .timeout .null (.resp 404 none "")) "error"
      = some (.str ("http_error_" ++ toString 404))
  ∧ ∃ e, jget (chat_completion 60 true .timeout .null (.netError "x")) "error" = some e := by
  have h := c6_llm_envoy_error_mapping 60 .timeout .null
  exact ⟨h.1 none "", h.2.1 none "", h.2.2.1 503 none "" (by omega), h.2.2.2.1,
    h.2.2.2.2.1 404 none "" (by omega) (by omega) (by omega) (by omega),
    h.2.2.2.2.2 (.netError "x") trivial⟩

/-- C1: code-bug evidence.  For a tool_use target with a colon the
executor splits on the first colon as claimed, but its MCP invocation
path is an explicit placeholder: no outbound message at all is produced
— in particular no tools/call request — and the recorded result is the
mcp_protocol_required placeholder object. -/
theorem c1_mcp_tool_use_is_stub (env : SysEnv) (desc : Json) :
    (_use_mcp_tool env (.str "fs:read_file") desc).2 = []
  ∧ jget (_use_mcp_tool env (.str "fs:read_file") desc).1 "server" = some (.str "fs")
  ∧ jget (_use_mcp_tool env (.str "fs:read_file") desc).1 "tool" = some (.str "read_file")
  ∧ jget (jgetD (_use_mcp_tool env (.str "fs:read_file") desc).1 "result" .null) "result"
      = some (placeholderInvoke "fs" "read_file" desc)
  ∧ ∀ c ∈ (_use_mcp_tool env (.str "fs:read_file") desc).2,
      ∀ s t a, c ≠ OutCall.mcpToolsCall s t a := by
  refine ⟨rfl, rfl, rfl, rfl, ?_⟩
  intro c hc
  rw [show (_use_mcp_tool env (.str "fs:read_file") desc).2 = [] from rfl] at hc
  exact absurd hc (List.not_mem_nil c)

theorem specBranch_200_eq_probeBranch (endpoint : String) (pr : ProbeOutcome)
    (nk : String) (ck : Option String) (pk pro me : String) :
    specBranch (fun s => s = 200) endpoint pr nk ck pk pro me =
      probeBranch endpoint pr nk ck pk pro me := by
  cases pr with
  | fail => rfl
  | resp s b =>
    by_cases hs : s = 200
    · simp [specBranch, probeBranch, hs]
    · simp [specBranch, probeBranch, hs]

/-- C8 counterexample: a first-path response with status 201 and a valid
JSON body does not classify the agent in the code (which requires
exactly HTTP 200), although the claim's 2xx rule classifies it. -/
theorem c8_counterexample :
    (discoverSingleAgent "http://e:1"
        ⟨.resp 201 (some (Json.obj [("name", .str "X")])), .fail, .fail, .fail⟩).1
      ≠ discoverSingleSpec statusIs2xx "http://e:1"
        ⟨.resp 201 (some (Json.obj [("name", .str "X")])), .fail, .fail, .fail⟩ := by
  have h1 : (discoverSingleAgent "http://e:1"
      ⟨.resp 201 (some (Json.obj [("name", .str "X")])), .fail, .fail, .fail⟩).1 = none := rfl
  have h2 : discoverSingleSpec statusIs2xx "http://e:1"
      ⟨.resp 201 (some (Json.obj [("name", .str "X")])), .fail, .fail, .fail⟩ =
      some ⟨"x", ⟨"http://e:1", "a2a", "agent_card", "agent_card",
        Json.obj [("name", .str "X")]⟩, some (.arr [])⟩ := rfl
  rw [h1, h2]
  simp

/-- C8 amended: for every endpoint, the GETs are attempted in the order
of the four probe paths and the first HTTP-200 JSON response classifies
the agent — the first two paths yield protocol a2a with the card's
skills as capabilities, the third legacy, the fourth unknown — with no
later path probed once one succeeds. -/
theorem c8_discovery_probe_order (endpoint : String) (p : EndpointProbes) :
    (discoverSingleAgent endpoint p).1 = discoverSingleSpec (fun s => s = 200) endpoint p
  ∧ (discoverSingleAgent endpoint p).2 =
      probePaths.take (classIdx (fun s => s = 200) endpoint p) := by
  unfold discoverSingleAgent discoverSingleSpec classIdx
  simp only [specBranch_200_eq_probeBranch]
  cases h1 : probeBranch endpoint p.a2aCard "name" (some "skills") "agent_card" "a2a"
      "agent_card" with
  | some r => exact ⟨rfl, rfl⟩
  | none =>
    cases h2 : probeBranch endpoint p.wellKnown "name" (some "skills") "agent_card" "a2a"
        "agent_card_standard" with
    | some r => exact ⟨rfl, rfl⟩
    | none =>
      cases h3 : probeBranch endpoint p.capabilities "agent_name" (some "capabilities")
          "capabilities" "legacy" "capabilities_endpoint" with
      | some r => exact ⟨rfl, rfl⟩
      | none =>
        cases h4 : probeBranch endpoint p.health "agent" none "health" "unknown"
            "health_check" with
        | some r => exact ⟨rfl, rfl⟩
        | none => exact ⟨rfl, rfl⟩

/-- Witness for C8 (amended) at concrete probe outcomes: a 200 on the
second path classifies as a2a and stops after two attempts. -/
theorem c8_discovery_probe_order_witness :
    (discoverSingleAgent "http://a:1" ⟨.fail, .resp 200 (some fixCard), .fail, .fail⟩).1
      = discoverSingleSpec (fun s => s = 200) "http://a:1"
          ⟨.fail, .resp 200 (some fixCard), .fail, .fail⟩
  ∧ (discoverSingleAgent "http://a:1" ⟨.fail, .resp 200 (some fixCard), .fail, .fail⟩).2
      = ["/a2a/agent.json", "/.well-known/agent.json"] := by
  have h := c8_discovery_probe_order "http://a:1" ⟨.fail, .resp 200 (some fixCard), .fail, .fail⟩
  exact ⟨h.1, h.2⟩

theorem call_agent_one_call (env : SysEnv) (aid desc : Json) (prev : List Json)
    (info : AgentEntry) (hl : regLookup env.registry aid = some info) :
    (_call_agent env aid desc prev).2.length = 1 := by
  unfold _call_agent
  rw [hl]
  dsimp only
  by_cases hp : info.protocol = "a2a"
  · rw [if_pos hp]
    rcases hre : (_call_a2a_agent env info.endpoint desc (buildContext prev)).1 <;>
      simp [hre, _call_a2a_agent]
  · rw [if_neg hp]
    rcases hre : (_call_legacy_agent env info.endpoint
        (buildTaskData desc (buildContext prev))).1 <;>
      simp [hre, _call_legacy_agent]

/-- C2 counterexample: on the streaming path, a plan-compilation failure
(the reply "ok" parses to no plan) with a nonempty registry whose first
agent id is alpha issues no agent_call at all: the fallback emits
fallback_error without consulting the registry. -/
theorem c2_counterexample :
    fixEnv.registry = [("alpha", fixEntryA2A)]
  ∧ (process_task_with_llm_stream fixEnv "task_0" "hello" ["ok"]).calls = []
  ∧ (process_task_with_llm_stream fixEnv "task_0" "hello" ["ok"]).events.map evTag =
      [.llm_analysis_started, .llm_analysis_progress, .llm_analysis_completed, .errorT,
       .fallback_started, .fallback_error] :=
  ⟨rfl, rfl, rfl⟩

/-- C2 amended: on the batch path the fallback issues exactly one
agent_call to the first agent id in the registry with the raw
description and empty previous_results, reporting under strategy
fallback, and an empty registry yields a terminal result with strategy
failed and an error text reporting that no agents are available; the
streaming fallback instead ignores the registry: without a design
keyword in the description it emits fallback_error and makes no call. -/
theorem c2_fallback_first_agent :
    (∀ (env : SysEnv) (tid desc id : String) (e : AgentEntry)
        (rest : List (String × AgentEntry)), env.registry = (id, e) :: rest →
        jget (_fallback_processing env tid desc).1 "execution_strategy"
          = some (.str "fallback")
      ∧ jget (_fallback_processing env tid desc).1 "selected_agent" = some (.str id)
      ∧ jget (_fallback_processing env tid desc).1 "result"
          = some (_call_agent env (.str id) (.str desc) []).1
      ∧ (_fallback_processing env tid desc).2 = (_call_agent env (.str id) (.str desc) []).2
      ∧ ((_fallback_processing env tid desc).2).length = 1)
  ∧ (∀ (env : SysEnv) (tid desc : String), env.registry = [] →
        jget (_fallback_processing env tid desc).1 "execution_strategy"
          = some (.str "failed")
      ∧ jget (_fallback_processing env tid desc).1 "error"
          = some (.str "没有可用的agents，且LLM处理失败"))
  ∧ (∀ (env : SysEnv) (desc : String), hasDesignKeyword desc = false →
        (_fallback_processing_stream env desc).2 = []
      ∧ (_fallback_processing_stream env desc).1.map evTag
          = [.fallback_started, .fallback_error]) := by
  refine ⟨?_, ?_, ?_⟩
  · intro env tid desc id e rest h
    have hlook : regLookup env.registry (.str id) = some e := by
      unfold regLookup
      rw [h]
      simp [alookup]
    have hcall := call_agent_one_call env (.str id) (.str desc) [] e hlook
    unfold _fallback_processing
    rw [h]
    exact ⟨rfl, rfl, rfl, rfl, hcall⟩
  · intro env tid desc h
    unfold _fallback_processing
    rw [h]
    exact ⟨rfl, rfl⟩
  · intro env desc h
    unfold _fallback_processing_stream
    rw [h]
    exact ⟨rfl, rfl⟩

/-- Witness for C2 (amended) at the concrete environments. -/
theorem c2_fallback_first_agent_witness :
    jget (_fallback_processing fixEnv "task_0" "hello").1 "execution_strategy"
      = some (.str "fallback")
  ∧ jget (_fallback_processing fixEnv "task_0" "hello").1 "selected_agent"
      = some (.str "alpha")
  ∧ ((_fallback_processing fixEnv "task_0" "hello").2).length = 1
  ∧ jget (_fallback_processing fixEnvEmpty "task_0" "hello").1 "execution_strategy"
      = some (.str "failed")
  ∧ (_fallback_processing_stream fixEnv "hello").2 = [] := by
  have h1 := c2_fallback_first_agent.1 fixEnv "task_0" "hello" "alpha" fixEntryA2A [] rfl
  have h2 := c2_fallback_first_agent.2.1 fixEnvEmpty "task_0" "hello" rfl
  have h3 := c2_fallback_first_agent.2.2 fixEnv "hello" rfl
  exact ⟨h1.1, h1.2.1, h1.2.2.2.2, h2.1, h3.1⟩

theorem get_append_length {α : Type} (l1 : List α) (x : α) (l2 : List α) :
    (l1 ++ x :: l2).get? l1.length = some x := by
  induction l1 with
  | nil => rfl
  | cons a t ih => simpa using ih

theorem execStepsBatch_cons_ok (X : XEnv) (acc : BAcc) (s : Json) (acc2 : BAcc)
    (heq : execStepBatch X acc s = .ok acc2) (rest : List Json) :
    execStepsBatch X acc (s :: rest) = execStepsBatch X acc2 rest := by
  show (match execStepBatch X acc s with
    | .ok a => execStepsBatch X a rest
    | .error m => (acc, some m)) = _
  rw [heq]

theorem execStepsBatch_cons_err (X : XEnv) (acc : BAcc) (s : Json) (m : String)
    (heq : execStepBatch X acc s = .error m) (rest : List Json) :
    execStepsBatch X acc (s :: rest) = (acc, some m) := by
  show (match execStepBatch X acc s with
    | .ok a => execStepsBatch X a rest
    | .error m => (acc, some m)) = _
  rw [heq]

theorem dispatchStep_agent (X : XEnv) (t d : Json) (prev : List Json) :
    dispatchStep X (.str "agent_call") t d prev =
      ((X.callAgent t d prev).1, (X.callAgent t d prev).2,
        [⟨"agent_call", t, d, some prev⟩]) := rfl

theorem dispatchStep_tool (X : XEnv) (t d : Json) (prev : List Json) :
    dispatchStep X (.str "tool_use") t d prev =
      ((X.useTool t d).1, (X.useTool t d).2, [⟨"tool_use", t, d, none⟩]) := rfl

theorem execStepBatch_obj (X : XEnv) (acc : BAcc) (ms : List (String × Json)) :
    ∃ acc2 rec, execStepBatch X acc (.obj ms) = .ok acc2
    ∧ acc2.records = acc.records ++ [rec]
    ∧ jget rec "step" = some (stepNumOf (.obj ms))
    ∧ jget rec "action" = some (actionOf (.obj ms))
    ∧ jget rec "target" = some (targetOf (.obj ms)) := by
  unfold execStepBatch
  dsimp only
  rcases hd : dispatchStep X (actionOf (.obj ms)) (targetOf (.obj ms)) (taskOf (.obj ms))
      acc.records with ⟨out, cs, invs⟩
  cases out with
  | ok r => exact ⟨_, _, rfl, rfl, rfl, rfl, rfl⟩
  | exn m => exact ⟨_, _, rfl, rfl, rfl, rfl, rfl⟩

theorem execStepsBatch_noabort (X : XEnv) (steps : List Json) :
    ∀ acc, (∀ s ∈ steps, ∃ ms, s = Json.obj ms) →
      (execStepsBatch X acc steps).2 = none ∧
      (execStepsBatch X acc steps).1.records.length = acc.records.length + steps.length := by
  induction steps with
  | nil => intro acc _; exact ⟨rfl, rfl⟩
  | cons s rest ih =>
    intro acc hobj
    rcases hobj s (List.mem_cons_self s rest) with ⟨ms, hms⟩
    subst hms
    rcases execStepBatch_obj X acc ms with ⟨acc2, rec, heq, hrec, -, -, -⟩
    rw [execStepsBatch_cons_ok X acc _ acc2 heq rest]
    have := ih acc2 (fun x hx => hobj x (List.mem_cons_of_mem _ hx))
    refine ⟨this.1, ?_⟩
    rw [this.2, hrec]
    simp
    omega

theorem execStepsBatch_records_prefix (X : XEnv) (steps : List Json) :
    ∀ acc, ∃ tail, (execStepsBatch X acc steps).1.records = acc.records ++ tail := by
  induction steps with
  | nil => intro acc; exact ⟨[], by simp [execStepsBatch]⟩
  | cons s rest ih =>
    intro acc
    cases s with
    | obj ms =>
      rcases execStepBatch_obj X acc ms with ⟨acc2, rec, heq, hrec, -, -, -⟩
      rw [execStepsBatch_cons_ok X acc _ acc2 heq rest]
      rcases ih acc2 with ⟨tail2, h2⟩
      exact ⟨rec :: tail2, by rw [h2, hrec]; simp⟩
    | null =>
      show ∃ tail, (match execStepBatch X acc Json.null with
        | .ok a => execStepsBatch X a rest
        | .error m => (acc, some m)).1.records = acc.records ++ tail
      exact ⟨[], by simp [execStepBatch]⟩
    | bool b =>
      show ∃ tail, (match execStepBatch X acc (Json.bool b) with
        | .ok a => execStepsBatch X a rest
        | .error m => (acc, some m)).1.records = acc.records ++ tail
      exact ⟨[], by simp [execStepBatch]⟩
    | num r =>
      show ∃ tail, (match execStepBatch X acc (Json.num r) with
        | .ok a => execStepsBatch X a rest
        | .error m => (acc, some m)).1.records = acc.records ++ tail
      exact ⟨[], by simp [execStepBatch]⟩
    | str r =>
      show ∃ tail, (match execStepBatch X acc (Json.str r) with
        | .ok a => execStepsBatch X a rest
        | .error m => (acc, some m)).1.records = acc.records ++ tail
      exact ⟨[], by simp [execStepBatch]⟩
    | arr l =>
      show ∃ tail, (match execStepBatch X acc (Json.arr l) with
        | .ok a => execStepsBatch X a rest
        | .error m => (acc, some m)).1.records = acc.records ++ tail
      exact ⟨[], by simp [execStepBatch]⟩

theorem execStepsBatch_get (X : XEnv) (steps : List Json) :
    ∀ acc, (∀ s ∈ steps, ∃ ms, s = Json.obj ms) →
      ∀ i s, steps.get? i = some s →
        ∃ rec, (execStepsBatch X acc steps).1.records.get? (acc.records.length + i)
            = some rec
          ∧ jget rec "step" = some (stepNumOf s)
          ∧ jget rec "action" = some (actionOf s)
          ∧ jget rec "target" = some (targetOf s) := by
  induction steps with
  | nil => intro acc _ i s h; simp at h
  | cons s0 rest ih =>
    intro acc hobj i s hget
    rcases hobj s0 (List.mem_cons_self s0 rest) with ⟨ms, hms⟩
    subst hms
    rcases execStepBatch_obj X acc ms with ⟨acc2, rec, heq, hrec, hstep, hact, htgt⟩
    rw [execStepsBatch_cons_ok X acc _ acc2 heq rest]
    cases i with
    | zero =>
      simp only [List.get?_cons_zero] at hget
      cases hget
      rcases execStepsBatch_records_prefix X rest acc2 with ⟨tail, hpre⟩
      refine ⟨rec, ?_, hstep, hact, htgt⟩
      rw [hpre, hrec, List.append_assoc]
      simpa using get_append_length acc.records rec tail
    | succ j =>
      simp only [List.get?_cons_succ] at hget
      rcases ih acc2 (fun x hx => hobj x (List.mem_cons_of_mem _ hx)) j s hget
        with ⟨rec2, hg, h1, h2, h3⟩
      refine ⟨rec2, ?_, h1, h2, h3⟩
      rw [← hg]
      congr 1
      rw [hrec]
      simp
      omega

theorem jget_filter_ne (ms : List (String × Json)) (k : String)
    (hk : k ≠ "dependencies") : ∀ acc : Option Json,
    (ms.filter (fun kv => kv.1 ≠ "dependencies")).foldl
        (fun acc kv => if kv.1 = k then some kv.2 else acc) acc =
      ms.foldl (fun acc kv => if kv.1 = k then some kv.2 else acc) acc := by
  induction ms with
  | nil => intro acc; rfl
  | cons kv t ih =>
    intro acc
    by_cases hd : kv.1 = "dependencies"
    · have hne : ¬ kv.1 = k := by rw [hd]; exact fun h => hk h.symm
      rw [List.filter_cons_of_neg (by simp [hd]), List.foldl_cons, if_neg hne]
      exact ih acc
    · rw [List.filter_cons_of_pos (by simp [hd]), List.foldl_cons, List.foldl_cons]
      exact ih _

theorem jget_jsetDeps (d j : Json) (k : String) (hk : k ≠ "dependencies") :
    jget (jsetDeps d j) k = jget j k := by
  cases j with
  | obj ms =>
    simp only [jsetDeps, jget, List.foldl_append, List.foldl_cons, List.foldl_nil]
    rw [if_neg (fun h => hk h.symm)]
    exact jget_filter_ne ms k hk none
  | null => rfl
  | bool b => rfl
  | num r => rfl
  | str s => rfl
  | arr l => rfl

theorem fieldsOf_jsetDeps (d s : Json) :
    stepNumOf (jsetDeps d s) = stepNumOf s ∧ actionOf (jsetDeps d s) = actionOf s ∧
    targetOf (jsetDeps d s) = targetOf s ∧ taskOf (jsetDeps d s) = taskOf s := by
  refine ⟨?_, ?_, ?_, ?_⟩
  · simp only [stepNumOf, jgetD]; rw [jget_jsetDeps d s "step" (by decide)]
  · simp only [actionOf, jgetD]; rw [jget_jsetDeps d s "action" (by decide)]
  · simp only [targetOf, jgetD]; rw [jget_jsetDeps d s "target" (by decide)]
  · simp only [taskOf, jgetD]; rw [jget_jsetDeps d s "task" (by decide)]

theorem execStepBatch_congr (X : XEnv) (acc : BAcc) (ms1 ms2 : List (String × Json))
    (h1 : stepNumOf (.obj ms1) = stepNumOf (.obj ms2))
    (h2 : actionOf (.obj ms1) = actionOf (.obj ms2))
    (h3 : targetOf (.obj ms1) = targetOf (.obj ms2))
    (h4 : taskOf (.obj ms1) = taskOf (.obj ms2)) :
    execStepBatch X acc (.obj ms1) = execStepBatch X acc (.obj ms2) := by
  unfold execStepBatch
  rw [h1, h2, h3, h4]

theorem execStepBatch_jsetDeps (X : XEnv) (acc : BAcc) (d s : Json) :
    execStepBatch X acc (jsetDeps d s) = execStepBatch X acc s := by
  cases s with
  | obj ms =>
    rcases fieldsOf_jsetDeps d (.obj ms) with ⟨h1, h2, h3, h4⟩
    exact execStepBatch_congr X acc _ ms h1 h2 h3 h4
  | null => rfl
  | bool b => rfl
  | num r => rfl
  | str r => rfl
  | arr l => rfl

theorem execStepsBatch_jsetDeps (X : XEnv) (d : Json) (steps : List Json) :
    ∀ acc, execStepsBatch X acc (steps.map (jsetDeps d)) = execStepsBatch X acc steps := by
  induction steps with
  | nil => intro acc; rfl
  | cons s rest ih =>
    intro acc
    rw [List.map_cons]
    cases heq : execStepBatch X acc s with
    | ok acc2 =>
      have heq2 : execStepBatch X acc (jsetDeps d s) = .ok acc2 := by
        rw [execStepBatch_jsetDeps]; exact heq
      rw [execStepsBatch_cons_ok X acc _ acc2 heq2 (rest.map (jsetDeps d)),
        execStepsBatch_cons_ok X acc _ acc2 heq rest]
      exact ih acc2
    | error m =>
      have heq2 : execStepBatch X acc (jsetDeps d s) = .error m := by
        rw [execStepBatch_jsetDeps]; exact heq
      rw [execStepsBatch_cons_err X acc _ m heq2 (rest.map (jsetDeps d)),
        execStepsBatch_cons_err X acc _ m heq rest]

theorem execStepBatch_agent_invs (X : XEnv) (acc : BAcc) (ms : List (String × Json))
    (ha : actionOf (.obj ms) = .str "agent_call") :
    ∃ acc2, execStepBatch X acc (.obj ms) = .ok acc2 ∧
      acc2.invs = acc.invs ++
        [⟨"agent_call", targetOf (.obj ms), taskOf (.obj ms), some acc.records⟩] := by
  unfold execStepBatch
  dsimp only
  rw [ha, dispatchStep_agent]
  cases (X.callAgent (targetOf (.obj ms)) (taskOf (.obj ms)) acc.records).1 with
  | ok r => exact ⟨_, rfl, rfl⟩
  | exn m => exact ⟨_, rfl, rfl⟩

theorem execStepBatch_tool_invs (X : XEnv) (acc : BAcc) (ms : List (String × Json))
    (ha : actionOf (.obj ms) = .str "tool_use") :
    ∃ acc2, execStepBatch X acc (.obj ms) = .ok acc2 ∧
      acc2.invs = acc.invs ++ [⟨"tool_use", targetOf (.obj ms), taskOf (.obj ms), none⟩] := by
  unfold execStepBatch
  dsimp only
  rw [ha, dispatchStep_tool]
  cases (X.useTool (targetOf (.obj ms)) (taskOf (.obj ms))).1 with
  | ok r => exact ⟨_, rfl, rfl⟩
  | exn m => exact ⟨_, rfl, rfl⟩

theorem execStepsBatch_append_one (X : XEnv) (pre : List Json) :
    ∀ acc, (∀ s ∈ pre, ∃ ms, s = Json.obj ms) → ∀ s,
      execStepsBatch X acc (pre ++ [s]) =
        execStepsBatch X (execStepsBatch X acc pre).1 [s] := by
  induction pre with
  | nil => intro acc _ s; rfl
  | cons p rest ih =>
    intro acc hobj s
    rcases hobj p (List.mem_cons_self p rest) with ⟨ms, hms⟩
    subst hms
    rcases execStepBatch_obj X acc ms with ⟨acc2, rec, heq, -, -, -, -⟩
    rw [show (Json.obj ms :: rest) ++ [s] = Json.obj ms :: (rest ++ [s]) from rfl,
      execStepsBatch_cons_ok X acc _ acc2 heq (rest ++ [s]),
      execStepsBatch_cons_ok X acc _ acc2 heq rest]
    exact ih acc2 (fun x hx => hobj x (List.mem_cons_of_mem _ hx)) s


theorem call_agent_carries (env : SysEnv) (t d : Json) (p : List Json) (c : OutCall)
    (hc : c ∈ (_call_agent env t d p).2) : callCarriesPrev c p := by
  unfold _call_agent at hc
  cases hl : regLookup env.registry t with
  | none => rw [hl] at hc; exact absurd hc (List.not_mem_nil c)
  | some info =>
    rw [hl] at hc
    dsimp only at hc
    by_cases hp : info.protocol = "a2a"
    · rw [if_pos hp] at hc
      have h2 : (_call_a2a_agent env info.endpoint d (buildContext p)).2 =
          [.a2aPost info.endpoint (buildA2ARequest env.ts d (buildContext p))] := rfl
      cases hre : (_call_a2a_agent env info.endpoint d (buildContext p)).1 with
      | ok r =>
        rw [hre] at hc
        dsimp only at hc
        rw [h2, List.mem_singleton] at hc
        subst hc
        exact rfl
      | error m =>
        rw [hre] at hc
        dsimp only at hc
        rw [h2, List.mem_singleton] at hc
        subst hc
        exact rfl
    · rw [if_neg hp] at hc
      have h2 : (_call_legacy_agent env info.endpoint
          (buildTaskData d (buildContext p))).2 =
          [.legacyPost info.endpoint (buildTaskData d (buildContext p))] := rfl
      cases hre : (_call_legacy_agent env info.endpoint
          (buildTaskData d (buildContext p))).1 with
      | ok r =>
        rw [hre] at hc
        dsimp only at hc
        rw [h2, List.mem_singleton] at hc
        subst hc
        exact rfl
      | error m =>
        rw [hre] at hc
        dsimp only at hc
        rw [h2, List.mem_singleton] at hc
        subst hc
        exact rfl

/-- C5 counterexample: in the two-step plan of fixDecision the step-2
tool_use handler is invoked with no previous results at all (its call
site passes none), although the step-1 StepRecord exists; the claim's
"tool_use steps receive the same previous_results threading" fails. -/
theorem c5_counterexample :
    ((execPlanBatch (XEnv.ofSys fixEnv) "task_0" fixDecision).2.1.invs).map Invocation.prev
      = [some [], none]
  ∧ ((execPlanBatch (XEnv.ofSys fixEnv) "task_0" fixDecision).2.1.invs).get? 1
      = some ⟨"tool_use", .str "fs:read_file", .str "r", none⟩
  ∧ ((execPlanBatch (XEnv.ofSys fixEnv) "task_0" fixDecision).2.1.records).length = 2 :=
  ⟨rfl, rfl, rfl⟩

/-- C5 amended: the executor walks the steps in list order (the i-th
record carries the i-th step's number, action and target) and is
insensitive to the dependencies field; agent_call and coordination call
sites receive all prior StepRecords, and an outbound agent call carries
them under previous_results in the A2A envelope's params.message.parts[1].data
(or the legacy body's context); tool_use call sites receive no previous
results. -/
theorem c5_prior_results_threading (X : XEnv) (steps : List Json)
    (hobj : ∀ s ∈ steps, ∃ ms, s = Json.obj ms) :
    ((execStepsBatch X emptyBAcc steps).2 = none
  ∧ (execStepsBatch X emptyBAcc steps).1.records.length = steps.length
  ∧ ∀ i s, steps.get? i = some s →
      ∃ rec, (execStepsBatch X emptyBAcc steps).1.records.get? i = some rec
        ∧ jget rec "step" = some (stepNumOf s)
        ∧ jget rec "action" = some (actionOf s)
        ∧ jget rec "target" = some (targetOf s))
  ∧ (∀ d, execStepsBatch X emptyBAcc (steps.map (jsetDeps d)) =
      execStepsBatch X emptyBAcc steps)
  ∧ (∀ pre s post, steps = pre ++ s :: post → actionOf s = .str "agent_call" →
      (execStepsBatch X emptyBAcc (pre ++ [s])).1.invs =
        (execStepsBatch X emptyBAcc pre).1.invs ++
          [⟨"agent_call", targetOf s, taskOf s,
            some (execStepsBatch X emptyBAcc pre).1.records⟩])
  ∧ (∀ pre s post, steps = pre ++ s :: post → actionOf s = .str "tool_use" →
      (execStepsBatch X emptyBAcc (pre ++ [s])).1.invs =
        (execStepsBatch X emptyBAcc pre).1.invs ++
          [⟨"tool_use", targetOf s, taskOf s, none⟩])
  ∧ (∀ (env : SysEnv) (t d : Json) (p : List Json) (c : OutCall),
      c ∈ (_call_agent env t d p).2 → callCarriesPrev c p)
  ∧ (∀ p : List Json, jget (buildContext p) "previous_results" = some (.arr p)) := by
  have hsub : ∀ pre (s : Json) post, steps = pre ++ s :: post →
      (∀ x ∈ pre, ∃ ms, x = Json.obj ms) ∧ ∃ ms, s = Json.obj ms := by
    intro pre s post hsp
    subst hsp
    exact ⟨fun x hx => hobj x (List.mem_append_left _ hx),
      hobj s (List.mem_append_right _ (List.mem_cons_self s post))⟩
  refine ⟨⟨(execStepsBatch_noabort X steps emptyBAcc hobj).1, ?_, ?_⟩, ?_, ?_, ?_, ?_, ?_⟩
  · have := (execStepsBatch_noabort X steps emptyBAcc hobj).2
    simpa [emptyBAcc] using this
  · intro i s hget
    have := execStepsBatch_get X steps emptyBAcc hobj i s hget
    simpa [emptyBAcc] using this
  · intro d; exact execStepsBatch_jsetDeps X d steps emptyBAcc
  · intro pre s post hsp ha
    rcases hsub pre s post hsp with ⟨hpre, ms, hms⟩
    subst hms
    rw [execStepsBatch_append_one X pre emptyBAcc hpre (.obj ms)]
    rcases execStepBatch_agent_invs X (execStepsBatch X emptyBAcc pre).1 ms ha
      with ⟨acc2, heq, hinv⟩
    show (match execStepBatch X (execStepsBatch X emptyBAcc pre).1 (.obj ms) with
      | .ok acc2 => execStepsBatch X acc2 []
      | .error m => ((execStepsBatch X emptyBAcc pre).1, some m)).1.invs = _
    rw [heq]
    exact hinv
  · intro pre s post hsp ha
    rcases hsub pre s post hsp with ⟨hpre, ms, hms⟩
    subst hms
    rw [execStepsBatch_append_one X pre emptyBAcc hpre (.obj ms)]
    rcases execStepBatch_tool_invs X (execStepsBatch X emptyBAcc pre).1 ms ha
      with ⟨acc2, heq, hinv⟩
    show (match execStepBatch X (execStepsBatch X emptyBAcc pre).1 (.obj ms) with
      | .ok acc2 => execStepsBatch X acc2 []
      | .error m => ((execStepsBatch X emptyBAcc pre).1, some m)).1.invs = _
    rw [heq]
    exact hinv
  · exact call_agent_carries
  · intro p; rfl

/-- Witness for C5 (amended) at the concrete two-step plan. -/
theorem c5_prior_results_threading_witness :
    ∃ l, jgetD fixDecision "execution_plan" (.arr []) = .arr l ∧
      (execStepsBatch (XEnv.ofSys fixEnv) emptyBAcc l).2 = none ∧
      (execStepsBatch (XEnv.ofSys fixEnv) emptyBAcc l).1.records.length = 2 := by
  refine ⟨[.obj [("step", .num "1"), ("action", .str "agent_call"),
      ("target", .str "alpha"), ("task", .str "g")],
    .obj [("step", .num "2"), ("action", .str "tool_use"),
      ("target", .str "fs:read_file"), ("task", .str "r")]], rfl, ?_, ?_⟩
  · exact (c5_prior_results_threading (XEnv.ofSys fixEnv) _ (by
      intro s hs
      simp only [List.mem_cons, List.not_mem_nil, or_false] at hs
      rcases hs with h | h <;> exact ⟨_, h⟩)).1.1
  · have := (c5_prior_results_threading (XEnv.ofSys fixEnv)
      [Json.obj [("step", .num "1"), ("action", .str "agent_call"),
        ("target", .str "alpha"), ("task", .str "g")],
       Json.obj [("step", .num "2"), ("action", .str "tool_use"),
        ("target", .str "fs:read_file"), ("task", .str "r")]] (by
      intro s hs
      simp only [List.mem_cons, List.not_mem_nil, or_false] at hs
      rcases hs with h | h <;> exact ⟨_, h⟩)).1.2.1
    simpa using this

theorem execStepsStream_cons_ok (X : XEnv) (acc : Acc) (s : Json) (acc2 : Acc)
    (heq : execStepStream X acc s = .ok acc2) (rest : List Json) :
    execStepsStream X acc (s :: rest) = execStepsStream X acc2 rest := by
  show (match execStepStream X acc s with
    | .ok a => execStepsStream X a rest
    | .error m => (acc, some m)) = _
  rw [heq]

theorem execStepStream_obj (X : XEnv) (acc : Acc) (ms : List (String × Json)) :
    ∃ acc2 rec evs, execStepStream X acc (.obj ms) = .ok acc2
    ∧ acc2.records = acc.records ++ [rec]
    ∧ acc2.events = acc.events ++ evs := by
  unfold execStepStream
  dsimp only
  rcases hd : dispatchStep X (actionOf (.obj ms)) (targetOf (.obj ms)) (taskOf (.obj ms))
      acc.records with ⟨out, cs, invs⟩
  cases out with
  | ok r => exact ⟨_, _, _, rfl, rfl, List.append_assoc _ _ _⟩
  | exn m => exact ⟨_, _, _, rfl, rfl, List.append_assoc _ _ _⟩

theorem execStepsStream_noabort (X : XEnv) (steps : List Json) :
    ∀ acc, (∀ s ∈ steps, ∃ ms, s = Json.obj ms) →
      (execStepsStream X acc steps).2 = none ∧
      (execStepsStream X acc steps).1.records.length =
        acc.records.length + steps.length := by
  induction steps with
  | nil => intro acc _; exact ⟨rfl, rfl⟩
  | cons s rest ih =>
    intro acc hobj
    rcases hobj s (List.mem_cons_self s rest) with ⟨ms, hms⟩
    subst hms
    rcases execStepStream_obj X acc ms with ⟨acc2, rec, evs, heq, hrec, -⟩
    rw [execStepsStream_cons_ok X acc _ acc2 heq rest]
    have := ih acc2 (fun x hx => hobj x (List.mem_cons_of_mem _ hx))
    refine ⟨this.1, ?_⟩
    rw [this.2, hrec]
    simp
    omega

theorem execStepsStream_prefix (X : XEnv) (steps : List Json) :
    ∀ acc, (∃ tailr, (execStepsStream X acc steps).1.records = acc.records ++ tailr)
      ∧ (∃ taile, (execStepsStream X acc steps).1.events = acc.events ++ taile) := by
  induction steps with
  | nil => intro acc; exact ⟨⟨[], by simp [execStepsStream]⟩, ⟨[], by simp [execStepsStream]⟩⟩
  | cons s rest ih =>
    intro acc
    cases heq : execStepStream X acc s with
    | error m =>
      rw [show execStepsStream X acc (s :: rest) = (acc, some m) from by
        show (match execStepStream X acc s with
          | .ok a => execStepsStream X a rest
          | .error m => (acc, some m)) = _
        rw [heq]]
      exact ⟨⟨[], by simp⟩, ⟨[], by simp⟩⟩
    | ok acc2 =>
      rw [execStepsStream_cons_ok X acc _ acc2 heq rest]
      cases s with
      | obj ms =>
        rcases execStepStream_obj X acc ms with ⟨acc2b, rec, evs, heq2, hrec, hevs⟩
        rw [heq] at heq2
        injection heq2 with heq2
        subst heq2
        rcases ih acc2 with ⟨⟨tr, htr⟩, ⟨te, hte⟩⟩
        exact ⟨⟨[rec] ++ tr, by rw [htr, hrec]; simp⟩,
          ⟨evs ++ te, by rw [hte, hevs]; simp⟩⟩
      | null => exact absurd heq (by simp [execStepStream])
      | bool b => exact absurd heq (by simp [execStepStream])
      | num r => exact absurd heq (by simp [execStepStream])
      | str r => exact absurd heq (by simp [execStepStream])
      | arr l => exact absurd heq (by simp [execStepStream])

theorem execStepsStream_append (X : XEnv) (pre : List Json) :
    ∀ acc, (∀ s ∈ pre, ∃ ms, s = Json.obj ms) → ∀ rest,
      execStepsStream X acc (pre ++ rest) =
        execStepsStream X (execStepsStream X acc pre).1 rest := by
  induction pre with
  | nil => intro acc _ rest; rfl
  | cons p tl ih =>
    intro acc hobj rest
    rcases hobj p (List.mem_cons_self p tl) with ⟨ms, hms⟩
    subst hms
    rcases execStepStream_obj X acc ms with ⟨acc2, rec, evs, heq, -, -⟩
    rw [show (Json.obj ms :: tl) ++ rest = Json.obj ms :: (tl ++ rest) from rfl,
      execStepsStream_cons_ok X acc _ acc2 heq (tl ++ rest),
      execStepsStream_cons_ok X acc _ acc2 heq tl]
    exact ih acc2 (fun x hx => hobj x (List.mem_cons_of_mem _ hx)) rest

theorem execStepStream_exn (X : XEnv) (acc : Acc) (ms : List (String × Json)) (m : String)
    (cs : List OutCall) (invs : List Invocation)
    (hx : dispatchStep X (actionOf (.obj ms)) (targetOf (.obj ms)) (taskOf (.obj ms))
        acc.records = (.exn m, cs, invs)) :
    ∃ acc2, execStepStream X acc (.obj ms) = .ok acc2
    ∧ acc2.records = acc.records ++ [mkStreamRec (stepNumOf (.obj ms)) (actionOf (.obj ms))
        (targetOf (.obj ms)) (errResult m (stepNumOf (.obj ms)))]
    ∧ acc2.events = acc.events ++
        (preEvents (stepNumOf (.obj ms)) (actionOf (.obj ms)) (targetOf (.obj ms))
            (taskOf (.obj ms)) ++
          [.step_completed (stepNumOf (.obj ms)) (actionOf (.obj ms)) (targetOf (.obj ms))
            false none (some m)]) := by
  unfold execStepStream
  dsimp only
  rw [hx]
  exact ⟨_, rfl, rfl, List.append_assoc _ _ _⟩

/-- C4: a step whose execution raises never escapes the per-step
boundary: the exception text is captured into that step's record (as the
result dict with the error and step keys), a step_completed event with
success false and the error is emitted, and the executor still runs
every remaining step (the loop never aborts and produces one record per
step). -/
theorem c4_step_failure_contained (X : XEnv) (pre post : List Json) (s : Json)
    (hobj : ∀ x ∈ pre ++ s :: post, ∃ ms, x = Json.obj ms) (m : String)
    (cs : List OutCall) (invs : List Invocation)
    (hx : dispatchStep X (actionOf s) (targetOf s) (taskOf s)
        (execStepsStream X emptyAcc pre).1.records = (.exn m, cs, invs)) :
    (execStepsStream X emptyAcc (pre ++ s :: post)).2 = none
  ∧ (execStepsStream X emptyAcc (pre ++ s :: post)).1.records.length
      = (pre ++ s :: post).length
  ∧ (execStepsStream X emptyAcc (pre ++ s :: post)).1.records.get? pre.length
      = some (mkStreamRec (stepNumOf s) (actionOf s) (targetOf s)
          (errResult m (stepNumOf s)))
  ∧ (Ev.step_completed (stepNumOf s) (actionOf s) (targetOf s) false none (some m))
      ∈ (execStepsStream X emptyAcc (pre ++ s :: post)).1.events := by
  have hpre : ∀ x ∈ pre, ∃ ms, x = Json.obj ms :=
    fun x hx2 => hobj x (List.mem_append_left _ hx2)
  have hpost : ∀ x ∈ post, ∃ ms, x = Json.obj ms :=
    fun x hx2 => hobj x (List.mem_append_right _ (List.mem_cons_of_mem _ hx2))
  rcases hobj s (List.mem_append_right _ (List.mem_cons_self s post)) with ⟨ms, hms⟩
  subst hms
  rcases execStepStream_exn X (execStepsStream X emptyAcc pre).1 ms m cs invs hx
    with ⟨acc2, heq, hrec2, hev2⟩
  have hsplit : execStepsStream X emptyAcc (pre ++ Json.obj ms :: post) =
      execStepsStream X acc2 post := by
    rw [execStepsStream_append X pre emptyAcc hpre (Json.obj ms :: post),
      execStepsStream_cons_ok X (execStepsStream X emptyAcc pre).1 _ acc2 heq post]
  have hprelen : (execStepsStream X emptyAcc pre).1.records.length = pre.length := by
    have := (execStepsStream_noabort X pre emptyAcc hpre).2
    simpa [emptyAcc] using this
  have hpostrun := execStepsStream_noabort X post acc2 hpost
  rcases execStepsStream_prefix X post acc2 with ⟨⟨tr, htr⟩, ⟨te, hte⟩⟩
  refine ⟨?_, ?_, ?_, ?_⟩
  · rw [hsplit]; exact hpostrun.1
  · rw [hsplit, hpostrun.2, hrec2]
    simp only [List.length_append, List.length_cons, List.length_nil, hprelen]
    omega
  · rw [hsplit, htr, hrec2, List.append_assoc]
    rw [← hprelen]
    exact get_append_length (execStepsStream X emptyAcc pre).1.records _ tr
  · rw [hsplit, hte, hev2, List.append_assoc]
    refine List.mem_append_right _ (List.mem_append_left _ ?_)
    exact List.mem_append_right _ (List.mem_cons_self _ _)

/-- Witness for C4: handlers whose agent calls raise, on a one-step
plan. -/
theorem c4_step_failure_contained_witness :
    (execStepsStream fixXExn emptyAcc ([] ++ Json.obj [("step", .num "1"),
        ("action", .str "agent_call"), ("target", .str "x"), ("task", .str "t")] :: [])).2
      = none
  ∧ (Ev.step_completed (.num "1") (.str "agent_call") (.str "x") false none (some "boom"))
      ∈ (execStepsStream fixXExn emptyAcc ([] ++ Json.obj [("step", .num "1"),
        ("action", .str "agent_call"), ("target", .str "x"), ("task", .str "t")] :: [])).1.events := by
  have h := c4_step_failure_contained fixXExn [] []
    (Json.obj [("step", .num "1"), ("action", .str "agent_call"), ("target", .str "x"),
      ("task", .str "t")])
    (by
      intro x hx
      simp only [List.nil_append, List.mem_cons, List.not_mem_nil, or_false] at hx
      exact ⟨_, hx⟩)
    "boom" [] [⟨"agent_call", .str "x", .str "t", some []⟩] rfl
  exact ⟨h.1, h.2.2.2⟩

theorem a2aResultE_okSucc (o : PostOutcome) (r0 : Json) (h : a2aResultE o = .ok r0) :
    okSuccVal r0 := by
  cases o with
  | exn m => exact absurd h (by simp [a2aResultE])
  | resp s b t =>
    unfold a2aResultE at h
    dsimp only at h
    by_cases hs : s = 200
    · rw [if_pos hs] at h
      cases b with
      | none => exact absurd h (by simp)
      | some j =>
        dsimp only at h
        cases hq : hasResultKey j with
        | none => rw [hq] at h; exact absurd h (by simp)
        | some bb =>
          rw [hq] at h
          cases bb with
          | false =>
            injection h with h
            subst h
            exact ⟨⟨_, rfl⟩, Or.inl rfl⟩
          | true =>
            cases j with
            | obj ms2 =>
              injection h with h
              subst h
              exact ⟨⟨_, rfl⟩, Or.inr (Or.inl rfl)⟩
            | null => exact absurd h (by simp)
            | bool bb2 => exact absurd h (by simp)
            | num rr => exact absurd h (by simp)
            | str ss => exact absurd h (by simp)
            | arr ll => exact absurd h (by simp)
    · rw [if_neg hs] at h
      injection h with h
      subst h
      exact ⟨⟨_, rfl⟩, Or.inl rfl⟩

theorem legacyResultE_okSucc (o : PostOutcome) (r0 : Json) (h : legacyResultE o = .ok r0) :
    okSuccVal r0 := by
  cases o with
  | exn m => exact absurd h (by simp [legacyResultE])
  | resp s b t =>
    unfold legacyResultE at h
    dsimp only at h
    by_cases hs : s = 200
    · rw [if_pos hs] at h
      cases b with
      | none => exact absurd h (by simp)
      | some j =>
        injection h with h
        subst h
        exact ⟨⟨_, rfl⟩, Or.inr (Or.inl rfl)⟩
    · rw [if_neg hs] at h
      injection h with h
      subst h
      exact ⟨⟨_, rfl⟩, Or.inl rfl⟩

theorem call_agent_okSucc (env : SysEnv) (t d : Json) (p : List Json) :
    okSuccVal ((_call_agent env t d p).1) := by
  unfold _call_agent
  cases hl : regLookup env.registry t with
  | none => exact ⟨⟨_, rfl⟩, Or.inl rfl⟩
  | some info =>
    dsimp only
    by_cases hp : info.protocol = "a2a"
    · rw [if_pos hp]
      cases hre : (_call_a2a_agent env info.endpoint d (buildContext p)).1 with
      | ok r => exact a2aResultE_okSucc _ r hre
      | error mm => exact ⟨⟨_, rfl⟩, Or.inl rfl⟩
    · rw [if_neg hp]
      cases hre : (_call_legacy_agent env info.endpoint
          (buildTaskData d (buildContext p))).1 with
      | ok r => exact legacyResultE_okSucc _ r hre
      | error mm => exact ⟨⟨_, rfl⟩, Or.inl rfl⟩

theorem use_mcp_okSucc (env : SysEnv) (t d : Json) :
    okSuccVal ((_use_mcp_tool env t d).1) := by
  cases t with
  | str tn =>
    unfold _use_mcp_tool
    dsimp only
    by_cases hc : containsSub tn ":"
    · rw [if_pos hc]
      exact ⟨⟨_, rfl⟩, Or.inr (Or.inl rfl)⟩
    · rw [if_neg hc]
      exact ⟨⟨_, rfl⟩, Or.inr (Or.inl rfl)⟩
  | null => exact ⟨⟨_, rfl⟩, Or.inr (Or.inr rfl)⟩
  | bool b => exact ⟨⟨_, rfl⟩, Or.inr (Or.inr rfl)⟩
  | num r => exact ⟨⟨_, rfl⟩, Or.inr (Or.inr rfl)⟩
  | arr l => exact ⟨⟨_, rfl⟩, Or.inr (Or.inr rfl)⟩
  | obj ms => exact ⟨⟨_, rfl⟩, Or.inr (Or.inr rfl)⟩

theorem ofSys_tame (env : SysEnv) : (XEnv.ofSys env).tame := by
  refine ⟨?_, ?_, ?_⟩
  · intro t d p r cs heq
    have h2 : StepOut.ok (_call_agent env t d p).1 = .ok r := congrArg Prod.fst heq
    injection h2 with h2
    rw [← h2]
    exact call_agent_okSucc env t d p
  · intro t d r cs heq
    have h2 : StepOut.ok (_use_mcp_tool env t d).1 = .ok r := congrArg Prod.fst heq
    injection h2 with h2
    rw [← h2]
    exact use_mcp_okSucc env t d
  · intro t d p r cs heq
    have h2 : StepOut.ok (_coordinate_action t d p) = .ok r := congrArg Prod.fst heq
    injection h2 with h2
    rw [← h2]
    exact ⟨⟨_, rfl⟩, Or.inr (Or.inl rfl)⟩

theorem dispatchStep_tame (X : XEnv) (htame : X.tame) (a t d : Json) (prev : List Json) :
    ∀ r0, (dispatchStep X a t d prev).1 = .ok r0 → okSuccVal r0 := by
  intro r0 h
  cases a with
  | str s =>
    unfold dispatchStep at h
    dsimp only at h
    by_cases h1 : s = "agent_call"
    · rw [if_pos h1] at h
      rcases hc : X.callAgent t d prev with ⟨o2, c2⟩
      rw [hc] at h
      dsimp only at h
      exact htame.1 t d prev r0 c2 (by rw [hc, h])
    · rw [if_neg h1] at h
      by_cases h2 : s = "tool_use"
      · rw [if_pos h2] at h
        rcases hc : X.useTool t d with ⟨o2, c2⟩
        rw [hc] at h
        dsimp only at h
        exact htame.2.1 t d r0 c2 (by rw [hc, h])
      · rw [if_neg h2] at h
        by_cases h3 : s = "coordination"
        · rw [if_pos h3] at h
          rcases hc : X.coordinate t d prev with ⟨o2, c2⟩
          rw [hc] at h
          dsimp only at h
          exact htame.2.2 t d prev r0 c2 (by rw [hc, h])
        · rw [if_neg h3] at h
          dsimp only at h
          injection h with h
          rw [← h]
          exact ⟨⟨_, rfl⟩, Or.inl rfl⟩
  | null =>
    injection h with h
    rw [← h]
    exact ⟨⟨_, rfl⟩, Or.inl rfl⟩
  | bool b =>
    injection h with h
    rw [← h]
    exact ⟨⟨_, rfl⟩, Or.inl rfl⟩
  | num r =>
    injection h with h
    rw [← h]
    exact ⟨⟨_, rfl⟩, Or.inl rfl⟩
  | arr l =>
    injection h with h
    rw [← h]
    exact ⟨⟨_, rfl⟩, Or.inl rfl⟩
  | obj ms =>
    injection h with h
    rw [← h]
    exact ⟨⟨_, rfl⟩, Or.inl rfl⟩

theorem execStepsStream_recordsOk (X : XEnv) (htame : X.tame) (steps : List Json) :
    ∀ acc, (∀ r ∈ acc.records, okSuccVal (jgetD r "result" (.obj []))) →
      ∀ r ∈ (execStepsStream X acc steps).1.records,
        okSuccVal (jgetD r "result" (.obj [])) := by
  induction steps with
  | nil => intro acc hacc r hr; exact hacc r hr
  | cons s rest ih =>
    intro acc hacc r hr
    cases s with
    | obj ms =>
      revert hr
      show r ∈ (match execStepStream X acc (.obj ms) with
        | .ok a => execStepsStream X a rest
        | .error m => (acc, some m)).1.records → _
      unfold execStepStream
      dsimp only
      rcases hd : dispatchStep X (actionOf (.obj ms)) (targetOf (.obj ms))
          (taskOf (.obj ms)) acc.records with ⟨out, cs, invs⟩
      cases out with
      | ok r0 =>
        intro hr
        refine ih _ ?_ r hr
        intro r2 hr2
        rcases List.mem_append.mp hr2 with h2 | h2
        · exact hacc r2 h2
        · rw [List.mem_singleton] at h2
          subst h2
          have : jgetD (mkStreamRec (stepNumOf (.obj ms)) (actionOf (.obj ms))
              (targetOf (.obj ms)) r0) "result" (.obj []) = r0 := rfl
          rw [this]
          exact dispatchStep_tame X htame _ _ _ _ r0 (by rw [hd])
      | exn m =>
        intro hr
        refine ih _ ?_ r hr
        intro r2 hr2
        rcases List.mem_append.mp hr2 with h2 | h2
        · exact hacc r2 h2
        · rw [List.mem_singleton] at h2
          subst h2
          exact ⟨⟨_, rfl⟩, Or.inl rfl⟩
    | null =>
      revert hr
      show r ∈ (match execStepStream X acc Json.null with
        | .ok a => execStepsStream X a rest
        | .error m => (acc, some m)).1.records → _
      intro hr
      exact hacc r hr
    | bool b =>
      revert hr
      show r ∈ (match execStepStream X acc (Json.bool b) with
        | .ok a => execStepsStream X a rest
        | .error m => (acc, some m)).1.records → _
      intro hr
      exact hacc r hr
    | num rr =>
      revert hr
      show r ∈ (match execStepStream X acc (Json.num rr) with
        | .ok a => execStepsStream X a rest
        | .error m => (acc, some m)).1.records → _
      intro hr
      exact hacc r hr
    | str ss =>
      revert hr
      show r ∈ (match execStepStream X acc (Json.str ss) with
        | .ok a => execStepsStream X a rest
        | .error m => (acc, some m)).1.records → _
      intro hr
      exact hacc r hr
    | arr ll =>
      revert hr
      show r ∈ (match execStepStream X acc (Json.arr ll) with
        | .ok a => execStepsStream X a rest
        | .error m => (acc, some m)).1.records → _
      intro hr
      exact hacc r hr

theorem countSucc_add_countFail (rs : List Json) :
    countSucc rs + countFail rs = rs.length := by
  induction rs with
  | nil => rfl
  | cons r t ih =>
    simp only [countSucc, countFail, List.filter_cons] at ih ⊢
    cases hsp : succPred r <;> simp [hsp] <;> omega

theorem allResultsDict_of_ok (rs : List Json)
    (h : ∀ r ∈ rs, okSuccVal (jgetD r "result" (.obj []))) :
    allResultsDict rs = true := by
  unfold allResultsDict
  rw [List.all_eq_true]
  intro r hr
  rcases (h r hr).1 with ⟨ms, hms⟩
  simp [hms]

theorem succPred_iff_of_ok (r : Json) (h : okSuccVal (jgetD r "result" (.obj []))) :
    (succPred r = true ↔ jget (jgetD r "result" (.obj [])) "success" ≠ some (.bool false)) := by
  rcases h with ⟨-, h0 | h0 | h0⟩ <;>
    (simp only [succPred, jgetD] at h0 ⊢; rw [h0]; simp [jtruthy])

theorem getLast_append_singleton {α : Type} (l : List α) (a : α) :
    (l ++ [a]).getLast? = some a := by
  rw [List.getLast?_concat]

/-- C10: on the streaming path the terminal execution_completed event's
totals satisfy successful + failed = number of executed steps; a step is
counted successful exactly when its recorded result dict does not map
success to false; and a step whose execution raised is recorded with an
error result carrying no success key, hence counted successful. -/
theorem c10_execution_completed_totals (X : XEnv) (decision : Json) (steps : List Json)
    (hplan : jgetD decision "execution_plan" (.arr []) = .arr steps)
    (hobj : ∀ s ∈ steps, ∃ ms, s = Json.obj ms) (htame : X.tame) :
    (execPlanStream X decision).2 = none
  ∧ (execPlanStream X decision).1.records.length = steps.length
  ∧ (execPlanStream X decision).1.events.getLast? = some (.execution_completed steps.length
      (countSucc (execPlanStream X decision).1.records)
      (countFail (execPlanStream X decision).1.records)
      (execPlanStream X decision).1.records)
  ∧ countSucc (execPlanStream X decision).1.records
      + countFail (execPlanStream X decision).1.records
      = (execPlanStream X decision).1.records.length
  ∧ (∀ r ∈ (execPlanStream X decision).1.records,
      (succPred r = true ↔ jget (jgetD r "result" (.obj [])) "success" ≠ some (.bool false)))
  ∧ (∀ n a t m, succPred (mkStreamRec n a t (errResult m n)) = true
      ∧ jget (errResult m n) "success" = none) := by
  rcases hrun : execStepsStream X { emptyAcc with events :=
      [.execution_started (jgetD decision "execution_strategy" (.str "unknown"))
        steps.length] } steps with ⟨accR, ab⟩
  have hno := execStepsStream_noabort X steps { emptyAcc with events :=
      [.execution_started (jgetD decision "execution_strategy" (.str "unknown"))
        steps.length] } hobj
  rw [hrun] at hno
  have hab : ab = none := hno.1
  subst hab
  have hok : ∀ r ∈ accR.records, okSuccVal (jgetD r "result" (.obj [])) := by
    have := execStepsStream_recordsOk X htame steps { emptyAcc with events :=
      [.execution_started (jgetD decision "execution_strategy" (.str "unknown"))
        steps.length] } (by intro r hr; exact absurd hr (List.not_mem_nil r))
    rw [hrun] at this
    exact this
  have hall : allResultsDict accR.records = true := allResultsDict_of_ok _ hok
  have heq : execPlanStream X decision = ({ accR with events := accR.events ++
      [.execution_completed steps.length (countSucc accR.records) (countFail accR.records)
        accR.records] }, none) := by
    unfold execPlanStream
    rw [hplan]
    simp only [planItemsE]
    rw [hrun]
    dsimp only
    rw [if_pos hall]
  rw [heq]
  refine ⟨rfl, ?_, ?_, ?_, ?_, ?_⟩
  · have := hno.2
    simpa [emptyAcc] using this
  · exact getLast_append_singleton _ _
  · exact countSucc_add_countFail _
  · intro r hr
    exact succPred_iff_of_ok r (hok r hr)
  · intro n a t m
    exact ⟨rfl, rfl⟩

/-- Witness for C10 at the concrete two-step plan and handlers. -/
theorem c10_execution_completed_totals_witness :
    (execPlanStream (XEnv.ofSys fixEnv) fixDecision).2 = none
  ∧ (execPlanStream (XEnv.ofSys fixEnv) fixDecision).1.records.length = 2
  ∧ countSucc (execPlanStream (XEnv.ofSys fixEnv) fixDecision).1.records
      + countFail (execPlanStream (XEnv.ofSys fixEnv) fixDecision).1.records = 2 := by
  have h := c10_execution_completed_totals (XEnv.ofSys fixEnv) fixDecision
    [Json.obj [("step", .num "1"), ("action", .str "agent_call"),
      ("target", .str "alpha"), ("task", .str "g")],
     Json.obj [("step", .num "2"), ("action", .str "tool_use"),
      ("target", .str "fs:read_file"), ("task", .str "r")]]
    rfl
    (by
      intro s hs
      simp only [List.mem_cons, List.not_mem_nil, or_false] at hs
      rcases hs with h | h <;> exact ⟨_, h⟩)
    (ofSys_tame fixEnv)
  refine ⟨h.1, h.2.1, ?_⟩
  rw [h.2.2.2.1, h.2.1]
  rfl

theorem jgetD_mkStreamRec (n a t r : Json) :
    jgetD (mkStreamRec n a t r) "result" (.obj []) = r := rfl

theorem jgetD_mkTaskStep (n a t r : Json) :
    jgetD (mkTaskStep n a t r) "result" (.obj []) = r := rfl

theorem jgetD_mkAnalysisStep (d : Json) :
    jgetD (mkAnalysisStep d) "result" (.obj []) = .obj [] := rfl

theorem execStepStream_ofSys_agent (env : SysEnv) (acc : Acc) (ms : List (String × Json))
    (ha : actionOf (.obj ms) = .str "agent_call") :
    execStepStream (XEnv.ofSys env) acc (.obj ms) = .ok (agentStepAcc env acc ms) := by
  unfold execStepStream
  dsimp only
  rw [ha]
  rfl

theorem execStepStream_ofSys_tool (env : SysEnv) (acc : Acc) (ms : List (String × Json))
    (ha : actionOf (.obj ms) = .str "tool_use") :
    execStepStream (XEnv.ofSys env) acc (.obj ms) = .ok (toolStepAcc env acc ms) := by
  unfold execStepStream
  dsimp only
  rw [ha]
  rfl

theorem execPlanStream_eq_of_run (X : XEnv) (d : Json) (steps : List Json) (accF : Acc)
    (hplan : jgetD d "execution_plan" (.arr []) = .arr steps)
    (hrun : execStepsStream X { emptyAcc with events :=
        [.execution_started (jgetD d "execution_strategy" (.str "unknown")) steps.length] }
        steps = (accF, none))
    (hall : allResultsDict accF.records = true) :
    execPlanStream X d = ({ accF with events := accF.events ++
      [.execution_completed steps.length (countSucc accF.records) (countFail accF.records)
        accF.records] }, none) := by
  unfold execPlanStream
  rw [hplan]
  simp only [planItemsE]
  rw [hrun]
  dsimp only
  rw [if_pos hall]

/-- C3: a streaming submission whose LLM reply parses into a valid
two-step plan (step 1 agent_call, step 2 tool_use) emits exactly
task_started, llm_analysis_started, one llm_analysis_progress per chunk,
llm_analysis_completed, llm_decision_made, execution_started,
step_started(1), agent_call_started, agent_call_completed,
step_started(2), mcp_tool_used, step_completed(2), execution_completed,
task_completed, in that order (no step_completed is emitted for the
agent_call step). -/
theorem c3_stream_event_order (env : SysEnv) (taskId desc : String) (chunks : List String)
    (d sv : Json) (ms1 ms2 : List (String × Json))
    (hd : streamDecisionE (String.join chunks).data = .ok d)
    (hstrat : jget d "execution_strategy" = some sv)
    (hplan : jgetD d "execution_plan" (.arr []) = .arr [.obj ms1, .obj ms2])
    (ha1 : actionOf (.obj ms1) = .str "agent_call")
    (ha2 : actionOf (.obj ms2) = .str "tool_use") :
    (task_stream env taskId desc chunks).map evTag =
      [.task_started, .llm_analysis_started] ++
      chunks.map (fun _ => ETag.llm_analysis_progress) ++
      [.llm_analysis_completed, .llm_decision_made, .execution_started,
       .step_started (stepNumOf (.obj ms1)), .agent_call_started, .agent_call_completed,
       .step_started (stepNumOf (.obj ms2)), .mcp_tool_used,
       .step_completed (stepNumOf (.obj ms2)), .execution_completed, .task_completed] := by
  rcases (call_agent_okSucc env (targetOf (.obj ms1)) (taskOf (.obj ms1)) []).1
    with ⟨o1, ho1⟩
  rcases (use_mcp_okSucc env (targetOf (.obj ms2)) (taskOf (.obj ms2))).1 with ⟨o2, ho2⟩
  have hrun : execStepsStream (XEnv.ofSys env) (streamAcc0 d 2) [.obj ms1, .obj ms2]
      = (toolStepAcc env (agentStepAcc env (streamAcc0 d 2) ms1) ms2, none) := by
    rw [execStepsStream_cons_ok _ _ _ _ (execStepStream_ofSys_agent env (streamAcc0 d 2)
      ms1 ha1)]
    rw [execStepsStream_cons_ok _ _ _ _ (execStepStream_ofSys_tool env _ ms2 ha2)]
    rfl
  have hall : allResultsDict
      (toolStepAcc env (agentStepAcc env (streamAcc0 d 2) ms1) ms2).records = true := by
    simp [allResultsDict, toolStepAcc, agentStepAcc, streamAcc0, emptyAcc,
      jgetD_mkStreamRec, ho1, ho2]
  have hpe := execPlanStream_eq_of_run (XEnv.ofSys env) d [.obj ms1, .obj ms2]
    (toolStepAcc env (agentStepAcc env (streamAcc0 d 2) ms1) ms2) hplan hrun hall
  have hproc : process_task_with_llm_stream env taskId desc chunks =
      ⟨([Ev.llm_analysis_started taskId] ++ chunks.map Ev.llm_analysis_progress ++
        [Ev.llm_analysis_completed (String.join chunks)]) ++ [.llm_decision_made d] ++
        (execPlanStream (XEnv.ofSys env) d).1.events,
       mkAnalysisStep d :: (execPlanStream (XEnv.ofSys env) d).1.taskSteps,
       (execPlanStream (XEnv.ofSys env) d).1.calls⟩ := by
    unfold process_task_with_llm_stream
    dsimp only
    rw [hd]
    dsimp only
    rw [hstrat]
    dsimp only
    rw [hpe]
  have hcnt : ((mkAnalysisStep d ::
      (execPlanStream (XEnv.ofSys env) d).1.taskSteps).all taskStepCountable) = true := by
    rw [hpe]
    simp [taskStepCountable, toolStepAcc, agentStepAcc, streamAcc0, emptyAcc,
      jgetD_mkTaskStep, jgetD_mkAnalysisStep, ho1, ho2]
  have hmm : (chunks.map Ev.llm_analysis_progress).map evTag
      = chunks.map (fun _ => ETag.llm_analysis_progress) := by
    rw [List.map_map]
    rfl
  unfold task_stream
  dsimp only
  rw [hproc]
  dsimp only
  unfold taskStepsCountsE
  rw [if_pos hcnt]
  dsimp only
  rw [hpe]
  simp [toolStepAcc, agentStepAcc, streamAcc0, emptyAcc, evTag, hmm]

set_option maxRecDepth 8000 in
/-- Witness for C3 at the concrete fixture environment and chunked
two-step decision. -/
theorem c3_stream_event_order_witness :
    (task_stream fixEnv "t1" "go" fixChunks).map evTag =
      [.task_started, .llm_analysis_started] ++
      fixChunks.map (fun _ => ETag.llm_analysis_progress) ++
      [.llm_analysis_completed, .llm_decision_made, .execution_started,
       .step_started (.num "1"), .agent_call_started, .agent_call_completed,
       .step_started (.num "2"), .mcp_tool_used, .step_completed (.num "2"),
       .execution_completed, .task_completed] := by
  exact c3_stream_event_order fixEnv "t1" "go" fixChunks fixDecision (.str "hybrid")
    [("step", .num "1"), ("action", .str "agent_call"), ("target", .str "alpha"),
      ("task", .str "g")]
    [("step", .num "2"), ("action", .str "tool_use"), ("target", .str "fs:read_file"),
      ("task", .str "r")]
    (by rfl) (by rfl) (by rfl) (by rfl) (by rfl)

theorem dropWhile_append_of {p : Char → Bool} (w d : List Char)
    (hw : ∀ x ∈ w, p x = true) (hd : ∀ ch, d.head? = some ch → p ch = false) :
    (w ++ d).dropWhile p = d := by
  induction w with
  | nil =>
    cases d with
    | nil => rfl
    | cons a t =>
      simp only [List.nil_append, List.dropWhile_cons, hd a rfl]
      rfl
  | cons a w2 ih =>
    simp only [List.cons_append, List.dropWhile_cons, hw a (List.mem_cons_self a w2)]
    exact ih (fun x hx => hw x (List.mem_cons_of_mem a hx))

theorem takeWhile_append_of {p : Char → Bool} (w d : List Char)
    (hw : ∀ x ∈ w, p x = true) (hd : ∀ ch, d.head? = some ch → p ch = false) :
    (w ++ d).takeWhile p = w := by
  induction w with
  | nil =>
    cases d with
    | nil => rfl
    | cons a t =>
      simp only [List.nil_append, List.takeWhile_cons, hd a rfl]
      rfl
  | cons a w2 ih =>
    simp only [List.cons_append, List.takeWhile_cons, hw a (List.mem_cons_self a w2)]
    exact congrArg (a :: ·) (ih (fun x hx => hw x (List.mem_cons_of_mem a hx)))

theorem dropWhile_head_false {p : Char → Bool} (l : List Char) (ch : Char)
    (h : (l.dropWhile p).head? = some ch) : p ch = false := by
  induction l with
  | nil => exact absurd h (by simp)
  | cons a t ih =>
    rw [List.dropWhile_cons] at h
    by_cases hp : p a = true
    · rw [if_pos hp] at h
      exact ih h
    · rw [if_neg hp] at h
      injection h with h
      subst h
      exact Bool.eq_false_iff.mpr hp

theorem isWs_isWs6 (x : Char) (h : isWs x = true) : isWs6 x = true := by
  simp only [isWs, Bool.or_eq_true, decide_eq_true_eq] at h
  simp only [isWs6, Bool.or_eq_true, decide_eq_true_eq]
  exact Or.inl (Or.inl h)

theorem isWs_not_numChar (x : Char) (h : isWs x = true) : numChar x = false := by
  simp only [isWs, Bool.or_eq_true, decide_eq_true_eq] at h
  rcases h with ((h | h) | h) | h <;> subst h <;> decide

theorem numChar_not_isWs6 (x : Char) (h : numChar x = true) : isWs6 x = false := by
  by_contra hc
  rw [Bool.not_eq_false] at hc
  simp only [isWs6, Bool.or_eq_true, decide_eq_true_eq] at hc
  rcases hc with ((((h2 | h2) | h2) | h2) | h2) | h2 <;> subst h2 <;>
    exact absurd h (by decide)

theorem isWs_ne_btk (x : Char) (h : isWs x = true) : x ≠ btk := by
  simp only [isWs, Bool.or_eq_true, decide_eq_true_eq] at h
  rcases h with ((h | h) | h) | h <;> subst h <;> decide

theorem isWs6_ne_btk (x : Char) (h : isWs6 x = true) : x ≠ btk := by
  simp only [isWs6, Bool.or_eq_true, decide_eq_true_eq] at h
  rcases h with ((((h | h) | h) | h) | h) | h <;> subst h <;> decide

theorem noNBb_tail (c : Char) (t : List Char) (h : noNBb (c :: t) = true) :
    noNBb t = true := by
  cases t with
  | nil => rfl
  | cons c2 t2 =>
    rw [show noNBb (c :: c2 :: t2) = (!(c = '\n' && c2 = btk) && noNBb (c2 :: t2))
      from rfl, Bool.and_eq_true] at h
    exact h.2

theorem noNBb_of_all_ne_btk (l : List Char) (h : ∀ x ∈ l, x ≠ btk) :
    noNBb l = true := by
  induction l with
  | nil => rfl
  | cons a t ih =>
    cases t with
    | nil => rfl
    | cons b t2 =>
      rw [show noNBb (a :: b :: t2) = (!(a = '\n' && b = btk) && noNBb (b :: t2))
        from rfl, Bool.and_eq_true]
      constructor
      · have := h b (List.mem_cons_of_mem a (List.mem_cons_self b t2))
        simp [this]
      · exact ih (fun x hx => h x (List.mem_cons_of_mem a hx))

theorem noNBb_of_no_nl (l : List Char) (h : ∀ x ∈ l, x ≠ '\n') :
    noNBb l = true := by
  induction l with
  | nil => rfl
  | cons a t ih =>
    cases t with
    | nil => rfl
    | cons b t2 =>
      rw [show noNBb (a :: b :: t2) = (!(a = '\n' && b = btk) && noNBb (b :: t2))
        from rfl, Bool.and_eq_true]
      constructor
      · have := h a (List.mem_cons_self a (b :: t2))
        simp [this]
      · exact ih (fun x hx => h x (List.mem_cons_of_mem a hx))

theorem noNBb_append (a b : List Char) (ha : noNBb a = true) (hb : noNBb b = true)
    (hab : ¬(a.getLast? = some '\n' ∧ b.head? = some btk)) :
    noNBb (a ++ b) = true := by
  induction a with
  | nil => simpa using hb
  | cons x a2 ih =>
    cases a2 with
    | nil =>
      cases b with
      | nil => simpa using ha
      | cons y t =>
        have key : noNBb ([x] ++ y :: t) = (!(x = '\n' && y = btk) && noNBb (y :: t)) :=
          rfl
        rw [key, Bool.and_eq_true]
        refine ⟨?_, hb⟩
        by_cases hx : x = '\n'
        · by_cases hy : y = btk
          · exact absurd ⟨by simp [hx], by simp [hy]⟩ hab
          · simp [hy]
        · simp [hx]
    | cons z a3 =>
      have ha1 : (!(x = '\n' && z = btk) && noNBb (z :: a3)) = true := ha
      rw [Bool.and_eq_true] at ha1
      have key : noNBb ((x :: z :: a3) ++ b) =
          (!(x = '\n' && z = btk) && noNBb ((z :: a3) ++ b)) := rfl
      rw [key, Bool.and_eq_true]
      refine ⟨ha1.1, ih ha1.2 ?_⟩
      rw [List.getLast?_cons_cons] at hab
      exact hab

theorem gl_cons {α : Type} (a : α) (l : List α) (q : α) (hl : l.getLast? = some q) :
    (a :: l).getLast? = some q := by
  cases l with
  | nil => exact absurd hl (by simp)
  | cons b t => rw [List.getLast?_cons_cons]; exact hl

theorem gl_append {α : Type} (a b : List α) (hb : b ≠ []) :
    (a ++ b).getLast? = b.getLast? := by
  induction a with
  | nil => rfl
  | cons x a2 ih =>
    rw [List.cons_append]
    cases hx : a2 ++ b with
    | nil =>
      rcases List.append_eq_nil.mp hx with ⟨-, h2⟩
      exact absurd h2 hb
    | cons c cs =>
      rw [List.getLast?_cons_cons, ← hx]
      exact ih

theorem head_ws_cons (w : List Char) (c : Char) (z : List Char)
    (hw : ∀ x ∈ w, isWs x = true) :
    ∀ y, (w ++ c :: z).head? = some y → (isWs y = true ∨ y = c) := by
  cases w with
  | nil =>
    intro y hy
    rw [List.nil_append, List.head?_cons] at hy
    injection hy with hy
    exact Or.inr hy.symm
  | cons a w2 =>
    intro y hy
    rw [List.cons_append, List.head?_cons] at hy
    injection hy with hy
    subst hy
    exact Or.inl (hw _ (List.mem_cons_self _ _))

theorem escChar_ne_nl (e : Char) (h : escChar e = true) : e ≠ '\n' := by
  simp only [escChar, Bool.or_eq_true, decide_eq_true_eq] at h
  rcases h with ((((((h | h) | h) | h) | h) | h) | h) | h <;> subst h <;> decide

theorem hexDigit_ne_nl (q : Char) (h : hexDigit q = true) : q ≠ '\n' := by
  intro he
  subst he
  exact absurd h (by decide)

theorem sc_split (p : List Char) : ∀ c r, stripChars p c = some r →
    c = p ++ r ∧ ∀ r2, stripChars p (p ++ r2) = some r2 := by
  induction p with
  | nil =>
    intro c r h
    have h2 : some c = some r := h
    injection h2 with h2
    subst h2
    exact ⟨rfl, fun r2 => rfl⟩
  | cons x p2 ih =>
    intro c r h
    cases c with
    | nil => exact absurd h (by simp [stripChars])
    | cons a c2 =>
      unfold stripChars at h
      by_cases hax : a = x
      · rw [if_pos hax] at h
        obtain ⟨he, hrep⟩ := ih c2 r h
        subst hax
        refine ⟨by rw [List.cons_append, he], ?_⟩
        intro r2
        show stripChars (a :: p2) (a :: (p2 ++ r2)) = some r2
        unfold stripChars
        rw [if_pos rfl]
        exact hrep r2
      · rw [if_neg hax] at h
        exact absurd h (by simp)

theorem psb_cons (fuel : Nat) (ch : Char) (rest : List Char) :
    parseStringBody (fuel+1) (ch :: rest) =
      (if ch = '"' then some ([], rest)
       else if ch = '\\' then
         match rest with
         | [] => none
         | e :: rest2 =>
           if escChar e then
             match parseStringBody fuel rest2 with
             | some (content, r) => some ('\\' :: e :: content, r)
             | none => none
           else if e = 'u' then
             match rest2 with
             | h1 :: h2 :: h3 :: h4 :: rest3 =>
               if hexDigit h1 && hexDigit h2 && hexDigit h3 && hexDigit h4 then
                 match parseStringBody fuel rest3 with
                 | some (content, r) =>
                   some ('\\' :: 'u' :: h1 :: h2 :: h3 :: h4 :: content, r)
                 | none => none
               else none
             | _ => none
           else none
       else if ch.toNat < 0x20 then none
       else
         match parseStringBody fuel rest with
         | some (content, r) => some (ch :: content, r)
         | none => none) := rfl

theorem psb_split : ∀ fuel c content r, parseStringBody fuel c = some (content, r) →
    ∃ u, c = u ++ r ∧ (∀ x ∈ u, x ≠ '\n') ∧ u.getLast? = some '"' ∧
      ∀ r2 f2, u.length ≤ f2 → parseStringBody f2 (u ++ r2) = some (content, r2) := by
  intro fuel
  induction fuel with
  | zero => intro c content r h; exact Option.noConfusion h
  | succ n ih =>
    intro c content r h
    cases c with
    | nil => exact Option.noConfusion h
    | cons ch rest =>
      rw [psb_cons] at h
      by_cases h1 : ch = '"'
      · rw [if_pos h1] at h
        injection h with h
        rw [Prod.mk.injEq] at h
        obtain ⟨hco, hr⟩ := h
        subst h1
        subst hr
        refine ⟨['"'], rfl, by intro x hx; simp at hx; subst hx; decide, by simp, ?_⟩
        intro r2 f2 hf2
        cases f2 with
        | zero => exact absurd hf2 (by simp)
        | succ g =>
          show parseStringBody (g+1) ('"' :: r2) = some (content, r2)
          rw [psb_cons, if_pos rfl, ← hco]
      · rw [if_neg h1] at h
        by_cases h2 : ch = '\\'
        · rw [if_pos h2] at h
          cases rest with
          | nil => exact Option.noConfusion h
          | cons e rest2 =>
            dsimp only at h
            by_cases h3 : escChar e = true
            · rw [if_pos h3] at h
              cases hpsb : parseStringBody n rest2 with
              | none => rw [hpsb] at h; exact absurd h (by simp)
              | some pr =>
                rw [hpsb] at h
                rcases pr with ⟨content2, r3⟩
                injection h with h
                rw [Prod.mk.injEq] at h
                obtain ⟨hco, hr⟩ := h
                subst hr
                obtain ⟨u2, he2, hnl2, hlast2, hrep2⟩ := ih rest2 content2 r3 hpsb
                refine ⟨'\\' :: e :: u2, ?_, ?_, ?_, ?_⟩
                · rw [h2, he2]; rfl
                · intro x hx
                  rcases List.mem_cons.mp hx with hx | hx
                  · subst hx; decide
                  rcases List.mem_cons.mp hx with hx | hx
                  · subst hx; exact escChar_ne_nl _ h3
                  · exact hnl2 x hx
                · exact gl_cons _ _ _ (gl_cons _ _ _ hlast2)
                · intro r2 f2 hf2
                  cases f2 with
                  | zero => exact absurd hf2 (by simp)
                  | succ g =>
                    show parseStringBody (g+1) ('\\' :: (e :: (u2 ++ r2)))
                      = some (content, r2)
                    rw [psb_cons, if_neg (by decide), if_pos rfl]
                    dsimp only
                    rw [if_pos h3, hrep2 r2 g (by
                      simp only [List.length_cons] at hf2 ⊢
                      omega), ← hco]
            · rw [if_neg h3] at h
              by_cases h4 : e = 'u'
              · rw [if_pos h4] at h
                cases rest2 with
                | nil => exact Option.noConfusion h
                | cons q1 rb1 =>
                cases rb1 with
                | nil => exact Option.noConfusion h
                | cons q2 rb2 =>
                cases rb2 with
                | nil => exact Option.noConfusion h
                | cons q3 rb3 =>
                cases rb3 with
                | nil => exact Option.noConfusion h
                | cons q4 rest3 =>
                dsimp only at h
                by_cases h5 : (hexDigit q1 && hexDigit q2 && hexDigit q3 && hexDigit q4)
                  = true
                · rw [if_pos h5] at h
                  cases hpsb : parseStringBody n rest3 with
                  | none => rw [hpsb] at h; exact absurd h (by simp)
                  | some pr =>
                    rw [hpsb] at h
                    rcases pr with ⟨content2, r3⟩
                    injection h with h
                    rw [Prod.mk.injEq] at h
                    obtain ⟨hco, hr⟩ := h
                    subst hr
                    obtain ⟨u2, he2, hnl2, hlast2, hrep2⟩ := ih rest3 content2 r3 hpsb
                    rw [Bool.and_eq_true, Bool.and_eq_true, Bool.and_eq_true] at h5
                    refine ⟨'\\' :: 'u' :: q1 :: q2 :: q3 :: q4 :: u2, ?_, ?_, ?_, ?_⟩
                    · rw [h2, h4, he2]; rfl
                    · intro x hx
                      rcases List.mem_cons.mp hx with hx | hx
                      · subst hx; decide
                      rcases List.mem_cons.mp hx with hx | hx
                      · subst hx; decide
                      rcases List.mem_cons.mp hx with hx | hx
                      · subst hx; exact hexDigit_ne_nl _ h5.1.1.1
                      rcases List.mem_cons.mp hx with hx | hx
                      · subst hx; exact hexDigit_ne_nl _ h5.1.1.2
                      rcases List.mem_cons.mp hx with hx | hx
                      · subst hx; exact hexDigit_ne_nl _ h5.1.2
                      rcases List.mem_cons.mp hx with hx | hx
                      · subst hx; exact hexDigit_ne_nl _ h5.2
                      · exact hnl2 x hx
                    · exact gl_cons _ _ _ (gl_cons _ _ _ (gl_cons _ _ _ (gl_cons _ _ _
                        (gl_cons _ _ _ (gl_cons _ _ _ hlast2)))))
                    · intro r2 f2 hf2
                      cases f2 with
                      | zero => exact absurd hf2 (by simp)
                      | succ g =>
                        show parseStringBody (g+1)
                          ('\\' :: ('u' :: (q1 :: q2 :: q3 :: q4 :: (u2 ++ r2))))
                          = some (content, r2)
                        rw [psb_cons, if_neg (by decide), if_pos rfl]
                        dsimp only
                        rw [if_neg (by decide), if_pos rfl]
                        rw [if_pos (by rw [Bool.and_eq_true, Bool.and_eq_true,
                          Bool.and_eq_true]; exact h5), hrep2 r2 g (by
                            simp only [List.length_cons] at hf2 ⊢
                            omega), ← hco]
                · rw [if_neg h5] at h
                  exact Option.noConfusion h
              · rw [if_neg h4] at h
                exact Option.noConfusion h
        · rw [if_neg h2] at h
          by_cases h3 : ch.toNat < 0x20
          · rw [if_pos h3] at h
            exact Option.noConfusion h
          · rw [if_neg h3] at h
            cases hpsb : parseStringBody n rest with
            | none => rw [hpsb] at h; exact absurd h (by simp)
            | some pr =>
              rw [hpsb] at h
              rcases pr with ⟨content2, r3⟩
              injection h with h
              rw [Prod.mk.injEq] at h
              obtain ⟨hco, hr⟩ := h
              subst hr
              obtain ⟨u2, he2, hnl2, hlast2, hrep2⟩ := ih rest content2 r3 hpsb
              refine ⟨ch :: u2, by rw [he2]; rfl, ?_, gl_cons _ _ _ hlast2, ?_⟩
              · intro x hx
                rcases List.mem_cons.mp hx with hx | hx
                · subst hx
                  intro hne
                  subst hne
                  exact h3 (by decide)
                · exact hnl2 x hx
              · intro r2 f2 hf2
                cases f2 with
                | zero => exact absurd hf2 (by simp)
                | succ g =>
                  show parseStringBody (g+1) (ch :: (u2 ++ r2)) = some (content, r2)
                  rw [psb_cons, if_neg h1, if_neg h2, if_neg h3, hrep2 r2 g (by
                    simp only [List.length_cons] at hf2 ⊢
                    omega), ← hco]

theorem pn_split (c : List Char) (v : Json) (r : List Char)
    (h : parseNumber c = some (v, r)) :
    ∃ ch u, c = (ch :: u) ++ r ∧ (∀ x ∈ ch :: u, numChar x = true) ∧ headNN r ∧
      ∀ r2, headNN r2 → parseNumber ((ch :: u) ++ r2) = some (v, r2) := by
  unfold parseNumber at h
  dsimp only at h
  split at h
  case isFalse => exact Option.noConfusion h
  case isTrue hg =>
    rw [Bool.and_eq_true, decide_eq_true_eq] at hg
    injection h with h
    rw [Prod.mk.injEq] at h
    obtain ⟨hv, hr⟩ := h
    cases htok : c.takeWhile numChar with
    | nil => exact absurd htok hg.1
    | cons ch u =>
      have hmem : ∀ x ∈ ch :: u, numChar x = true := fun x hx =>
        List.mem_takeWhile_imp (htok ▸ hx)
      refine ⟨ch, u, ?_, hmem, ?_, ?_⟩
      · rw [← htok, ← hr]
        exact (List.takeWhile_append_dropWhile numChar c).symm
      · intro y hy
        exact dropWhile_head_false c y (hr ▸ hy)
      · intro r2 h2
        have hd2 : ∀ y, r2.head? = some y → numChar y = false := h2
        have hcond : (decide ((ch :: u) ≠ []) && validNumTok (ch :: u)) = true := by
          rw [Bool.and_eq_true, decide_eq_true_eq]
          exact ⟨List.cons_ne_nil ch u, htok ▸ hg.2⟩
        unfold parseNumber
        dsimp only
        rw [takeWhile_append_of _ _ hmem hd2, dropWhile_append_of _ _ hmem hd2,
          if_pos hcond, ← hv, htok]

theorem pv_succ (f : Nat) (cs : List Char) :
    parseValue (f+1) cs =
      (match cs with
       | '{' :: t =>
         match (t.dropWhile isWs) with
         | '}' :: r => some (.obj [], r)
         | t1 =>
           match parseMembersReq f t1 with
           | some (ms, r) => some (.obj ms, r)
           | none => none
       | '[' :: t =>
         match (t.dropWhile isWs) with
         | ']' :: r => some (.arr [], r)
         | t1 =>
           match parseElemsReq f t1 with
           | some (vs, r) => some (.arr vs, r)
           | none => none
       | '"' :: t =>
         match parseStringBody t.length t with
         | some (content, r) => some (.str ⟨content⟩, r)
         | none => none
       | 't' :: t =>
         match stripChars ['r', 'u', 'e'] t with
         | some r => some (.bool true, r)
         | none => none
       | 'f' :: t =>
         match stripChars ['a', 'l', 's', 'e'] t with
         | some r => some (.bool false, r)
         | none => none
       | 'n' :: t =>
         match stripChars ['u', 'l', 'l'] t with
         | some r => some (.null, r)
         | none => none
       | c :: _ => if c.isDigit || c = '-' then parseNumber cs else none
       | [] => none) := rfl

theorem pm_succ (f : Nat) (cs : List Char) :
    parseMembersReq (f+1) cs =
      (match cs with
       | '"' :: t =>
         match parseStringBody t.length t with
         | some (key, r1) =>
           match (r1.dropWhile isWs) with
           | ':' :: r2 =>
             match parseValue f (r2.dropWhile isWs) with
             | some (v, r3) =>
               match (r3.dropWhile isWs) with
               | ',' :: r4 =>
                 match parseMembersReq f (r4.dropWhile isWs) with
                 | some (ms, r5) => some ((⟨key⟩, v) :: ms, r5)
                 | none => none
               | '}' :: r4 => some ([(⟨key⟩, v)], r4)
               | _ => none
             | none => none
           | _ => none
         | none => none
       | _ => none) := rfl

theorem pe_succ (f : Nat) (cs : List Char) :
    parseElemsReq (f+1) cs =
      (match parseValue f cs with
       | some (v, r1) =>
         match (r1.dropWhile isWs) with
         | ',' :: r2 =>
           match parseElemsReq f (r2.dropWhile isWs) with
           | some (vs, r3) => some (v :: vs, r3)
           | none => none
         | ']' :: r2 => some ([v], r2)
         | _ => none
       | none => none) := rfl



theorem isWs_of_not6 (ch : Char) (h : isWs6 ch = false) : isWs ch = false := by
  cases hW : isWs ch with
  | false => rfl
  | true =>
    have h6 := isWs_isWs6 ch hW
    rw [h] at h6
    exact Bool.noConfusion h6

theorem dw_shape (l d : List Char) (heq : l.dropWhile isWs = d) :
    l = l.takeWhile isWs ++ d := by
  rw [← heq, List.takeWhile_append_dropWhile]

theorem dw_replay (w : List Char) (c : Char) (z : List Char)
    (hw : ∀ x ∈ w, isWs x = true) (hc : isWs c = false) :
    (w ++ c :: z).dropWhile isWs = c :: z := by
  refine dropWhile_append_of w (c :: z) hw ?_
  intro ch hch
  rw [List.head?_cons] at hch
  injection hch with hch
  subst hch
  exact hc

theorem noNBb_cons (c : Char) (l : List Char) (hl : noNBb l = true)
    (hc : c = '\n' → l.head? = some btk → False) : noNBb (c :: l) = true := by
  cases l with
  | nil => rfl
  | cons b t =>
    have key : noNBb (c :: b :: t) = (!(c = '\n' && b = btk) && noNBb (b :: t)) := rfl
    rw [key, Bool.and_eq_true]
    refine ⟨?_, hl⟩
    by_cases hcn : c = '\n'
    · by_cases hbb : b = btk
      · exact absurd (hc hcn (by rw [hbb]; rfl)) (fun x => x)
      · simp [hbb]
    · simp [hcn]

theorem glex {α : Type} (a : α) (t : List α) : ∃ lc, (a :: t).getLast? = some lc := by
  induction t generalizing a with
  | nil => exact ⟨a, by simp⟩
  | cons b t2 ih =>
    obtain ⟨lc, hlc⟩ := ih b
    exact ⟨lc, by rw [List.getLast?_cons_cons]; exact hlc⟩

theorem mem_of_gl {α : Type} (l : List α) (a : α) (h : l.getLast? = some a) : a ∈ l := by
  induction l with
  | nil => exact absurd h (by simp)
  | cons b t ih =>
    cases t with
    | nil =>
      simp only [List.getLast?_singleton] at h
      injection h with h
      subst h
      exact List.mem_singleton_self _
    | cons c t2 =>
      rw [List.getLast?_cons_cons] at h
      exact List.mem_cons_of_mem b (ih h)

theorem headNN_ws_cons (w : List Char) (c : Char) (z : List Char)
    (hw : ∀ x ∈ w, isWs x = true) (hc : numChar c = false) :
    headNN (w ++ c :: z) := by
  intro y hy
  rcases head_ws_cons w c z hw y hy with h | h
  · exact isWs_not_numChar y h
  · subst h
    exact hc

theorem pv_brace (f : Nat) (t : List Char) :
    parseValue (f+1) ('{' :: t) =
      (match (t.dropWhile isWs) with
       | '}' :: r => some (.obj [], r)
       | t1 =>
         match parseMembersReq f t1 with
         | some (ms, r) => some (.obj ms, r)
         | none => none) := rfl

theorem pv_brack (f : Nat) (t : List Char) :
    parseValue (f+1) ('[' :: t) =
      (match (t.dropWhile isWs) with
       | ']' :: r => some (.arr [], r)
       | t1 =>
         match parseElemsReq f t1 with
         | some (vs, r) => some (.arr vs, r)
         | none => none) := rfl

theorem pv_quote (f : Nat) (t : List Char) :
    parseValue (f+1) ('"' :: t) =
      (match parseStringBody t.length t with
       | some (content, r) => some (.str ⟨content⟩, r)
       | none => none) := rfl

theorem pv_t (f : Nat) (t : List Char) :
    parseValue (f+1) ('t' :: t) =
      (match stripChars ['r', 'u', 'e'] t with
       | some r => some (.bool true, r)
       | none => none) := rfl

theorem pv_f (f : Nat) (t : List Char) :
    parseValue (f+1) ('f' :: t) =
      (match stripChars ['a', 'l', 's', 'e'] t with
       | some r => some (.bool false, r)
       | none => none) := rfl

theorem pv_n (f : Nat) (t : List Char) :
    parseValue (f+1) ('n' :: t) =
      (match stripChars ['u', 'l', 'l'] t with
       | some r => some (.null, r)
       | none => none) := rfl

theorem pm_quote (f : Nat) (t : List Char) :
    parseMembersReq (f+1) ('"' :: t) =
      (match parseStringBody t.length t with
       | some (key, r1) =>
         match (r1.dropWhile isWs) with
         | ':' :: r2 =>
           match parseValue f (r2.dropWhile isWs) with
           | some (v, r3) =>
             match (r3.dropWhile isWs) with
             | ',' :: r4 =>
               match parseMembersReq f (r4.dropWhile isWs) with
               | some (ms, r5) => some ((⟨key⟩, v) :: ms, r5)
               | none => none
             | '}' :: r4 => some ([(⟨key⟩, v)], r4)
             | _ => none
           | none => none
         | _ => none
       | none => none) := rfl

theorem dw_split (l : List Char) (d : List Char) (heq : l.dropWhile isWs = d) :
    ∃ w, l = w ++ d ∧ ∀ x ∈ w, isWs x = true :=
  ⟨l.takeWhile isWs, dw_shape l d heq, fun x hx => List.mem_takeWhile_imp hx⟩

theorem parse_split : ∀ f : Nat,
    (∀ c v r, parseValue f c = some (v, r) → ∃ ch u lc,
      c = (ch :: u) ++ r ∧ isWs6 ch = false ∧ ch ≠ ']' ∧ ch ≠ '}' ∧ ch ≠ btk ∧
      (ch :: u).getLast? = some lc ∧ isWs6 lc = false ∧ noNBb (ch :: u) = true ∧
      (∀ r2 f2, headNN r2 → 2 * (ch :: u).length + 1 ≤ f2 →
        parseValue f2 ((ch :: u) ++ r2) = some (v, r2)))
  ∧ (∀ c ms r, parseMembersReq f c = some (ms, r) → ∃ u lc,
      c = ('"' :: u) ++ r ∧
      ('"' :: u).getLast? = some lc ∧ isWs6 lc = false ∧ noNBb ('"' :: u) = true ∧
      (∀ r2 f2, headNN r2 → 2 * ('"' :: u).length + 1 ≤ f2 →
        parseMembersReq f2 (('"' :: u) ++ r2) = some (ms, r2)))
  ∧ (∀ c vs r, parseElemsReq f c = some (vs, r) → ∃ ch u lc,
      c = (ch :: u) ++ r ∧ isWs6 ch = false ∧ ch ≠ ']' ∧ ch ≠ '}' ∧ ch ≠ btk ∧
      (ch :: u).getLast? = some lc ∧ isWs6 lc = false ∧ noNBb (ch :: u) = true ∧
      (∀ r2 f2, headNN r2 → 2 * (ch :: u).length + 1 ≤ f2 →
        parseElemsReq f2 ((ch :: u) ++ r2) = some (vs, r2))) := by
  intro f
  induction f with
  | zero =>
    refine ⟨?_, ?_, ?_⟩
    · intro c v r h; exact Option.noConfusion h
    · intro c ms r h; exact Option.noConfusion h
    · intro c vs r h; exact Option.noConfusion h
  | succ f IH =>
    obtain ⟨IHV, IHM, IHE⟩ := IH
    refine ⟨?_, ?_, ?_⟩
    · -- parseValue
      intro c v r h
      rw [pv_succ] at h
      split at h
      · -- '{' :: t
        rename_i t0
        split at h
        · -- empty object
          rename_i rr heqA
          injection h with h
          rw [Prod.mk.injEq] at h
          obtain ⟨hv, hr⟩ := h
          subst hr
          obtain ⟨w, hts, hw⟩ := dw_split t0 _ heqA
          refine ⟨'{', w ++ ['}'], '}', ?_, by decide, by decide, by decide, by decide,
            ?_, by decide, ?_, ?_⟩
          · rw [List.cons_append, List.append_assoc, List.singleton_append]
            exact congrArg _ hts
          · exact gl_cons _ _ _ (by rw [gl_append _ _ (List.cons_ne_nil _ _)]; simp)
          · refine noNBb_of_all_ne_btk _ ?_
            intro x hx
            rcases List.mem_cons.mp hx with hx | hx
            · subst hx; decide
            rcases List.mem_append.mp hx with hx | hx
            · exact isWs_ne_btk x (hw x hx)
            · rw [List.mem_singleton] at hx; subst hx; decide
          · intro r2 f2 hNN2 hb
            cases f2 with
            | zero => exact absurd hb (by omega)
            | succ g =>
              rw [List.cons_append, pv_brace]
              rw [show ((w ++ ['}']) ++ r2).dropWhile isWs = '}' :: r2 from by
                rw [List.append_assoc, List.singleton_append]
                exact dw_replay _ _ _ hw (by decide)]
              rw [← hv]
              rfl
        · -- nonempty object
          rename_i hgA
          cases hm : parseMembersReq f (t0.dropWhile isWs) with
          | none => rw [hm] at h; exact absurd h (by simp)
          | some pr =>
            rw [hm] at h
            rcases pr with ⟨ms0, rm⟩
            injection h with h
            rw [Prod.mk.injEq] at h
            obtain ⟨hv, hr⟩ := h
            subst hr
            obtain ⟨um, lcm, hceqM, hglM, hlc6M, hnbM, hrepM⟩ := IHM _ _ _ hm
            obtain ⟨w, hts, hw⟩ := dw_split t0 _ hceqM
            refine ⟨'{', w ++ ('"' :: um), lcm, ?_, by decide, by decide, by decide,
              by decide, ?_, hlc6M, ?_, ?_⟩
            · rw [List.cons_append, List.append_assoc]
              exact congrArg _ hts
            · exact gl_cons _ _ _ (by
                rw [gl_append _ _ (List.cons_ne_nil _ _)]; exact hglM)
            · refine noNBb_cons _ _ ?_ (by intro hx; exact absurd hx (by decide))
              refine noNBb_append _ _ (noNBb_of_all_ne_btk _
                (fun x hx => isWs_ne_btk x (hw x hx))) hnbM ?_
              rintro ⟨hL, hH⟩
              rw [List.head?_cons] at hH
              injection hH with hH
              exact absurd hH.symm (by decide)
            · intro r2 f2 hNN2 hb
              cases f2 with
              | zero => exact absurd hb (by omega)
              | succ g =>
                rw [List.cons_append, pv_brace]
                rw [show ((w ++ ('"' :: um)) ++ r2).dropWhile isWs
                    = '"' :: (um ++ r2) from by
                  rw [List.append_assoc, List.cons_append]
                  exact dw_replay _ _ _ hw (by decide)]
                split
                · rename_i rr2 heqC
                  injection heqC with hh1 hh2
                  exact absurd hh1 (by decide)
                · rename_i hgC
                  have hm2 := hrepM r2 g hNN2 (by
                    simp only [List.length_cons, List.length_append] at hb ⊢
                    omega)
                  rw [List.cons_append] at hm2
                  rw [hm2, ← hv]
      · -- '[' :: t
        rename_i t0
        split at h
        · -- empty array
          rename_i rr heqA
          injection h with h
          rw [Prod.mk.injEq] at h
          obtain ⟨hv, hr⟩ := h
          subst hr
          obtain ⟨w, hts, hw⟩ := dw_split t0 _ heqA
          refine ⟨'[', w ++ [']'], ']', ?_, by decide, by decide, by decide, by decide,
            ?_, by decide, ?_, ?_⟩
          · rw [List.cons_append, List.append_assoc, List.singleton_append]
            exact congrArg _ hts
          · exact gl_cons _ _ _ (by rw [gl_append _ _ (List.cons_ne_nil _ _)]; simp)
          · refine noNBb_of_all_ne_btk _ ?_
            intro x hx
            rcases List.mem_cons.mp hx with hx | hx
            · subst hx; decide
            rcases List.mem_append.mp hx with hx | hx
            · exact isWs_ne_btk x (hw x hx)
            · rw [List.mem_singleton] at hx; subst hx; decide
          · intro r2 f2 hNN2 hb
            cases f2 with
            | zero => exact absurd hb (by omega)
            | succ g =>
              rw [List.cons_append, pv_brack]
              rw [show ((w ++ [']']) ++ r2).dropWhile isWs = ']' :: r2 from by
                rw [List.append_assoc, List.singleton_append]
                exact dw_replay _ _ _ hw (by decide)]
              rw [← hv]
              rfl
        · -- nonempty array
          rename_i hgA
          cases he : parseElemsReq f (t0.dropWhile isWs) with
          | none => rw [he] at h; exact absurd h (by simp)
          | some pr =>
            rw [he] at h
            rcases pr with ⟨vs0, rm⟩
            injection h with h
            rw [Prod.mk.injEq] at h
            obtain ⟨hv, hr⟩ := h
            subst hr
            obtain ⟨che, ue, lce, hceqE, hw6E, hne1E, hne2E, hne3E, hglE, hl6E,
              hnbE, hrepE⟩ := IHE _ _ _ he
            obtain ⟨w, hts, hw⟩ := dw_split t0 _ hceqE
            refine ⟨'[', w ++ (che :: ue), lce, ?_, by decide, by decide, by decide,
              by decide, ?_, hl6E, ?_, ?_⟩
            · rw [List.cons_append, List.append_assoc]
              exact congrArg _ hts
            · exact gl_cons _ _ _ (by
                rw [gl_append _ _ (List.cons_ne_nil _ _)]; exact hglE)
            · refine noNBb_cons _ _ ?_ (by intro hx; exact absurd hx (by decide))
              refine noNBb_append _ _ (noNBb_of_all_ne_btk _
                (fun x hx => isWs_ne_btk x (hw x hx))) hnbE ?_
              rintro ⟨hL, hH⟩
              rw [List.head?_cons] at hH
              injection hH with hH
              exact hne3E hH
            · intro r2 f2 hNN2 hb
              cases f2 with
              | zero => exact absurd hb (by omega)
              | succ g =>
                rw [List.cons_append, pv_brack]
                rw [show ((w ++ (che :: ue)) ++ r2).dropWhile isWs
                    = che :: (ue ++ r2) from by
                  rw [List.append_assoc, List.cons_append]
                  exact dw_replay _ _ _ hw (isWs_of_not6 che hw6E)]
                split
                · rename_i rr2 heqC
                  injection heqC with hh1 hh2
                  exact absurd hh1 hne1E
                · rename_i hgC
                  have he2 := hrepE r2 g hNN2 (by
                    simp only [List.length_cons, List.length_append] at hb ⊢
                    omega)
                  rw [List.cons_append] at he2
                  rw [he2, ← hv]
      · -- '"' :: t (string)
        rename_i t0
        cases hps : parseStringBody t0.length t0 with
        | none => rw [hps] at h; exact absurd h (by simp)
        | some pr =>
          rw [hps] at h
          rcases pr with ⟨content, r1⟩
          injection h with h
          rw [Prod.mk.injEq] at h
          obtain ⟨hv, hr⟩ := h
          subst hr
          obtain ⟨us, hts, hnlS, hglS, hrepS⟩ := psb_split _ _ _ _ hps
          refine ⟨'"', us, '"', ?_, by decide, by decide, by decide, by decide,
            gl_cons _ _ _ hglS, by decide, ?_, ?_⟩
          · rw [List.cons_append]
            exact congrArg _ hts
          · exact noNBb_of_no_nl _ (by
              intro x hx
              rcases List.mem_cons.mp hx with hx | hx
              · subst hx; decide
              · exact hnlS x hx)
          · intro r2 f2 hNN2 hb
            cases f2 with
            | zero => exact absurd hb (by omega)
            | succ g =>
              rw [List.cons_append, pv_quote]
              rw [hrepS r2 (us ++ r2).length (by
                simp only [List.length_append]; omega)]
              rw [← hv]
      · -- 't' :: t (true)
        rename_i t0
        cases hsc : stripChars ['r', 'u', 'e'] t0 with
        | none => rw [hsc] at h; exact absurd h (by simp)
        | some rr =>
          rw [hsc] at h
          injection h with h
          rw [Prod.mk.injEq] at h
          obtain ⟨hv, hr⟩ := h
          subst hr
          obtain ⟨hts, hrepT⟩ := sc_split _ _ _ hsc
          refine ⟨'t', ['r', 'u', 'e'], 'e', ?_, by decide, by decide, by decide,
            by decide, by decide, by decide, by decide, ?_⟩
          · rw [List.cons_append]
            exact congrArg _ hts
          · intro r2 f2 hNN2 hb
            cases f2 with
            | zero => exact absurd hb (by omega)
            | succ g =>
              rw [List.cons_append, pv_t, hrepT r2, ← hv]
      · -- 'f' :: t (false)
        rename_i t0
        cases hsc : stripChars ['a', 'l', 's', 'e'] t0 with
        | none => rw [hsc] at h; exact absurd h (by simp)
        | some rr =>
          rw [hsc] at h
          injection h with h
          rw [Prod.mk.injEq] at h
          obtain ⟨hv, hr⟩ := h
          subst hr
          obtain ⟨hts, hrepT⟩ := sc_split _ _ _ hsc
          refine ⟨'f', ['a', 'l', 's', 'e'], 'e', ?_, by decide, by decide, by decide,
            by decide, by decide, by decide, by decide, ?_⟩
          · rw [List.cons_append]
            exact congrArg _ hts
          · intro r2 f2 hNN2 hb
            cases f2 with
            | zero => exact absurd hb (by omega)
            | succ g =>
              rw [List.cons_append, pv_f, hrepT r2, ← hv]
      · -- 'n' :: t (null)
        rename_i t0
        cases hsc : stripChars ['u', 'l', 'l'] t0 with
        | none => rw [hsc] at h; exact absurd h (by simp)
        | some rr =>
          rw [hsc] at h
          injection h with h
          rw [Prod.mk.injEq] at h
          obtain ⟨hv, hr⟩ := h
          subst hr
          obtain ⟨hts, hrepT⟩ := sc_split _ _ _ hsc
          refine ⟨'n', ['u', 'l', 'l'], 'l', ?_, by decide, by decide, by decide,
            by decide, by decide, by decide, by decide, ?_⟩
          · rw [List.cons_append]
            exact congrArg _ hts
          · intro r2 f2 hNN2 hb
            cases f2 with
            | zero => exact absurd hb (by omega)
            | succ g =>
              rw [List.cons_append, pv_n, hrepT r2, ← hv]
      · -- default (number or reject)
        rename_i ch t0 hne1 hne2 hne3 hne4 hne5 hne6
        split at h
        · -- digit or minus
          rename_i hguard
          obtain ⟨ch2, u, hceq, hnum, hNNr, hrep⟩ := pn_split _ _ _ h
          rw [List.cons_append] at hceq
          injection hceq with hceq1 hceq2
          subst hceq1
          subst hceq2
          have hchnum : numChar ch = true := hnum ch (List.mem_cons_self _ _)
          obtain ⟨lc, hlc⟩ := glex ch u
          have hlcnum : numChar lc = true := hnum lc (mem_of_gl _ _ hlc)
          refine ⟨ch, u, lc, rfl, numChar_not_isWs6 ch hchnum, ?_, ?_, ?_, hlc,
            numChar_not_isWs6 lc hlcnum, ?_, ?_⟩
          · intro hee; rw [hee] at hchnum; exact absurd hchnum (by decide)
          · intro hee; rw [hee] at hchnum; exact absurd hchnum (by decide)
          · intro hee; rw [hee] at hchnum; exact absurd hchnum (by decide)
          · exact noNBb_of_all_ne_btk _ (fun x hx => by
              intro hee
              have := hnum x hx
              rw [hee] at this
              exact absurd this (by decide))
          · intro r2 f2 hNN2 hb
            cases f2 with
            | zero => exact absurd hb (by omega)
            | succ g =>
              rw [pv_succ, List.cons_append]
              split
              · rename_i tz heqZ
                injection heqZ with hz1 hz2
                rw [hz1] at hchnum
                exact absurd hchnum (by decide)
              · rename_i tz heqZ
                injection heqZ with hz1 hz2
                rw [hz1] at hchnum
                exact absurd hchnum (by decide)
              · rename_i tz heqZ
                injection heqZ with hz1 hz2
                rw [hz1] at hchnum
                exact absurd hchnum (by decide)
              · rename_i tz heqZ
                injection heqZ with hz1 hz2
                rw [hz1] at hchnum
                exact absurd hchnum (by decide)
              · rename_i tz heqZ
                injection heqZ with hz1 hz2
                rw [hz1] at hchnum
                exact absurd hchnum (by decide)
              · rename_i tz heqZ
                injection heqZ with hz1 hz2
                rw [hz1] at hchnum
                exact absurd hchnum (by decide)
              · rename_i ch3 t3 hn1 hn2 hn3 hn4 hn5 hn6 heqZ
                injection heqZ with hz1 hz2
                subst hz1
                subst hz2
                rw [if_pos hguard, ← List.cons_append]
                exact hrep r2 hNN2
              · rename_i heqZ
                exact absurd heqZ (by simp)
        · exact Option.noConfusion h
      · -- [] case
        exact Option.noConfusion h
    · -- parseMembersReq
      intro c ms r h
      rw [pm_succ] at h
      split at h
      · -- '"' :: t
        rename_i t0
        cases hps : parseStringBody t0.length t0 with
        | none => rw [hps] at h; exact absurd h (by simp)
        | some pr =>
          rw [hps] at h
          rcases pr with ⟨key, r1⟩
          dsimp only at h
          split at h
          · -- ':' found
            rename_i rr2 heq1
            cases hpv : parseValue f (rr2.dropWhile isWs) with
            | none => rw [hpv] at h; exact absurd h (by simp)
            | some prv =>
              rw [hpv] at h
              rcases prv with ⟨v1, r3⟩
              dsimp only at h
              obtain ⟨chv, uv, lcv, hceqV, hw6V, hne1V, hne2V, hne3V, hglV, hl6V,
                hnbV, hrepV⟩ := IHV _ _ _ hpv
              obtain ⟨uk, htk, hnlK, hglK, hrepK⟩ := psb_split _ _ _ _ hps
              obtain ⟨w1, e1, hw1⟩ := dw_split r1 _ heq1
              obtain ⟨w2, e2, hw2⟩ := dw_split rr2 _ hceqV
              split at h
              · -- ',' (more members)
                rename_i rr4 heq2
                cases hpm : parseMembersReq f (rr4.dropWhile isWs) with
                | none => rw [hpm] at h; exact absurd h (by simp)
                | some prm =>
                  rw [hpm] at h
                  rcases prm with ⟨ms5, r5⟩
                  injection h with h
                  rw [Prod.mk.injEq] at h
                  obtain ⟨hms, hr⟩ := h
                  subst hms
                  subst hr
                  obtain ⟨um5, lc5, hceqM5, hglM5, hl6M5, hnbM5, hrepM5⟩ :=
                    IHM _ _ _ hpm
                  obtain ⟨w3, e3, hw3⟩ := dw_split r3 _ heq2
                  obtain ⟨w4, e4, hw4⟩ := dw_split rr4 _ hceqM5
                  refine ⟨uk ++ (w1 ++ (':' :: (w2 ++ ((chv :: uv) ++ (w3 ++
                    (',' :: (w4 ++ ('"' :: um5)))))))), lc5, ?_, ?_, hl6M5, ?_, ?_⟩
                  · rw [List.cons_append]
                    refine congrArg _ ?_
                    rw [htk, e1, e2, e3, e4]
                    simp only [List.append_assoc, List.cons_append, List.nil_append]
                  · rw [show ('"' :: (uk ++ (w1 ++ (':' :: (w2 ++ ((chv :: uv) ++
                      (w3 ++ (',' :: (w4 ++ ('"' :: um5)))))))))) = ('"' :: (uk ++
                      (w1 ++ (':' :: (w2 ++ ((chv :: uv) ++ (w3 ++
                      (',' :: w4)))))))) ++ ('"' :: um5) from by
                      simp only [List.append_assoc, List.cons_append, List.nil_append]]
                    rw [gl_append _ _ (List.cons_ne_nil _ _)]
                    exact hglM5
                  · have hA4 : noNBb (w4 ++ ('"' :: um5)) = true := by
                      refine noNBb_append _ _ (noNBb_of_all_ne_btk _
                        (fun x hx => isWs_ne_btk x (hw4 x hx))) hnbM5 ?_
                      rintro ⟨-, hH⟩
                      rw [List.head?_cons] at hH
                      injection hH with hH
                      exact absurd hH.symm (by decide)
                    have hA3 : noNBb (',' :: (w4 ++ ('"' :: um5))) = true :=
                      noNBb_cons _ _ hA4 (by intro hx; exact absurd hx (by decide))
                    have hA2 : noNBb (w3 ++ (',' :: (w4 ++ ('"' :: um5)))) = true := by
                      refine noNBb_append _ _ (noNBb_of_all_ne_btk _
                        (fun x hx => isWs_ne_btk x (hw3 x hx))) hA3 ?_
                      rintro ⟨-, hH⟩
                      rw [List.head?_cons] at hH
                      injection hH with hH
                      exact absurd hH.symm (by decide)
                    have hA1 : noNBb ((chv :: uv) ++ (w3 ++ (',' :: (w4 ++
                        ('"' :: um5))))) = true := by
                      refine noNBb_append _ _ hnbV hA2 ?_
                      rintro ⟨hL, -⟩
                      rw [hglV] at hL
                      injection hL with hL
                      rw [hL] at hl6V
                      exact absurd hl6V (by decide)
                    have hA0 : noNBb (w2 ++ ((chv :: uv) ++ (w3 ++ (',' :: (w4 ++
                        ('"' :: um5)))))) = true := by
                      refine noNBb_append _ _ (noNBb_of_all_ne_btk _
                        (fun x hx => isWs_ne_btk x (hw2 x hx))) hA1 ?_
                      rintro ⟨-, hH⟩
                      rw [List.cons_append, List.head?_cons] at hH
                      injection hH with hH
                      exact hne3V hH
                    have hB1 : noNBb (':' :: (w2 ++ ((chv :: uv) ++ (w3 ++ (',' ::
                        (w4 ++ ('"' :: um5))))))) = true :=
                      noNBb_cons _ _ hA0 (by intro hx; exact absurd hx (by decide))
                    have hB0 : noNBb (w1 ++ (':' :: (w2 ++ ((chv :: uv) ++ (w3 ++
                        (',' :: (w4 ++ ('"' :: um5)))))))) = true := by
                      refine noNBb_append _ _ (noNBb_of_all_ne_btk _
                        (fun x hx => isWs_ne_btk x (hw1 x hx))) hB1 ?_
                      rintro ⟨-, hH⟩
                      rw [List.head?_cons] at hH
                      injection hH with hH
                      exact absurd hH.symm (by decide)
                    have hK : noNBb (uk ++ (w1 ++ (':' :: (w2 ++ ((chv :: uv) ++
                        (w3 ++ (',' :: (w4 ++ ('"' :: um5))))))))) = true := by
                      refine noNBb_append _ _ (noNBb_of_no_nl _ hnlK) hB0 ?_
                      rintro ⟨hL, -⟩
                      rw [hglK] at hL
                      injection hL with hL
                      exact absurd hL.symm (by decide)
                    exact noNBb_cons _ _ hK (by intro hx; exact absurd hx (by decide))
                  · intro r2 f2 hNN2 hb
                    cases f2 with
                    | zero => exact absurd hb (by omega)
                    | succ g =>
                      rw [List.cons_append, pm_quote]
                      have hK2 : parseStringBody ((uk ++ (w1 ++ (':' :: (w2 ++
                          ((chv :: uv) ++ (w3 ++ (',' :: (w4 ++ ('"' :: um5)))))))))
                          ++ r2).length ((uk ++ (w1 ++ (':' :: (w2 ++ ((chv :: uv)
                          ++ (w3 ++ (',' :: (w4 ++ ('"' :: um5))))))))) ++ r2)
                          = some (key, w1 ++ (':' :: (w2 ++ ((chv :: uv) ++ (w3 ++
                            (',' :: (w4 ++ (('"' :: um5) ++ r2)))))))) := by
                        have hU2 : (uk ++ (w1 ++ (':' :: (w2 ++ ((chv :: uv) ++
                            (w3 ++ (',' :: (w4 ++ ('"' :: um5))))))))) ++ r2
                            = uk ++ (w1 ++ (':' :: (w2 ++ ((chv :: uv) ++ (w3 ++
                              (',' :: (w4 ++ (('"' :: um5) ++ r2)))))))) := by
                          simp only [List.append_assoc, List.cons_append, List.nil_append]
                        rw [hU2]
                        exact hrepK _ _ (by
                          simp only [List.length_append, List.length_cons]; omega)
                      rw [hK2]
                      dsimp only
                      rw [dw_replay w1 ':' _ hw1 (by decide)]
                      split
                      · rename_i rz heqZ
                        injection heqZ with hz1 hz2
                        subst hz2
                        rw [show (w2 ++ ((chv :: uv) ++ (w3 ++ (',' :: (w4 ++
                            (('"' :: um5) ++ r2)))))).dropWhile isWs
                            = (chv :: uv) ++ (w3 ++ (',' :: (w4 ++ (('"' :: um5) ++
                              r2)))) from by
                          rw [List.cons_append]
                          exact dw_replay _ _ _ hw2 (isWs_of_not6 chv hw6V)]
                        rw [hrepV _ g (headNN_ws_cons _ _ _ hw3 (by decide)) (by
                          simp only [List.length_cons, List.length_append] at hb ⊢
                          omega)]
                        dsimp only
                        rw [dw_replay w3 ',' _ hw3 (by decide)]
                        split
                        · rename_i rz2 heqZ2
                          injection heqZ2 with hz3 hz4
                          subst hz4
                          rw [show (w4 ++ (('"' :: um5) ++ r2)).dropWhile isWs
                              = ('"' :: um5) ++ r2 from by
                            rw [List.cons_append]
                            exact dw_replay _ _ _ hw4 (by decide)]
                          rw [hrepM5 r2 g hNN2 (by
                            simp only [List.length_cons, List.length_append] at hb ⊢
                            omega)]
                        · rename_i rz2 heqZ2
                          injection heqZ2 with hz3 hz4
                          exact absurd hz3 (by decide)
                        · rename_i hg1 hg2
                          exact (hg1 _ rfl).elim
                      · rename_i hg1
                        exact (hg1 _ rfl).elim
              · -- '}' (last member)
                rename_i rr4 heq2
                injection h with h
                rw [Prod.mk.injEq] at h
                obtain ⟨hms, hr⟩ := h
                subst hms
                subst hr
                obtain ⟨w3, e3, hw3⟩ := dw_split r3 _ heq2
                refine ⟨uk ++ (w1 ++ (':' :: (w2 ++ ((chv :: uv) ++ (w3 ++
                  ['}']))))), '}', ?_, ?_, by decide, ?_, ?_⟩
                · rw [List.cons_append]
                  refine congrArg _ ?_
                  rw [htk, e1, e2, e3]
                  simp only [List.append_assoc, List.cons_append,
                    List.singleton_append, List.nil_append]
                · rw [show ('"' :: (uk ++ (w1 ++ (':' :: (w2 ++ ((chv :: uv) ++
                    (w3 ++ ['}']))))))) = ('"' :: (uk ++ (w1 ++ (':' :: (w2 ++
                    ((chv :: uv) ++ w3)))))) ++ ['}'] from by
                    simp only [List.append_assoc, List.cons_append, List.nil_append]]
                  rw [gl_append _ _ (List.cons_ne_nil _ _)]
                  simp
                · have hA3 : noNBb (w3 ++ ['}'] : List Char) = true := by
                    refine noNBb_of_all_ne_btk _ ?_
                    intro x hx
                    rcases List.mem_append.mp hx with hx | hx
                    · exact isWs_ne_btk x (hw3 x hx)
                    · rw [List.mem_singleton] at hx; subst hx; decide
                  have hA1 : noNBb ((chv :: uv) ++ (w3 ++ ['}'])) = true := by
                    refine noNBb_append _ _ hnbV hA3 ?_
                    rintro ⟨hL, -⟩
                    rw [hglV] at hL
                    injection hL with hL
                    rw [hL] at hl6V
                    exact absurd hl6V (by decide)
                  have hA0 : noNBb (w2 ++ ((chv :: uv) ++ (w3 ++ ['}']))) = true := by
                    refine noNBb_append _ _ (noNBb_of_all_ne_btk _
                      (fun x hx => isWs_ne_btk x (hw2 x hx))) hA1 ?_
                    rintro ⟨-, hH⟩
                    rw [List.cons_append, List.head?_cons] at hH
                    injection hH with hH
                    exact hne3V hH
                  have hB1 : noNBb (':' :: (w2 ++ ((chv :: uv) ++ (w3 ++ ['}']))))
                      = true :=
                    noNBb_cons _ _ hA0 (by intro hx; exact absurd hx (by decide))
                  have hB0 : noNBb (w1 ++ (':' :: (w2 ++ ((chv :: uv) ++ (w3 ++
                      ['}']))))) = true := by
                    refine noNBb_append _ _ (noNBb_of_all_ne_btk _
                      (fun x hx => isWs_ne_btk x (hw1 x hx))) hB1 ?_
                    rintro ⟨-, hH⟩
                    rw [List.head?_cons] at hH
                    injection hH with hH
                    exact absurd hH.symm (by decide)
                  have hK : noNBb (uk ++ (w1 ++ (':' :: (w2 ++ ((chv :: uv) ++
                      (w3 ++ ['}'])))))) = true := by
                    refine noNBb_append _ _ (noNBb_of_no_nl _ hnlK) hB0 ?_
                    rintro ⟨hL, -⟩
                    rw [hglK] at hL
                    injection hL with hL
                    exact absurd hL.symm (by decide)
                  exact noNBb_cons _ _ hK (by intro hx; exact absurd hx (by decide))
                · intro r2 f2 hNN2 hb
                  cases f2 with
                  | zero => exact absurd hb (by omega)
                  | succ g =>
                    rw [List.cons_append, pm_quote]
                    have hK2 : parseStringBody ((uk ++ (w1 ++ (':' :: (w2 ++
                        ((chv :: uv) ++ (w3 ++ ['}'])))))) ++ r2).length
                        ((uk ++ (w1 ++ (':' :: (w2 ++ ((chv :: uv) ++ (w3 ++
                          ['}'])))))) ++ r2)
                        = some (key, w1 ++ (':' :: (w2 ++ ((chv :: uv) ++ (w3 ++
                          ('}' :: r2)))))) := by
                      have hU2 : (uk ++ (w1 ++ (':' :: (w2 ++ ((chv :: uv) ++
                          (w3 ++ ['}'])))))) ++ r2
                          = uk ++ (w1 ++ (':' :: (w2 ++ ((chv :: uv) ++ (w3 ++
                            ('}' :: r2)))))) := by
                        simp only [List.append_assoc, List.cons_append,
                          List.singleton_append, List.nil_append]
                      rw [hU2]
                      exact hrepK _ _ (by
                        simp only [List.length_append, List.length_cons]; omega)
                    rw [hK2]
                    dsimp only
                    rw [dw_replay w1 ':' _ hw1 (by decide)]
                    split
                    · rename_i rz heqZ
                      injection heqZ with hz1 hz2
                      subst hz2
                      rw [show (w2 ++ ((chv :: uv) ++ (w3 ++ ('}' ::
                          r2)))).dropWhile isWs
                          = (chv :: uv) ++ (w3 ++ ('}' :: r2)) from by
                        rw [List.cons_append]
                        exact dw_replay _ _ _ hw2 (isWs_of_not6 chv hw6V)]
                      rw [hrepV _ g (headNN_ws_cons _ _ _ hw3 (by decide)) (by
                        simp only [List.length_cons, List.length_append] at hb ⊢
                        omega)]
                      dsimp only
                      rw [dw_replay w3 '}' _ hw3 (by decide)]
                      split
                      · rename_i rz2 heqZ2
                        injection heqZ2 with hz3 hz4
                        exact absurd hz3 (by decide)
                      · rename_i rz2 heqZ2
                        injection heqZ2 with hz3 hz4
                        subst hz4
                        rfl
                      · rename_i hg1 hg2
                        exact (hg2 _ rfl).elim
                    · rename_i hg1
                      exact (hg1 _ rfl).elim
              · -- neither ',' nor '}'
                exact Option.noConfusion h
          · -- no ':' after key
            exact Option.noConfusion h
      · -- not '"'-headed
        exact Option.noConfusion h
    · -- parseElemsReq
      intro c vs r h
      rw [pe_succ] at h
      cases hpv : parseValue f c with
      | none => rw [hpv] at h; exact absurd h (by simp)
      | some prv =>
        rw [hpv] at h
        rcases prv with ⟨v1, r1⟩
        dsimp only at h
        obtain ⟨chv, uv, lcv, hceqV, hw6V, hne1V, hne2V, hne3V, hglV, hl6V,
          hnbV, hrepV⟩ := IHV _ _ _ hpv
        split at h
        · -- ',' (more elements)
          rename_i rr2 heq1
          cases hpe : parseElemsReq f (rr2.dropWhile isWs) with
          | none => rw [hpe] at h; exact absurd h (by simp)
          | some pre =>
            rw [hpe] at h
            rcases pre with ⟨vs2, r3⟩
            injection h with h
            rw [Prod.mk.injEq] at h
            obtain ⟨hvs, hr⟩ := h
            subst hvs
            subst hr
            obtain ⟨che, ue, lce, hceqE, hw6E, hne1E, hne2E, hne3E, hglE, hl6E,
              hnbE, hrepE⟩ := IHE _ _ _ hpe
            obtain ⟨w3, e3, hw3⟩ := dw_split r1 _ heq1
            obtain ⟨w4, e4, hw4⟩ := dw_split rr2 _ hceqE
            refine ⟨chv, uv ++ (w3 ++ (',' :: (w4 ++ (che :: ue)))), lce, ?_,
              hw6V, hne1V, hne2V, hne3V, ?_, hl6E, ?_, ?_⟩
            · rw [hceqV, e3, e4]
              simp only [List.append_assoc, List.cons_append, List.nil_append]
            · rw [show (chv :: (uv ++ (w3 ++ (',' :: (w4 ++ (che :: ue))))))
                  = (chv :: (uv ++ (w3 ++ (',' :: w4)))) ++ (che :: ue) from by
                simp only [List.append_assoc, List.cons_append, List.nil_append]]
              rw [gl_append _ _ (List.cons_ne_nil _ _)]
              exact hglE
            · have hA2 : noNBb (w4 ++ (che :: ue)) = true := by
                refine noNBb_append _ _ (noNBb_of_all_ne_btk _
                  (fun x hx => isWs_ne_btk x (hw4 x hx))) hnbE ?_
                rintro ⟨-, hH⟩
                rw [List.head?_cons] at hH
                injection hH with hH
                exact hne3E hH
              have hA1 : noNBb (',' :: (w4 ++ (che :: ue))) = true :=
                noNBb_cons _ _ hA2 (by intro hx; exact absurd hx (by decide))
              have hA0 : noNBb (w3 ++ (',' :: (w4 ++ (che :: ue)))) = true := by
                refine noNBb_append _ _ (noNBb_of_all_ne_btk _
                  (fun x hx => isWs_ne_btk x (hw3 x hx))) hA1 ?_
                rintro ⟨-, hH⟩
                rw [List.head?_cons] at hH
                injection hH with hH
                exact absurd hH.symm (by decide)
              have hfull : noNBb ((chv :: uv) ++ (w3 ++ (',' :: (w4 ++
                  (che :: ue))))) = true := by
                refine noNBb_append _ _ hnbV hA0 ?_
                rintro ⟨hL, -⟩
                rw [hglV] at hL
                injection hL with hL
                rw [hL] at hl6V
                exact absurd hl6V (by decide)
              rw [List.cons_append] at hfull
              exact hfull
            · intro r2 f2 hNN2 hb
              cases f2 with
              | zero => exact absurd hb (by omega)
              | succ g =>
                rw [pe_succ]
                have hrw : (chv :: (uv ++ (w3 ++ (',' :: (w4 ++ (che :: ue))))))
                    ++ r2 = (chv :: uv) ++ (w3 ++ (',' :: (w4 ++ ((che :: ue) ++
                    r2)))) := by
                  simp only [List.append_assoc, List.cons_append, List.nil_append]
                rw [hrw]
                rw [hrepV _ g (headNN_ws_cons _ _ _ hw3 (by decide)) (by
                  simp only [List.length_cons, List.length_append] at hb ⊢
                  omega)]
                dsimp only
                rw [dw_replay w3 ',' _ hw3 (by decide)]
                split
                · rename_i rz heqZ
                  injection heqZ with hz1 hz2
                  subst hz2
                  rw [show (w4 ++ ((che :: ue) ++ r2)).dropWhile isWs
                      = (che :: ue) ++ r2 from by
                    rw [List.cons_append]
                    exact dw_replay _ _ _ hw4 (isWs_of_not6 che hw6E)]
                  rw [hrepE r2 g hNN2 (by
                    simp only [List.length_cons, List.length_append] at hb ⊢
                    omega)]
                · rename_i rz heqZ
                  injection heqZ with hz1 hz2
                  exact absurd hz1 (by decide)
                · rename_i hg1 hg2
                  exact (hg1 _ rfl).elim
        · -- ']' (last element)
          rename_i rr2 heq1
          injection h with h
          rw [Prod.mk.injEq] at h
          obtain ⟨hvs, hr⟩ := h
          subst hvs
          subst hr
          obtain ⟨w3, e3, hw3⟩ := dw_split r1 _ heq1
          refine ⟨chv, uv ++ (w3 ++ [']']), ']', ?_, hw6V, hne1V, hne2V, hne3V,
            ?_, by decide, ?_, ?_⟩
          · rw [hceqV, e3]
            simp only [List.append_assoc, List.cons_append, List.singleton_append, List.nil_append]
          · rw [show (chv :: (uv ++ (w3 ++ [']'])))
                = (chv :: (uv ++ w3)) ++ [']'] from by
              simp only [List.append_assoc, List.cons_append, List.nil_append]]
            rw [gl_append _ _ (List.cons_ne_nil _ _)]
            simp
          · have hA0 : noNBb (w3 ++ [']'] : List Char) = true := by
              refine noNBb_of_all_ne_btk _ ?_
              intro x hx
              rcases List.mem_append.mp hx with hx | hx
              · exact isWs_ne_btk x (hw3 x hx)
              · rw [List.mem_singleton] at hx; subst hx; decide
            have hfull : noNBb ((chv :: uv) ++ (w3 ++ [']'])) = true := by
              refine noNBb_append _ _ hnbV hA0 ?_
              rintro ⟨hL, -⟩
              rw [hglV] at hL
              injection hL with hL
              rw [hL] at hl6V
              exact absurd hl6V (by decide)
            rw [List.cons_append] at hfull
            exact hfull
          · intro r2 f2 hNN2 hb
            cases f2 with
            | zero => exact absurd hb (by omega)
            | succ g =>
              rw [pe_succ]
              have hrw : (chv :: (uv ++ (w3 ++ [']']))) ++ r2
                  = (chv :: uv) ++ (w3 ++ (']' :: r2)) := by
                simp only [List.append_assoc, List.cons_append,
                  List.singleton_append, List.nil_append]
              rw [hrw]
              rw [hrepV _ g (headNN_ws_cons _ _ _ hw3 (by decide)) (by
                simp only [List.length_cons, List.length_append] at hb ⊢
                omega)]
              dsimp only
              rw [dw_replay w3 ']' _ hw3 (by decide)]
              split
              · rename_i rz heqZ
                injection heqZ with hz1 hz2
                exact absurd hz1 (by decide)
              · rename_i rz heqZ
                injection heqZ with hz1 hz2
                subst hz2
                rfl
              · rename_i hg1 hg2
                exact (hg2 _ rfl).elim
        · -- neither ',' nor ']'
          exact Option.noConfusion h

theorem head_mem {α : Type} (l : List α) (y : α) (h : l.head? = some y) : y ∈ l := by
  cases l with
  | nil => exact absurd h (by simp)
  | cons a t =>
    rw [List.head?_cons] at h
    injection h with h
    subst h
    exact List.mem_cons_self _ _

theorem loads_decomp (c : List Char) (v : Json) (h : loadsL c = some v) :
    ∃ w ch u lc w2,
      c = w ++ ((ch :: u) ++ w2) ∧
      (∀ x ∈ w, isWs x = true) ∧ (∀ x ∈ w2, isWs x = true) ∧
      isWs6 ch = false ∧ ch ≠ btk ∧
      (ch :: u).getLast? = some lc ∧ isWs6 lc = false ∧
      noNBb (ch :: u) = true ∧
      loadsL (ch :: u) = some v := by
  unfold loadsL at h
  dsimp only at h
  cases hpv : parseValue (2 * (c.dropWhile isWs).length + 1) (c.dropWhile isWs) with
  | none => rw [hpv] at h; exact absurd h (by simp)
  | some pr =>
    rw [hpv] at h
    rcases pr with ⟨v1, rest⟩
    dsimp only at h
    split at h
    case isFalse => exact Option.noConfusion h
    case isTrue hrestnil =>
      injection h with h
      subst h
      obtain ⟨ch, u, lc, hceq, hw6, hne1, hne2, hne3, hgl, hl6, hnb, hrep⟩ :=
        (parse_split _).1 _ _ _ hpv
      have hw2 : ∀ x ∈ rest, isWs x = true := by
        intro x hx
        have := List.dropWhile_eq_nil_iff.mp hrestnil
        exact this x hx
      refine ⟨c.takeWhile isWs, ch, u, lc, rest, ?_,
        fun x hx => List.mem_takeWhile_imp hx, hw2, hw6, hne3, hgl, hl6, hnb, ?_⟩
      · rw [← hceq]
        exact (List.takeWhile_append_dropWhile isWs c).symm
      · unfold loadsL
        dsimp only
        have hdw : (ch :: u).dropWhile isWs = ch :: u := by
          rw [List.dropWhile_cons, isWs_of_not6 ch hw6]
          rfl
        rw [hdw]
        have hcl := hrep [] (2 * (ch :: u).length + 1)
          (by intro y hy; exact absurd hy (by simp)) (Nat.le_refl _)
        rw [List.append_nil] at hcl
        rw [hcl]
        rfl

theorem pstripL_decomp (w u w2 : List Char) (ch lc : Char)
    (hw : ∀ x ∈ w, isWs6 x = true) (hw2 : ∀ x ∈ w2, isWs6 x = true)
    (hch : isWs6 ch = false) (hgl : (ch :: u).getLast? = some lc)
    (hl6 : isWs6 lc = false) :
    pstripL (w ++ ((ch :: u) ++ w2)) = ch :: u := by
  unfold pstripL
  rw [show (w ++ ((ch :: u) ++ w2)).dropWhile isWs6 = (ch :: u) ++ w2 from by
    refine dropWhile_append_of _ _ hw ?_
    intro y hy
    rw [List.cons_append, List.head?_cons] at hy
    injection hy with hy
    subst hy
    exact hch]
  rw [List.reverse_append]
  rw [dropWhile_append_of w2.reverse ((ch :: u).reverse)
    (fun x hx => hw2 x (List.mem_reverse.mp hx)) ?_]
  · rw [List.reverse_reverse]
  · intro y hy
    rw [List.head?_reverse, hgl] at hy
    injection hy with hy
    subst hy
    exact hl6

theorem pstripL_id (l : List Char) (a b : Char) (hh : l.head? = some a)
    (hna : isWs6 a = false) (hg : l.getLast? = some b) (hnb : isWs6 b = false) :
    pstripL l = l := by
  cases l with
  | nil => rfl
  | cons c t =>
    rw [List.head?_cons] at hh
    injection hh with hh
    subst hh
    unfold pstripL
    rw [show (c :: t).dropWhile isWs6 = c :: t from by
      rw [List.dropWhile_cons, hna]; rfl]
    rw [show (c :: t).reverse.dropWhile isWs6 = (c :: t).reverse from by
      cases hr : (c :: t).reverse with
      | nil => rfl
      | cons d q =>
        have hd : d = b := by
          have hhr : (d :: q).head? = some b := by
            rw [← hr, List.head?_reverse]
            exact hg
          rw [List.head?_cons] at hhr
          exact Option.some.inj hhr
        subst hd
        rw [List.dropWhile_cons, hnb]
        rfl]
    rw [List.reverse_reverse]

theorem pv_btk (f : Nat) (t : List Char) : parseValue f (btk :: t) = none := by
  cases f with
  | zero => rfl
  | succ g => rfl

theorem loadsL_btk (t : List Char) : loadsL (btk :: t) = none := by
  unfold loadsL
  dsimp only
  rw [show (btk :: t).dropWhile isWs = btk :: t from by
    rw [List.dropWhile_cons, show isWs btk = false from by decide]; rfl]
  rw [pv_btk]

theorem take_append_len {α : Type} (a b : List α) : (a ++ b).take a.length = a := by
  induction a with
  | nil => rfl
  | cons x t ih => simpa using ih

theorem drop_append_len {α : Type} (a b : List α) (n : Nat) :
    (a ++ b).drop (a.length + n) = b.drop n := by
  induction a with
  | nil => simp
  | cons x t ih => simpa [List.length_cons, Nat.succ_add] using ih

theorem fnt_eq4 (a b c d : Char) (R : List Char) :
    findNlTicks (a :: b :: c :: d :: R) =
      (if a = '\n' ∧ b = btk ∧ c = btk ∧ d = btk then some 0
       else (findNlTicks (b :: c :: d :: R)).map (fun n => n + 1)) := rfl

theorem fnt_term (R : List Char) :
    findNlTicks ('\n' :: btk :: btk :: btk :: R) = some 0 := by
  rw [fnt_eq4, if_pos ⟨rfl, rfl, rfl, rfl⟩]

theorem fnt_step (a b c d : Char) (R : List Char) (h : ¬(a = '\n' ∧ b = btk)) :
    findNlTicks (a :: b :: c :: d :: R) =
      (findNlTicks (b :: c :: d :: R)).map (fun n => n + 1) := by
  rw [fnt_eq4, if_neg (fun hc => h ⟨hc.1, hc.2.1⟩)]

theorem noNBb_pair (x y : Char) (t : List Char) (h : noNBb (x :: y :: t) = true) :
    ¬(x = '\n' ∧ y = btk) := by
  rintro ⟨h1, h2⟩
  subst h1
  subst h2
  rw [show noNBb ('\n' :: btk :: t) =
    (!('\n' = '\n' && btk = btk) && noNBb (btk :: t)) from rfl,
    Bool.and_eq_true] at h
  exact absurd h.1 (by decide)

/-- The terminator appended after terminator-free text is found exactly at
the junction. -/
theorem fnt_append (X : List Char) (hX : noNBb X = true) :
    findNlTicks (X ++ ('\n' :: btk :: btk :: btk :: [])) = some X.length := by
  induction X with
  | nil => exact fnt_term []
  | cons x X' ih =>
    have ih2 := ih (noNBb_tail x X' hX)
    cases X' with
    | nil =>
      simp only [List.cons_append, List.nil_append] at ih2 ⊢
      rw [fnt_step x '\n' btk btk (btk :: []) (fun hc => absurd hc.2 (by decide)),
        fnt_term]
      rfl
    | cons y X2 =>
      have hxy : ¬(x = '\n' ∧ y = btk) := noNBb_pair x y X2 hX
      cases X2 with
      | nil =>
        simp only [List.cons_append, List.nil_append] at ih2 ⊢
        rw [fnt_step x y '\n' btk (btk :: btk :: []) hxy, ih2]
        rfl
      | cons z X3 =>
        cases X3 with
        | nil =>
          simp only [List.cons_append, List.nil_append] at ih2 ⊢
          rw [fnt_step x y z '\n' (btk :: btk :: btk :: []) hxy, ih2]
          rfl
        | cons d0 X4 =>
          simp only [List.cons_append] at ih2 ⊢
          rw [fnt_step x y z d0 (X4 ++ ('\n' :: btk :: btk :: btk :: [])) hxy, ih2]
          rfl

theorem nlp_cons (c : Char) (t : List Char) :
    nlPositions (c :: t) =
      (if c = '\n' then 0 :: (nlPositions t).map (fun n => n + 1)
       else (nlPositions t).map (fun n => n + 1)) := rfl

theorem nlp_head (w : List Char) :
    nlPositions ('\n' :: w) = 0 :: (nlPositions w).map (fun n => n + 1) := rfl

/-- Every reported newline position is the length of the prefix before an
actual newline. -/
theorem nlp_mem (l : List Char) : ∀ i, i ∈ nlPositions l →
    ∃ pre post, l = pre ++ '\n' :: post ∧ pre.length = i := by
  induction l with
  | nil =>
    intro i h
    exact absurd h (List.not_mem_nil i)
  | cons c t ih =>
    intro i h
    rw [nlp_cons] at h
    by_cases hc : c = '\n'
    · rw [if_pos hc] at h
      rcases List.mem_cons.mp h with h0 | hm
      · subst h0
        exact ⟨[], t, by rw [hc]; rfl, rfl⟩
      · rcases List.mem_map.mp hm with ⟨j, hj, hji⟩
        obtain ⟨pre, post, hsp, hlen⟩ := ih j hj
        refine ⟨c :: pre, post, by rw [hsp]; rfl, ?_⟩
        simp only [List.length_cons, hlen]
        exact hji
    · rw [if_neg hc] at h
      rcases List.mem_map.mp h with ⟨j, hj, hji⟩
      obtain ⟨pre, post, hsp, hlen⟩ := ih j hj
      refine ⟨c :: pre, post, by rw [hsp]; rfl, ?_⟩
      simp only [List.length_cons, hlen]
      exact hji

theorem tryCands_cons (i : Nat) (rest : List Nat) (t : List Char) :
    tryCands (i :: rest) t =
      (match findNlTicks (t.drop (i+1)) with
       | some j => some ((t.drop (i+1)).take j, (t.drop (i+1)).drop (j+4))
       | none => tryCands rest t) := rfl

theorem p1Scan_succ (fuel : Nat) (c : Char) (t : List Char) :
    p1Scan (fuel + 1) (c :: t) =
      (match p1MatchAt (c :: t) with
       | some (g, rest) => g :: p1Scan fuel rest
       | none => p1Scan fuel t) := rfl

theorem p1Scan_nil (fuel : Nat) : p1Scan fuel [] = [] := by
  cases fuel with
  | zero => rfl
  | succ g => rfl

theorem firstLoadable_cons (g : List Char) (t : List (List Char)) :
    firstLoadable (g :: t) =
      (if (loadsL (pstripL g)).isSome then some (pstripL g) else firstLoadable t) := rfl

theorem p1MatchAt_fence (T : List Char) :
    p1MatchAt (btk :: btk :: btk :: 'j' :: 's' :: 'o' :: 'n' :: '\n' :: T)
      = matchWsNlGroup ('\n' :: T) := rfl

/-- Wrapping loadable text in one level of tagged fences makes the tagged
fence pattern match with the trimmed core as its group. -/
theorem extract_wrapped (s w u w2 : List Char) (ch lc : Char) (v : Json)
    (hs : s = w ++ ((ch :: u) ++ w2))
    (hw : ∀ x ∈ w, isWs x = true) (hw2 : ∀ x ∈ w2, isWs x = true)
    (hch : isWs6 ch = false) (hbtk : ch ≠ btk)
    (hgl : (ch :: u).getLast? = some lc) (hl6 : isWs6 lc = false)
    (hnb : noNBb (ch :: u) = true)
    (hload : loadsL (ch :: u) = some v) :
    extract_json_from_markdown
      (btk :: btk :: btk :: 'j' :: 's' :: 'o' :: 'n' :: '\n' ::
        (s ++ ('\n' :: btk :: btk :: btk :: []))) = some (ch :: u) := by
  subst hs
  have htw : (('\n' :: ((w ++ ((ch :: u) ++ w2)) ++
      ('\n' :: btk :: btk :: btk :: []))).takeWhile isWs6) = '\n' :: w := by
    rw [show '\n' :: ((w ++ ((ch :: u) ++ w2)) ++ ('\n' :: btk :: btk :: btk :: []))
        = ('\n' :: w) ++ ((ch :: u) ++ (w2 ++ ('\n' :: btk :: btk :: btk :: [])))
      from by simp [List.cons_append, List.append_assoc]]
    refine takeWhile_append_of ('\n' :: w)
      ((ch :: u) ++ (w2 ++ ('\n' :: btk :: btk :: btk :: []))) ?_ ?_
    · intro x hx
      rcases List.mem_cons.mp hx with h1 | h1
      · subst h1; decide
      · exact isWs_isWs6 x (hw x h1)
    · intro y hy
      rw [List.cons_append, List.head?_cons] at hy
      injection hy with hy
      subst hy
      exact hch
  obtain ⟨i, restC, hcand⟩ :=
    List.exists_cons_of_ne_nil
      (show (0 :: (nlPositions w).map (fun n => n + 1)).reverse ≠ [] by simp)
  have himem : i ∈ nlPositions ('\n' :: w) := by
    rw [nlp_head, ← List.mem_reverse, hcand]
    exact List.mem_cons_self i restC
  obtain ⟨pre, post, hsp, hlen⟩ := nlp_mem ('\n' :: w) i himem
  have hpost : ∀ x ∈ post, isWs6 x = true := by
    intro x hx
    have hxm : x ∈ '\n' :: w := by
      rw [hsp]
      exact List.mem_append_right _ (List.mem_cons_of_mem _ hx)
    rcases List.mem_cons.mp hxm with h1 | h1
    · subst h1; decide
    · exact isWs_isWs6 x (hw x h1)
  have hpostb : ∀ x ∈ post, x ≠ btk := fun x hx => isWs6_ne_btk x (hpost x hx)
  have hdrop : ('\n' :: ((w ++ ((ch :: u) ++ w2)) ++
      ('\n' :: btk :: btk :: btk :: []))).drop (i+1)
      = (post ++ ((ch :: u) ++ w2)) ++ ('\n' :: btk :: btk :: btk :: []) := by
    have h2 : ('\n' :: w) ++ ((ch :: u) ++ w2) ++ ('\n' :: btk :: btk :: btk :: [])
        = (pre ++ '\n' :: post) ++ ((ch :: u) ++ w2) ++
          ('\n' :: btk :: btk :: btk :: []) := by rw [hsp]
    have h1 : '\n' :: ((w ++ ((ch :: u) ++ w2)) ++ ('\n' :: btk :: btk :: btk :: []))
        = (pre ++ ['\n']) ++ ((post ++ ((ch :: u) ++ w2)) ++
          ('\n' :: btk :: btk :: btk :: [])) := by
      simp only [List.cons_append, List.append_assoc, List.nil_append] at h2 ⊢
      exact h2
    rw [h1, show i + 1 = (pre ++ ['\n']).length from by simp [hlen], List.drop_left]
  have hXnb : noNBb (post ++ ((ch :: u) ++ w2)) = true := by
    refine noNBb_append post ((ch :: u) ++ w2) (noNBb_of_all_ne_btk post hpostb)
      ?_ ?_
    · refine noNBb_append (ch :: u) w2 hnb
        (noNBb_of_all_ne_btk w2 (fun x hx => isWs_ne_btk x (hw2 x hx))) ?_
      rintro ⟨h1, h2⟩
      exact absurd (hw2 btk (head_mem w2 btk h2)) (by decide)
    · rintro ⟨h1, h2⟩
      rw [List.cons_append, List.head?_cons] at h2
      injection h2 with h2
      exact hbtk h2
  have hmwg : matchWsNlGroup ('\n' :: ((w ++ ((ch :: u) ++ w2)) ++
      ('\n' :: btk :: btk :: btk :: [])))
      = some (post ++ ((ch :: u) ++ w2), []) := by
    unfold matchWsNlGroup
    rw [htw, nlp_head, hcand, tryCands_cons, hdrop,
      fnt_append (post ++ ((ch :: u) ++ w2)) hXnb]
    dsimp only
    rw [take_append_len, drop_append_len]
    rfl
  have hpm := p1MatchAt_fence ((w ++ ((ch :: u) ++ w2)) ++
      ('\n' :: btk :: btk :: btk :: []))
  rw [hmwg] at hpm
  unfold extract_json_from_markdown
  rw [p1Scan_succ, hpm]
  dsimp only
  rw [p1Scan_nil, firstLoadable_cons,
    show pstripL (post ++ ((ch :: u) ++ w2)) = ch :: u from
      pstripL_decomp post u w2 ch lc hpost
        (fun x hx => isWs_isWs6 x (hw2 x hx)) hch hgl hl6,
    hload]
  rfl

/-- C9: for every reply string that json.loads parses directly as a JSON
object, parse_llm_response yields that object both on the reply itself
(strategy 1) and on the reply wrapped in one level of tagged json fences
(strategy 2 via extract_json_from_markdown), so the two runs agree. -/
theorem c9_fence_wrap_same (yamlLoad : String → Option Json) (s : String)
    (o : List (String × Json)) (hs : loads s = some (Json.obj o)) :
    parse_llm_response yamlLoad s = (true, Json.obj o) ∧
    parse_llm_response yamlLoad (wrapFence s) = (true, Json.obj o) := by
  have hs' : loadsL s.data = some (Json.obj o) := hs
  obtain ⟨w, ch, u, lc, w2, hceq, hw, hw2, hch, hbtk, hgl, hl6, hnb, hload⟩ :=
    loads_decomp s.data (Json.obj o) hs'
  have hstrip : pstripL s.data = ch :: u := by
    rw [hceq]
    exact pstripL_decomp w u w2 ch lc (fun x hx => isWs_isWs6 x (hw x hx))
      (fun x hx => isWs_isWs6 x (hw2 x hx)) hch hgl hl6
  constructor
  · unfold parse_llm_response
    rw [hstrip, if_neg (List.cons_ne_nil ch u)]
    dsimp only
    rw [hload]
  · have hwd : (wrapFence s).data
        = btk :: btk :: btk :: 'j' :: 's' :: 'o' :: 'n' :: '\n' ::
          (s.data ++ ('\n' :: btk :: btk :: btk :: [])) := rfl
    have hgl4 : (s.data ++ ('\n' :: btk :: btk :: btk :: [])).getLast?
        = some btk := by
      rw [gl_append s.data ('\n' :: btk :: btk :: btk :: []) (by simp)]
      rfl
    have hglW : (wrapFence s).data.getLast? = some btk := by
      rw [hwd]
      exact gl_cons _ _ _ (gl_cons _ _ _ (gl_cons _ _ _ (gl_cons _ _ _
        (gl_cons _ _ _ (gl_cons _ _ _ (gl_cons _ _ _ (gl_cons _ _ _ hgl4)))))))
    have hhW : (wrapFence s).data.head? = some btk := by
      rw [hwd]
      rfl
    have hid : pstripL (wrapFence s).data = (wrapFence s).data :=
      pstripL_id _ btk btk hhW (by decide) hglW (by decide)
    unfold parse_llm_response
    rw [hid, hwd, if_neg (List.cons_ne_nil _ _)]
    dsimp only
    rw [loadsL_btk]
    dsimp only
    unfold plrStage2
    rw [extract_wrapped s.data w u w2 ch lc (Json.obj o) hceq hw hw2 hch hbtk
      hgl hl6 hnb hload]
    dsimp only
    rw [if_neg (List.cons_ne_nil ch u), hload]

theorem c9_fence_wrap_same_witness :
    loads ⟨['{', '"', 'a', '"', ':', '1', '}']⟩
        = some (Json.obj [("a", Json.num "1")]) ∧
    (parse_llm_response (fun _ => none) ⟨['{', '"', 'a', '"', ':', '1', '}']⟩
        = (true, Json.obj [("a", Json.num "1")]) ∧
      parse_llm_response (fun _ => none)
          (wrapFence ⟨['{', '"', 'a', '"', ':', '1', '}']⟩)
        = (true, Json.obj [("a", Json.num "1")])) :=
  ⟨rfl, c9_fence_wrap_same (fun _ => none) ⟨['{', '"', 'a', '"', ':', '1', '}']⟩
    [("a", Json.num "1")] rfl⟩

end MAS
